import Mathlib

/-!
# Verification of the imtjson20 JSON value library

Shallow embedding of the core of the `imtjson20` C++ library
(`src/imtjson/value.h`, `src/imtjson/parser.h`, `src/imtjson/serializer.h`,
`src/imtjson/common.h`) and proofs about the claims of its specification.

Modelling conventions:
* C++ bytes (`char` viewed through `std::string_view`) are modelled as `Nat`
  (value 0..255); signedness-dependent checks of the source are translated on
  the unsigned byte value explicitly.
* The `Value` tagged union of `value.h` is modelled by a mutual inductive
  mirroring its `Storage` variants.  Keys of objects are modelled by their
  string bytes (`class Key` wraps a string `Value`, and every operation of the
  library reads it through `get_string()`).
* `double` payloads (`Storage::dnum`) are modelled by their 64-bit IEEE-754
  bit pattern (a `Nat` below `2^64`); the binary format copies those bytes
  verbatim (little-endian host order) so this is exact.  The hand-rolled
  *textual* floating point printer (`Serializer::render_item(double, Type)`,
  built on `log10`/`pow`/`modf`) is not modelled: the text serializer returns
  `none` when it meets a `dnum` value, and every theorem about the text
  round trip excludes `dnum` by hypothesis.
* `AbstractCustomValue` (a polymorphic extension point hidden behind virtual
  dispatch) is outside the modelled value space.
* The borrowed-storage variants `string_ref`/`number_ref` (constexpr-only
  construction path) are kept in the value space: `visit` collapses them to
  the same `string_view` alternative as the other string variants.
-/

namespace Imtjson

/-- String bytes (`std::string` / `std::string_view` contents); a byte of
input/output (C++ `char` seen as `unsigned char`, 0..255) is a plain `Nat`. -/
abbrev ByteStr := List Nat

mutual

/-- The `Value` class of `value.h`, one constructor per `Storage` variant
class.  `short_string_N`/`short_number_N` keep the 15-byte inline buffer and
the length carried by the tag, as in `ShortStringStorage`. -/
inductive Value where
  | undefined : Value
  | null : Value
  | boolean (b : Bool) : Value
  | int32 (n : Int) : Value
  | uint32 (n : Nat) : Value
  | int64 (n : Int) : Value
  | uint64 (n : Nat) : Value
  /-- `Storage::dnum`; `bits` is the IEEE-754 image of the double, as the
  integer whose little-endian bytes are the object representation. -/
  | dnum (bits : Nat) : Value
  | shortString (len : Nat) (buf : ByteStr) : Value
  | shortNumber (len : Nat) (buf : ByteStr) : Value
  | longString (s : ByteStr) : Value
  | longNumber (s : ByteStr) : Value
  | stringRef (s : ByteStr) : Value
  | numberRef (s : ByteStr) : Value
  | emptyArray : Value
  | emptyObject : Value
  | array (xs : ValueList) : Value
  | object (xs : KVList) : Value
deriving DecidableEq, Repr

/-- `Container<Value>` contents. -/
inductive ValueList where
  | nil : ValueList
  | cons (v : Value) (tl : ValueList) : ValueList
deriving DecidableEq, Repr

/-- `Container<KeyValue>` contents; a `KeyValue` is the key's string bytes
paired with the value. -/
inductive KVList where
  | nil : KVList
  | cons (key : ByteStr) (v : Value) (tl : KVList) : KVList
deriving DecidableEq, Repr

end

namespace ValueList

/-- Number of elements (`Container<Value>::size`). -/
def length : ValueList → Nat
  | .nil => 0
  | .cons _ tl => 1 + tl.length

/-- Convert from a Lean list (used when the C++ side builds a
`std::vector<Value>` and moves it into a container). -/
def ofList : List Value → ValueList
  | [] => .nil
  | v :: tl => .cons v (ofList tl)

def toList : ValueList → List Value
  | .nil => []
  | .cons v tl => v :: toList tl

end ValueList

namespace KVList

/-- Number of entries (`Container<KeyValue>::size`). -/
def length : KVList → Nat
  | .nil => 0
  | .cons _ _ tl => 1 + tl.length

def ofList : List (ByteStr × Value) → KVList
  | [] => .nil
  | (k, v) :: tl => .cons k v (ofList tl)

def toList : KVList → List (ByteStr × Value)
  | .nil => []
  | .cons k v tl => (k, v) :: toList tl

/-- The keys, in storage order. -/
def keys : KVList → List ByteStr
  | .nil => []
  | .cons k _ tl => k :: keys tl

end KVList

/-! ## String views and basic queries -/

namespace Value

/-- The `std::string_view` produced by `Value::visit` for the string-like
storage variants (`short_string_N`, `short_number_N`, `long_string`,
`long_number`, `string_ref`, `number_ref`); `none` for every other variant.
For the inline variants the view is `short_str` truncated to the length
stored in the tag (`std::string_view(_un.short_str, storage & 0xF)`). -/
def strView : Value → Option ByteStr
  | .shortString len buf => some (buf.take len)
  | .shortNumber len buf => some (buf.take len)
  | .longString s => some s
  | .longNumber s => some s
  | .stringRef s => some s
  | .numberRef s => some s
  | _ => none

/-- `Value::defined()`: `_storage != Storage::undefined`. -/
def defined : Value → Bool
  | .undefined => false
  | _ => true

end Value

/-- The seven logical types of `enum class Type`. -/
inductive JType where
  | undefined | null | boolean | number | string | array | object
deriving DecidableEq, Repr

namespace Value

/-- `Value::type()` (custom values excluded from the model). -/
def type : Value → JType
  | .undefined => .undefined
  | .null => .null
  | .boolean _ => .boolean
  | .int32 _ | .uint32 _ | .int64 _ | .uint64 _ | .dnum _ => .number
  | .shortNumber _ _ | .longNumber _ | .numberRef _ => .number
  | .shortString _ _ | .longString _ | .stringRef _ => .string
  | .emptyArray | .array _ => .array
  | .emptyObject | .object _ => .object

end Value

/-! ## IEEE-754 double comparison

`Value::operator==` compares two `dnum` payloads with the C++ `==` on
`double`.  On bit patterns this is: false if either operand is a NaN,
otherwise true iff the patterns agree or both encode a zero (`+0.0 == -0.0`).
-/

/-- The bit pattern encodes a NaN: exponent field all ones, mantissa nonzero. -/
def bitsIsNaN (bits : Nat) : Bool :=
  (bits >>> 52) % 2048 == 2047 && bits % 2 ^ 52 != 0

/-- The bit pattern encodes `+0.0` or `-0.0`. -/
def bitsIsZero (bits : Nat) : Bool :=
  bits % 2 ^ 63 == 0

/-- C++ `==` on two doubles given by their bit patterns. -/
def doubleEqBits (a b : Nat) : Bool :=
  !bitsIsNaN a && !bitsIsNaN b && (a == b || (bitsIsZero a && bitsIsZero b))

/-! ## Value equality

`Value::operator==` (value.h): a double `visit`; comparison is `false` if
either side visits to `Undefined`, `false` if the two visited alternatives
differ, and the payload comparison otherwise.  Containers compare by
`Container::operator==` (size, then element-wise); `KeyValue::operator==`
compares the key (string bytes through `Key::operator==`) and the value.
-/

mutual

def valueEq : Value → Value → Bool
  | .null, .null => true
  | .boolean x, .boolean y => x == y
  | .int32 x, .int32 y => x == y
  | .uint32 x, .uint32 y => x == y
  | .int64 x, .int64 y => x == y
  | .uint64 x, .uint64 y => x == y
  | .dnum x, .dnum y => doubleEqBits x y
  | .array xs, .array ys => valueListEq xs ys
  | .array xs, .emptyArray => xs.length == 0
  | .emptyArray, .array ys => ys.length == 0
  | .emptyArray, .emptyArray => true
  | .object xs, .object ys => kvListEq xs ys
  | .object xs, .emptyObject => xs.length == 0
  | .emptyObject, .object ys => ys.length == 0
  | .emptyObject, .emptyObject => true
  | a, b =>
    -- remaining alternatives: Undefined never compares equal; the string-like
    -- variants all collapse to `string_view`; any other mixed pair differs.
    match a.strView, b.strView with
    | some x, some y => x == y
    | _, _ => false

def valueListEq : ValueList → ValueList → Bool
  | .nil, .nil => true
  | .cons x xs, .cons y ys => valueEq x y && valueListEq xs ys
  | _, _ => false

def kvListEq : KVList → KVList → Bool
  | .nil, .nil => true
  | .cons k x xs, .cons l y ys => k == l && valueEq x y && kvListEq xs ys
  | _, _ => false

end

/-! ## Nat-string ordering

`std::string_view::operator<` / `compare` use `char_traits<char>`, which
compares the bytes as `unsigned char` (memcmp order), shorter prefix first.
-/

/-- `std::string_view` three-way compare (sign only). -/
def strCompare : ByteStr → ByteStr → Ordering
  | [], [] => .eq
  | [], _ :: _ => .lt
  | _ :: _, [] => .gt
  | a :: as, b :: bs =>
    if a < b then .lt
    else if b < a then .gt
    else strCompare as bs

/-- `std::string_view::operator<`. -/
def lexLt (a b : ByteStr) : Bool := strCompare a b == .lt

/-! ## Construction -/

namespace Value

/-- The string literals of `value.h`, as UTF-8 bytes. -/
def trueBytes : ByteStr := [116, 114, 117, 101]
def falseBytes : ByteStr := [102, 97, 108, 115, 101]
def nullBytes : ByteStr := [110, 117, 108, 108]
def undefinedBytes : ByteStr := [40, 117, 110, 100, 101, 102, 105, 110, 101, 100, 41]

/-- `"∞"` in UTF-8. -/
def infinityBytes : ByteStr := [226, 136, 158]
/-- `"-∞"` in UTF-8. -/
def negInfinityBytes : ByteStr := [45, 226, 136, 158]

/-- `Value::Value(std::string_view, bool)`, runtime path: strings shorter
than 15 bytes go to the inline variant (buffer = bytes, zero-padded to 15,
length in the tag), anything else to the refcounted heap variant.  (The
`std::is_constant_evaluated()` branch producing `string_ref`/`number_ref`
is compile-time only and never taken by the parser.) -/
def mkStr (s : ByteStr) (isNumber : Bool) : Value :=
  if s.length < 15 then
    let buf := s ++ List.replicate (15 - s.length) 0
    if isNumber then .shortNumber s.length buf else .shortString s.length buf
  else
    if isNumber then .longNumber s else .longString s

/-- String construction (`Value(str)`, `is_number = false`). -/
def mkString (s : ByteStr) : Value := mkStr s false

/-- Number-string construction (`Value(str, true)`). -/
def mkNumber (s : ByteStr) : Value := mkStr s true

/-- `Value::get_string()` (custom values excluded from the model). -/
def get_string (v : Value) : ByteStr :=
  match v.strView with
  | some s => s
  | none =>
    match v with
    | .boolean b => if b then trueBytes else falseBytes
    | .null => nullBytes
    | .undefined => undefinedBytes
    | _ => []

end Value

/-! ## Object sorting

`Value::sort_object` runs `std::sort` with the comparator
`a.key.get_string() < b.key.get_string()`.  `std::sort` leaves the relative
order of equal keys unspecified; the model fixes it to a stable insertion
sort (one legal outcome, and the one that matters for every claim is that
the result is sorted and keeps exactly the same multiset of entries).
-/

/-- Insert an entry in front of the first entry whose key is not smaller. -/
def kvInsert (k : ByteStr) (v : Value) : KVList → KVList
  | .nil => .cons k v .nil
  | .cons l w tl =>
    if lexLt l k then .cons l w (kvInsert k v tl)
    else .cons k v (.cons l w tl)

/-- `Value::sort_object` (modelled as a stable insertion sort on `lexLt`). -/
def sortObject : KVList → KVList
  | .nil => .nil
  | .cons k v tl => kvInsert k v (sortObject tl)

namespace Value

/-- `init_array_move` / the `Value(std::vector<Value>&&)` constructor:
an empty vector yields `Storage::empty_array`, otherwise the elements are
moved into a fresh container. -/
def mkArray (xs : List Value) : Value :=
  if xs.isEmpty then .emptyArray else .array (.ofList xs)

/-- `init_object_move` / the `Value(std::vector<KeyValue>&&)` constructor:
an empty vector yields `Storage::empty_object`, otherwise the entries are
moved into a fresh container and sorted by `sort_object`. -/
def mkObject (xs : List (ByteStr × Value)) : Value :=
  if xs.isEmpty then .emptyObject else .object (sortObject (.ofList xs))

/-- `Value::size()`: container sizes, 0 for everything else (`empty_array`
and `empty_object` visit as empty containers). -/
def size : Value → Nat
  | .array xs => xs.length
  | .object xs => xs.length
  | _ => 0

/-- `Value::keys()`' underlying span: the entry sequence for
`Storage::object`, empty for every other storage. -/
def keysList : Value → KVList
  | .object xs => xs
  | _ => .nil

/-- The key sequence exposed by `keys()`. -/
def keyStrings (v : Value) : List ByteStr := v.keysList.keys

end Value

/-! ## Keyed and indexed access -/

/-- `std::lower_bound` over the entry sequence with the comparator
`key.get_string() < key`: the suffix starting at the first entry whose key
is not less than `k` (equal to the binary search of the source on its
sorted-object inputs, by the `lower_bound` contract). -/
def kvLowerBound (k : ByteStr) : KVList → KVList
  | .nil => .nil
  | .cons l v tl =>
    if lexLt l k then kvLowerBound k tl
    else .cons l v tl

namespace Value

/-- `Value::operator[](const std::string_view&)`: on an object,
`lower_bound` then an equality check, `undefined` on a miss; `undefined`
for every non-object receiver (`empty_object` visits as an empty
container, so it takes the miss path). -/
def getKey (v : Value) (k : ByteStr) : Value :=
  match v with
  | .object xs =>
    match kvLowerBound k xs with
    | .nil => .undefined
    | .cons l w _ => if l == k then w else .undefined
  | .emptyObject => .undefined
  | _ => .undefined

/-- `ValueList` element at `index`. -/
def vlGet : ValueList → Nat → Option Value
  | .nil, _ => none
  | .cons v _, 0 => some v
  | .cons _ tl, n + 1 => vlGet tl n

/-- `KVList` entry at `index`. -/
def kvGet : KVList → Nat → Option (ByteStr × Value)
  | .nil, _ => none
  | .cons k v _, 0 => some (k, v)
  | .cons _ _ tl, n + 1 => kvGet tl n

/-- `Value::operator[](unsigned int)`: the `index`-th array element or
object value, `undefined` out of range or on non-containers. -/
def getIndex (v : Value) (index : Nat) : Value :=
  match v with
  | .array xs =>
    if index ≥ xs.length then .undefined
    else (vlGet xs index).getD .undefined
  | .object xs =>
    if index ≥ xs.length then .undefined
    else ((kvGet xs index).map Prod.snd).getD .undefined
  | _ => .undefined

end Value

/-! ## `merge_keys`

`Value::merge_keys(changes)` merges the two sorted entry sequences
(`keys()` of the receiver and of the argument — empty for non-object
receivers).  On distinct keys the smaller key is copied (entries coming
from `changes` only when their value is defined); on a key collision the
entry of `changes` wins when defined, and the key disappears entirely when
the `changes` value is undefined.  The merged container is installed with
the `Value(PContainer<KeyValue>)` constructor, which tags `Storage::object`
without re-sorting.
-/

def mergeKVs : KVList → KVList → KVList
  | .nil, .nil => .nil
  | .cons k v tl, .nil => .cons k v (mergeKVs tl .nil)
  | .nil, .cons l w tl =>
    if w.defined then .cons l w (mergeKVs .nil tl)
    else mergeKVs .nil tl
  | .cons k v tl1, .cons l w tl2 =>
    match strCompare k l with
    | .lt => .cons k v (mergeKVs tl1 (.cons l w tl2))
    | .gt =>
      if w.defined then .cons l w (mergeKVs (.cons k v tl1) tl2)
      else mergeKVs (.cons k v tl1) tl2
    | .eq =>
      if w.defined then .cons l w (mergeKVs tl1 tl2)
      else mergeKVs tl1 tl2

namespace Value

/-- `Value::merge_keys` (the resulting value; the C++ method assigns it in
place and returns a self-reference). -/
def merge_keys (v changes : Value) : Value :=
  .object (mergeKVs v.keysList changes.keysList)

end Value

/-! ## Binary TLV serializer (`Serializer<Format::binary>`, `common.h`)

The serializer is a pushdown machine producing chunks on demand;
`binarize` concatenates every chunk until the machine runs dry.  For the
binary format the machine renders every child (no elision), so the whole
output is the depth-first concatenation of `render_item` outputs, which the
recursive functions below compute directly.
-/

namespace Bin

/-- `BinaryType` constants of `common.h`. -/
def tNull : Nat := 0x00
def tTrue : Nat := 0x01
def tFalse : Nat := 0x02
def tDouble : Nat := 0x03
def tUndefined : Nat := 0x07
def tPNumber : Nat := 0x10
def tNNumber : Nat := 0x18
def tString : Nat := 0x20
def tStringNumber : Nat := 0x28
def tArray : Nat := 0x30
def tObject : Nat := 0x38

/-- The `count_bytes` loop of `render_binary_type_size`: how many of the
eight byte positions of `size` hold a nonzero suffix. -/
def countBytes (sz : Nat) : Nat :=
  (List.range 8).foldl (fun acc i => acc + if sz >>> (8 * i) > 0 then 1 else 0) 0

/-- The trailing big-endian byte loop of `render_binary_type_size`. -/
def beBytes : Nat → Nat → ByteStr
  | 0, _ => []
  | k + 1, sz => ((sz >>> (k * 8)) % 256) :: beBytes k sz

/-- `Serializer::render_binary_type_size`. -/
def renderTypeSize (type : Nat) (sz : Nat) : ByteStr :=
  let cb := max 1 (countBytes sz)
  (type ||| (cb - 1)) :: beBytes cb sz

/-- The eight little-endian object-representation bytes of a double
(`std::copy` of the raw `double` on the little-endian host). -/
def leBytes : Nat → Nat → ByteStr
  | 0, _ => []
  | k + 1, bits => (bits % 256) :: leBytes k (bits >>> 8)

/-- Reassemble the double bit image from its little-endian bytes
(`parse_state(StateDoubleNumber&)`). -/
def leToNat : ByteStr → Nat
  | [] => 0
  | b :: tl => b + 256 * leToNat tl

end Bin

mutual

/-- Binary `render_value`/`render_item` dispatch over the visited payload.
Integers: `render_item(const T&, Type)` picks positive/negative major and
the magnitude (`static_cast<std::uint64_t>(-v)` = `n.natAbs` for the
negative in-range case); strings carry the number flag through
`Value::type()`; containers render the count followed by every child
(keys rendered as plain strings via `render_key`). -/
def binValue : Value → ByteStr
  | .undefined => [Bin.tUndefined]
  | .null => [Bin.tNull]
  | .boolean b => [if b then Bin.tTrue else Bin.tFalse]
  | .int32 n =>
    if n < 0 then Bin.renderTypeSize Bin.tNNumber n.natAbs
    else Bin.renderTypeSize Bin.tPNumber n.toNat
  | .uint32 n => Bin.renderTypeSize Bin.tPNumber n
  | .int64 n =>
    if n < 0 then Bin.renderTypeSize Bin.tNNumber n.natAbs
    else Bin.renderTypeSize Bin.tPNumber n.toNat
  | .uint64 n => Bin.renderTypeSize Bin.tPNumber n
  | .dnum bits => Bin.tDouble :: Bin.leBytes 8 bits
  | .shortString len buf => Bin.renderTypeSize Bin.tString (buf.take len).length ++ buf.take len
  | .shortNumber len buf => Bin.renderTypeSize Bin.tStringNumber (buf.take len).length ++ buf.take len
  | .longString s => Bin.renderTypeSize Bin.tString s.length ++ s
  | .longNumber s => Bin.renderTypeSize Bin.tStringNumber s.length ++ s
  | .stringRef s => Bin.renderTypeSize Bin.tString s.length ++ s
  | .numberRef s => Bin.renderTypeSize Bin.tStringNumber s.length ++ s
  | .emptyArray => Bin.renderTypeSize Bin.tArray 0
  | .emptyObject => Bin.renderTypeSize Bin.tObject 0
  | .array xs => Bin.renderTypeSize Bin.tArray xs.length ++ binVL xs
  | .object xs => Bin.renderTypeSize Bin.tObject xs.length ++ binKVL xs

def binVL : ValueList → ByteStr
  | .nil => []
  | .cons v tl => binValue v ++ binVL tl

def binKVL : KVList → ByteStr
  | .nil => []
  | .cons k v tl => (Bin.renderTypeSize Bin.tString k.length ++ k) ++ binValue v ++ binKVL tl

end

/-- `binarize(v)`: all serializer chunks concatenated. -/
def binarize (v : Value) : ByteStr := binValue v

/-! ## Binary TLV parser (`Parser<Fn, Format::binary>`)

The incremental binary parser is a pushdown machine
(`DetectType`/`StateBinNumber`/`StateBinString`/`StateBinArray`/
`StateBinObject`); its one-shot wrapper `unbinarize` feeds the whole input
and either throws `ParseError` (on `_is_error` or on exhausted input with a
nonempty stack) or returns the result, ignoring trailing bytes.  The
recursive-descent functions below compute the same result; `fuel` bounds
the call-tree depth (the C++ recursion is the explicit stack) and
`unbinarize` passes provably sufficient fuel.
-/

/-- `parse_state(StateBinNumber&)`: read `sz` big-endian bytes into the
accumulator (`accum << 8 | byte`; the model writes `* 256 +`, equal on byte
values < 256); `none` when the input ends first. -/
def readBE (acc : Nat) : Nat → ByteStr → Option (Nat × ByteStr)
  | 0, input => some (acc, input)
  | _ + 1, [] => none
  | sz + 1, b :: input => readBE (acc * 256 + b) sz input

/-- `parse_state(StateBinString&)` / `StateDoubleNumber`: read exactly `n`
payload bytes; `none` when the input ends first. -/
def takeBytes : Nat → ByteStr → Option (ByteStr × ByteStr)
  | 0, input => some ([], input)
  | _ + 1, [] => none
  | n + 1, b :: input =>
    match takeBytes n input with
    | none => none
    | some (s, rest) => some (b :: s, rest)

/-- `static_cast<std::int64_t>` of a `uint64` accumulator (two's
complement wrap of the host). -/
def toInt64 (n : Nat) : Int :=
  if n < 2 ^ 63 then (n : Int) else (n : Int) - 2 ^ 64

mutual

/-- One value of the TLV stream: header dispatch of
`parse_state(DetectType&)` (binary branch) plus the continuation frames it
pushes. -/
def parseBinV : Nat → ByteStr → Option (Value × ByteStr)
  | 0, _ => none
  | _ + 1, [] => none
  | fuel + 1, b :: input =>
    let maj := b &&& 0xF8
    let sz := (b &&& 0x07) + 1
    if maj == 0x00 then
      -- simple: switch on the whole header byte; default yields undefined
      if b == Bin.tNull then some (.null, input)
      else if b == Bin.tTrue then some (.boolean true, input)
      else if b == Bin.tFalse then some (.boolean false, input)
      else if b == Bin.tDouble then
        match takeBytes 8 input with
        | none => none
        | some (ds, rest) => some (.dnum (Bin.leToNat ds), rest)
      else some (.undefined, input)
    else if maj == Bin.tPNumber then
      match readBE 0 sz input with
      | none => none
      | some (accum, rest) => some (.uint64 accum, rest)  -- Value(std::uint64_t)
    else if maj == Bin.tNNumber then
      match readBE 0 sz input with
      | none => none
      | some (accum, rest) => some (.int64 (-(toInt64 accum)), rest)
    else if maj == Bin.tString then
      match readBE 0 sz input with
      | none => none
      | some (len, rest) =>
        match takeBytes len rest with
        | none => none
        | some (s, rest2) => some (.mkString s, rest2)
    else if maj == Bin.tStringNumber then
      match readBE 0 sz input with
      | none => none
      | some (len, rest) =>
        match takeBytes len rest with
        | none => none
        | some (s, rest2) => some (.mkNumber s, rest2)
    else if maj == Bin.tArray then
      match readBE 0 sz input with
      | none => none
      | some (n, rest) =>
        if n == 0 then some (.emptyArray, rest)  -- finish_state: `_result = Type::array`
        else
          match parseBinList fuel n rest with
          | none => none
          | some (xs, rest2) => some (.mkArray xs, rest2)
    else if maj == Bin.tObject then
      match readBE 0 sz input with
      | none => none
      | some (n, rest) =>
        if n == 0 then some (.emptyObject, rest)  -- `_result = Type::object`
        else
          match parseBinKVs fuel n rest with
          | none => none
          | some (kvs, rest2) => some (.mkObject kvs, rest2)
    else none  -- any other major tag: `_is_error = true`

/-- `StateBinArray` collection: `n` nested values. -/
def parseBinList : Nat → Nat → ByteStr → Option (List Value × ByteStr)
  | 0, _, _ => none
  | _ + 1, 0, input => some ([], input)
  | fuel + 1, n + 1, input =>
    match parseBinV fuel input with
    | none => none
    | some (v, rest) =>
      match parseBinList fuel n rest with
      | none => none
      | some (xs, rest2) => some (v :: xs, rest2)

/-- `StateBinObject` collection: `n` key/value pairs; a key whose type is
not `string` raises the error (`finish_state(StateBinObject&)`). -/
def parseBinKVs : Nat → Nat → ByteStr → Option (List (ByteStr × Value) × ByteStr)
  | 0, _, _ => none
  | _ + 1, 0, input => some ([], input)
  | fuel + 1, n + 1, input =>
    match parseBinV fuel input with
    | none => none
    | some (k, rest) =>
      if k.type != .string then none
      else
        match parseBinV fuel rest with
        | none => none
        | some (v, rest2) =>
          match parseBinKVs fuel n rest2 with
          | none => none
          | some (kvs, rest3) => some ((k.get_string, v) :: kvs, rest3)

end

/-- `unbinarize(bin)`: `none` models the `ParseError` throw (parse error or
truncated input); trailing unconsumed bytes are ignored, as in the C++
wrapper.  The fuel bounds the nesting depth of the stream and `3·|bin| + 3`
is proved sufficient for every stream the serializer emits. -/
def unbinarize (bin : ByteStr) : Option Value :=
  match parseBinV (3 * bin.length + 3) bin with
  | some (v, _) => some v
  | none => none

/-! ## Text serializer (`Serializer<Format::text>`)

Output of `stringify`: every chunk of the pushdown machine concatenated, in
the same depth-first order the recursion below produces.  `undefined`
children of containers are skipped without a separator (`next()` and the
container `render_item`s); a rendered `undefined` (only reachable at the
top level) falls through to `null`.

The hand-rolled floating point printer (`render_item(double, Type)`) is the
one part left out of the model: a `dnum` value makes the text serializer
return `none`, and the round-trip theorems exclude `dnum` by hypothesis.
-/

/-- Uppercase hex digit (from `snprintf("\\u%04X")`). -/
def hexDigit (n : Nat) : Nat :=
  if n < 10 then 48 + n else 55 + n

/-- `Serializer::encode`, per input byte.  The source's quirks are kept
verbatim: `'\b'` emits `b\` (bytes `98 92`) and `'\r'` emits `\f`; the
control-byte check `c >= 0 && c < 0x20` on a signed `char` holds exactly
for byte values below 32. -/
def encodeChar (c : Nat) : ByteStr :=
  if c == 34 then [92, 34]
  else if c == 92 then [92, 92]
  else if c == 8 then [98, 92]
  else if c == 12 then [92, 102]
  else if c == 10 then [92, 110]
  else if c == 13 then [92, 102]
  else if c == 9 then [92, 116]
  else if c < 32 then [92, 117, 48, 48, hexDigit (c / 16), hexDigit (c % 16)]
  else [c]

/-- `Serializer::encode` over a whole string. -/
def encodeStr : ByteStr → ByteStr
  | [] => []
  | c :: tl => encodeChar c ++ encodeStr tl

/-- A rendered string payload: `'"' ++ encode(s) ++ '"'`. -/
def quoteStr (s : ByteStr) : ByteStr :=
  34 :: encodeStr s ++ [34]

/-- The digit-collecting loop of `render_unsigned_number` (nonzero case);
the first argument is fuel, always at least the digit count when called
with `n` itself. -/
def natDigitsAux : Nat → Nat → ByteStr
  | 0, _ => []
  | fuel + 1, n => if n == 0 then [] else natDigitsAux fuel (n / 10) ++ [n % 10 + 48]

/-- `render_unsigned_number`. -/
def natDecimal (n : Nat) : ByteStr :=
  if n == 0 then [48] else natDigitsAux n n

/-- `render_item(const T&, Type)` (text): sign prefix, then the unsigned
rendering of the magnitude. -/
def intDecimal (n : Int) : ByteStr :=
  if n < 0 then 45 :: natDecimal n.natAbs else natDecimal n.toNat

mutual

/-- Text `render_value`/`render_item` dispatch.  String-like payloads with
logical type `number` are copied verbatim, other strings are quoted and
escaped; `none` only on the unmodelled `dnum` printer. -/
def textValue : Value → Option ByteStr
  | .undefined => some Value.nullBytes
  | .null => some Value.nullBytes
  | .boolean b => some (if b then Value.trueBytes else Value.falseBytes)
  | .int32 n => some (intDecimal n)
  | .uint32 n => some (natDecimal n)
  | .int64 n => some (intDecimal n)
  | .uint64 n => some (natDecimal n)
  | .dnum _ => none
  | .shortString len buf => some (quoteStr (buf.take len))
  | .shortNumber len buf => some (buf.take len)
  | .longString s => some (quoteStr s)
  | .longNumber s => some s
  | .stringRef s => some (quoteStr s)
  | .numberRef s => some s
  | .emptyArray => some [91, 93]
  | .emptyObject => some [123, 125]
  | .array xs => (textArrHead xs).map (91 :: ·)
  | .object xs => (textObjHead xs).map (123 :: ·)

/-- The first-element scan of `render_item(const Container<Value>&, Type)`:
skip undefined elements; render the first defined one without a comma. -/
def textArrHead : ValueList → Option ByteStr
  | .nil => some [93]
  | .cons v tl =>
    if v.defined then
      match textValue v, textArrTail tl with
      | some a, some b => some (a ++ b)
      | _, _ => none
    else textArrHead tl

/-- The `StateArray` continuation of `next()`: a comma before every further
defined element, undefined elements skipped without a separator. -/
def textArrTail : ValueList → Option ByteStr
  | .nil => some [93]
  | .cons v tl =>
    if v.defined then
      match textValue v, textArrTail tl with
      | some a, some b => some (44 :: a ++ b)
      | _, _ => none
    else textArrTail tl

/-- First-entry scan of `render_item(const Container<KeyValue>&, Type)`:
skip entries with undefined values; the first kept one renders as
`key ':' value`. -/
def textObjHead : KVList → Option ByteStr
  | .nil => some [125]
  | .cons k v tl =>
    if v.defined then
      match textValue v, textObjTail tl with
      | some a, some b => some (quoteStr k ++ 58 :: a ++ b)
      | _, _ => none
    else textObjHead tl

/-- The `StateObject` continuation of `next()`. -/
def textObjTail : KVList → Option ByteStr
  | .nil => some [125]
  | .cons k v tl =>
    if v.defined then
      match textValue v, textObjTail tl with
      | some a, some b => some (44 :: quoteStr k ++ 58 :: a ++ b)
      | _, _ => none
    else textObjTail tl

end

/-- `stringify(v)`: all serializer chunks concatenated. -/
def stringify (v : Value) : Option ByteStr := textValue v

/-! ## JSON escape decoding (`decode_json_string`, parser.h)

The C++ decoder runs **in place** over the accumulated raw bytes: it reads
at the scan iterator and writes at an output iterator that never overtakes
it (writes at the scan position rewrite the byte just read with itself), so
every read sees the original buffer.  The model therefore reads from the
original suffix and writes into a copy of the buffer, returning the first
`out` bytes at the end.

Note the shared `++output` after the `switch`: the `default:` arm (an
invalid escape) and the out-of-range-codepoint arm write nothing but still
advance the output, leaving the stale buffer byte at that position in the
decoded result.
-/

/-- `_details::hex_to_int`. -/
def hexToInt (c : Nat) : Nat :=
  if 48 ≤ c && c ≤ 57 then c - 48
  else if 65 ≤ c && c ≤ 70 then c - 65 + 10
  else if 97 ≤ c && c ≤ 102 then c - 97 + 10
  else 0

/-- The `codepoint = (codepoint << 4) | hex_to_int(*it)` accumulation over
up to four hex digits. -/
def hexAccum (start : Nat) (hs : ByteStr) : Nat :=
  hs.foldl (fun a c => a * 16 + hexToInt c) start

/-- The UTF-8 emission ladder of the `'u'` case; empty for code points
above `0x10FFFF` (where the source writes nothing). -/
def utf8Bytes (cp : Nat) : ByteStr :=
  if cp ≤ 0x7F then [cp]
  else if cp ≤ 0x7FF then
    [0xC0 ||| ((cp >>> 6) &&& 0x1F), 0x80 ||| (cp &&& 0x3F)]
  else if cp ≤ 0xFFFF then
    [0xE0 ||| ((cp >>> 12) &&& 0x0F), 0x80 ||| ((cp >>> 6) &&& 0x3F),
     0x80 ||| (cp &&& 0x3F)]
  else if cp ≤ 0x10FFFF then
    [0xF0 ||| ((cp >>> 18) &&& 0x07), 0x80 ||| ((cp >>> 12) &&& 0x3F),
     0x80 ||| ((cp >>> 6) &&& 0x3F), 0x80 ||| (cp &&& 0x3F)]
  else []

/-- Write a run of bytes at consecutive positions of the buffer. -/
def bufWrite (buf : ByteStr) (out : Nat) : ByteStr → ByteStr
  | [] => buf
  | b :: tl => bufWrite (buf.set out b) (out + 1) tl

/-- The main loop of `decode_json_string`; `remaining` is the unscanned
suffix of the original buffer, `buf` the buffer with the decoded prefix
written, `out` the output position; the fuel (at least the length of `remaining`,
which every iteration shortens) only makes the recursion structural.
Early `return output` sites become `buf.take out`.  After the `'u'` case the output advances by the number of
bytes written — by one when nothing was written (the shared `++output`). -/
def decodeGo : Nat → ByteStr → ByteStr → Nat → ByteStr
  | 0, _, buf, out => buf.take out  -- unreachable: every iteration consumes input
  | _ + 1, [], buf, out => buf.take out
  | fuel + 1, c :: tl, buf, out =>
    if c == 92 then
      match tl with
      | [] => buf.take out
      | e :: tl2 =>
        if e == 34 || e == 92 || e == 47 then
          decodeGo fuel tl2 (buf.set out e) (out + 1)
        else if e == 98 then decodeGo fuel tl2 (buf.set out 8) (out + 1)
        else if e == 102 then decodeGo fuel tl2 (buf.set out 12) (out + 1)
        else if e == 110 then decodeGo fuel tl2 (buf.set out 10) (out + 1)
        else if e == 114 then decodeGo fuel tl2 (buf.set out 13) (out + 1)
        else if e == 116 then decodeGo fuel tl2 (buf.set out 9) (out + 1)
        else if e == 117 then
          let cp := hexAccum 0 (tl2.take 4)
          if 0xD800 ≤ cp && cp ≤ 0xDBFF then
            -- high surrogate: expect `\uXXXX` right behind the four hex
            -- digits (offsets 4 and 5 of `tl2`); the low surrogate's hex
            -- digits sit at offsets 6..9, and the scan resumes behind them
            match tl2.drop 4 with
            | [] => buf.take out
            | c2 :: _ =>
              if c2 != 92 then buf.take out
              else
                match tl2.drop 5 with
                | [] => buf.take out
                | c3 :: _ =>
                  if c3 != 117 then buf.take out
                  else
                    let cp2 := hexAccum 0 ((tl2.drop 6).take 4)
                    let cp' := 0x10000 + (cp - 0xD800) * 1024 + (cp2 - 0xDC00)
                    let ws := utf8Bytes cp'
                    decodeGo fuel (tl2.drop 10) (bufWrite buf out ws)
                      (out + max ws.length 1)
          else
            let ws := utf8Bytes cp
            decodeGo fuel (tl2.drop 4) (bufWrite buf out ws) (out + max ws.length 1)
        else
          -- default: invalid escape — nothing written, output advanced
          decodeGo fuel tl2 buf (out + 1)
    else decodeGo fuel tl (buf.set out c) (out + 1)

/-- `decode_json_string` as called by `parse_state(StateString&)`: decode
the accumulated raw bytes in place and keep the decoded prefix. -/
def decodeJsonString (s : ByteStr) : ByteStr := decodeGo s.length s s 0

/-! ## `is_valid_json_number` (parser.h) -/

def isDigit (c : Nat) : Bool := 48 ≤ c && c ≤ 57

/-- The `while (beg != end && isdigit(*beg)) ++beg;` loops. -/
def digitsRun : ByteStr → ByteStr
  | [] => []
  | c :: tl => if isDigit c then digitsRun tl else c :: tl

/-- The fraction block: `'.'` must be followed by at least one digit. -/
def ivjnFrac : ByteStr → Option ByteStr
  | 46 :: tl =>
    match tl with
    | [] => none
    | c :: _ => if isDigit c then some (digitsRun tl) else none
  | s => some s

/-- The exponent block: `e`/`E`, optional sign, at least one digit. -/
def ivjnExp : ByteStr → Option ByteStr
  | [] => some []
  | c :: tl =>
    if c == 101 || c == 69 then
      let tl2 :=
        match tl with
        | d :: tl' => if d == 43 || d == 45 then tl' else d :: tl'
        | [] => []
      match tl2 with
      | [] => none
      | d :: _ => if isDigit d then some (digitsRun tl2) else none
    else some (c :: tl)

/-- `is_valid_json_number`.  The infinity test is
`std::equal(beg, end, infinity.begin())`, an element-wise comparison
against the start of the `"∞"` literal (reading past it — undefined
behaviour in C++ — for runs longer than the literal; modelled as false,
and unreachable from the parser, whose number runs never contain the
byte 0xE2). -/
def is_valid_json_number (s : ByteStr) : Bool :=
  match s with
  | [] => false
  | _ =>
    let s1 := if s.head? == some 45 then s.tail else s
    if s1.isEmpty then false
    else if List.isPrefixOf s1 Value.infinityBytes then true
    else
      let s2 : Option ByteStr :=
        match s1 with
        | 48 :: tl => some tl
        | c :: tl => if isDigit c then some (digitsRun (c :: tl)) else none
        | [] => none
      match s2 with
      | none => false
      | some r1 =>
        match ivjnFrac r1 with
        | none => false
        | some r2 =>
          match ivjnExp r2 with
          | none => false
          | some r3 => r3.isEmpty

/-! ## Incremental text parser (`Parser<Fn, Format::text>`)

The parser state is the frame stack (`_state`, top first), the carry
`_result` and the error flag; `write(text)` runs `do_parse_cycle` until the
chunk is consumed or a cycle reports completion/error, with `_pos`/`_end`
local to the call.  The preprocessor is `ParserEmptyPreprocesor` (the
identity), as in the one-shot wrappers.

Each `parse_state` overload is a loop over the input bytes; its exit is one
of: input exhausted with the updated frame (`more`), a frame pushed
(`push`), the frame finished with `_result` set (`done`), the error flag
raised (`err`) — or, for `StateNumber` only, the non-terminating
configuration: a byte outside the accepted set while the accumulated run is
not a valid number neither advances `_pos` nor sets any flag, so the C++
loop spins forever; the model returns the explicit outcome `stuck`.
-/

/-- `std::isspace` (C locale) on a byte. -/
def isSpace (c : Nat) : Bool :=
  c == 32 || c == 9 || c == 10 || c == 11 || c == 12 || c == 13

/-- The byte set accepted by the number state. -/
def numAccept (c : Nat) : Bool :=
  isDigit c || c == 43 || c == 45 || c == 101 || c == 69 || c == 46

/-- The frame kinds of `Parser::StateText`. -/
inductive TState where
  | detect
  | scheck (what : ByteStr) (result : Value) (pos : Nat)
  | sstring (escape : Bool) (data : ByteStr)
  | snumber (data : ByteStr)
  | sarray (data : List Value)
  | sobject (readingKey : Bool) (key : ByteStr) (data : List (ByteStr × Value))
deriving DecidableEq, Repr

/-- Outcome of one `parse_state` call on the remaining input. -/
inductive PSRes where
  | more (st : TState)
  | push (st : TState) (child : TState) (rest : ByteStr)
  | done (res : Value) (rest : ByteStr)
  | err (rest : ByteStr)
  | stuck (st : TState) (rest : ByteStr)
deriving DecidableEq, Repr

/-- `parse_state(DetectType&)`, text branch.  `t`/`f`/`n` and number starts
are dispatched without consuming the byte. -/
def psDetect : ByteStr → PSRes
  | [] => .more .detect
  | c :: rest =>
    if isSpace c then psDetect rest
    else if c == 91 then .push .detect (.sarray []) rest
    else if c == 123 then .push .detect (.sobject true [] []) rest
    else if c == 34 then .push .detect (.sstring false []) rest
    else if c == 116 then .push .detect (.scheck Value.trueBytes (.boolean true) 0) (c :: rest)
    else if c == 102 then .push .detect (.scheck Value.falseBytes (.boolean false) 0) (c :: rest)
    else if c == 110 then .push .detect (.scheck Value.nullBytes .null 0) (c :: rest)
    else if isDigit c || c == 45 || c == 43 then .push .detect (.snumber []) (c :: rest)
    else .err (c :: rest)

/-- `parse_state(StateCheck&)`. -/
def psCheck (what : ByteStr) (result : Value) (pos : Nat) : ByteStr → PSRes
  | [] => .more (.scheck what result pos)
  | c :: rest =>
    if what.get? pos == some c then
      if pos + 1 == what.length then .done result rest
      else psCheck what result (pos + 1) rest
    else .err (c :: rest)

/-- `parse_state(StateString&)`: accumulate raw bytes (the escape flag skips
the byte after a backslash) until the unescaped quote, then decode in place
and emit. -/
def psString (escape : Bool) (data : ByteStr) : ByteStr → PSRes
  | [] => .more (.sstring escape data)
  | c :: rest =>
    if !escape then
      if c == 34 then .done (Value.mkString (decodeJsonString data)) rest
      else psString (c == 92) (data ++ [c]) rest
    else psString false (data ++ [c]) rest

/-- `parse_state(StateNumber&)`: accepted bytes accumulate; on the first
other byte the run is validated and emitted as a number-flagged string
**without consuming that byte** — and when the run is invalid the C++ loop
neither advances nor errors: `stuck`. -/
def psNumber (data : ByteStr) : ByteStr → PSRes
  | [] => .more (.snumber data)
  | c :: rest =>
    if numAccept c then psNumber (data ++ [c]) rest
    else if is_valid_json_number data then .done (Value.mkNumber data) (c :: rest)
    else .stuck (.snumber data) (c :: rest)

/-- `parse_state(StateArray&)`. -/
def psArray (data : List Value) : ByteStr → PSRes
  | [] => .more (.sarray data)
  | c :: rest =>
    if isSpace c then psArray data rest
    else if c == 44 then
      if !data.isEmpty then .push (.sarray data) .detect rest
      else .err (c :: rest)
    else if c == 93 then .done (Value.mkArray data) rest
    else if data.isEmpty then .push (.sarray data) .detect (c :: rest)
    else .err (c :: rest)

/-- `parse_state(StateObject&)`. -/
def psObject (rk : Bool) (key : ByteStr) (data : List (ByteStr × Value)) :
    ByteStr → PSRes
  | [] => .more (.sobject rk key data)
  | c :: rest =>
    if isSpace c then psObject rk key data rest
    else if c == 44 then
      if rk && !data.isEmpty then .push (.sobject rk key data) .detect rest
      else .err (c :: rest)
    else if c == 58 then
      if !rk then .push (.sobject rk key data) .detect rest
      else .err (c :: rest)
    else if c == 125 then
      if rk then .done (Value.mkObject data) rest
      else .err (c :: rest)
    else if rk && data.isEmpty then .push (.sobject rk key data) .detect (c :: rest)
    else .err (c :: rest)

/-- Dispatch of `std::visit` over the frame kinds. -/
def parseState : TState → ByteStr → PSRes
  | .detect, i => psDetect i
  | .scheck w res p, i => psCheck w res p i
  | .sstring e d, i => psString e d i
  | .snumber d, i => psNumber d i
  | .sarray d, i => psArray d i
  | .sobject rk k d, i => psObject rk k d i

/-- Outcome of one `finish_state` call (the popped child's result is in
`_result`). -/
inductive FSRes where
  | keep (st : TState)
  | pop (res : Value)
  | errF
deriving DecidableEq, Repr

/-- `finish_state` overloads.  `DetectType` installs
`_result = _preproc(v)` (identity preprocessor) and pops; the collector
frames append and keep collecting; an object key of non-string type raises
the error. -/
def finishState : TState → Value → FSRes
  | .detect, v => .pop v
  | .scheck _ _ _, v => .pop v
  | .sstring _ _, v => .pop v
  | .snumber _, v => .pop v
  | .sarray data, v => .keep (.sarray (data ++ [v]))
  | .sobject rk key data, v =>
    if rk then
      if v.type != .string then .errF
      else .keep (.sobject false v.get_string data)
    else .keep (.sobject true key (data ++ [(key, v)]))

/-- The full parser state: frame stack (top first), `_result`, `_is_error`,
and the unconsumed part of the current chunk (`_pos`..`_end`). -/
structure Cfg where
  stack : List TState
  result : Value
  isErr : Bool
  input : ByteStr
deriving DecidableEq, Repr

/-- Outcome of one `do_parse_cycle`: `continue` = returned true (keep
looping over the chunk), `finished` = returned false (completion or
error), `stuckRes` = the cycle never returns (number-state spin). -/
inductive CycleRes where
  | continue (c : Cfg)
  | finished (c : Cfg)
  | stuckRes
deriving DecidableEq, Repr

/-- The pop loop of `do_parse_cycle` after a frame finished: pop and run
`finish_state` on the new top until one keeps collecting (true), the error
flag rises (return false, frame kept), or the stack empties (return
false). -/
def cascade : List TState → Value → ByteStr → CycleRes
  | [], res, r => .finished ⟨[], res, false, r⟩
  | st :: tl, res, r =>
    match finishState st res with
    | .keep st' => .continue ⟨st' :: tl, res, false, r⟩
    | .pop res' => cascade tl res' r
    | .errF => .finished ⟨st :: tl, res, true, r⟩

/-- `do_parse_cycle`.  An empty stack returns false at once.  Note the
order of checks in the pop loop: when `_is_error` is already set (a
previous `write` failed), a frame finishing does **not** pop — the cycle
returns false immediately after `parse_state`. -/
def cycleStep (c : Cfg) : CycleRes :=
  match c.stack with
  | [] => .finished c
  | st :: tl =>
    match parseState st c.input with
    | .more st' => .continue ⟨st' :: tl, c.result, c.isErr, []⟩
    | .push st' ch r => .continue ⟨ch :: st' :: tl, c.result, c.isErr, r⟩
    | .done res r =>
      if c.isErr then .finished ⟨st :: tl, res, true, r⟩
      else cascade tl res r
    | .err r => .finished ⟨c.stack, c.result, true, r⟩
    | .stuck _ _ => .stuckRes

/-! ### Termination of `write`

Each `do_parse_cycle` that returns true either consumes input or strictly
reduces a rank on the top frame; `Φ` bounds the remaining cycles.
-/

/-- Rank of a frame for the termination measure: frames that can come on
top of the stack without input having been consumed carry the larger
ranks. -/
def rank : TState → Nat
  | .detect => 3
  | .scheck _ _ _ => 2
  | .snumber _ => 2
  | .sstring _ _ => 0
  | .sarray data => if data.isEmpty then 4 else 0
  | .sobject rk _ data => if rk && data.isEmpty then 4 else 0

/-- Termination measure for the `write` loop. -/
def phi (c : Cfg) : Nat :=
  4 * c.input.length + (match c.stack with | [] => 0 | st :: _ => rank st)

/-- The measure bookkeeping carried by each `parse_state` outcome: a pause
preserves the top rank, a push and a finish leave a configuration below the
current measure (pushes may leave the input untouched only when the pushed
frame's rank undercuts the dispatching frame's). -/
def psResOk (stRank : Nat) (i : ByteStr) : PSRes → Prop
  | .more st' => rank st' = stRank
  | .push _ ch r => 4 * r.length + rank ch < 4 * i.length + stRank
  | .done _ r => 4 * r.length < 4 * i.length + stRank
  | .err _ => True
  | .stuck _ _ => True

/-- Lengthening the not-yet-consumed input only loosens the bounds. -/
theorem psResOk_mono {n : Nat} {c : Nat} {rest : ByteStr} {res : PSRes}
    (h : psResOk n rest res) : psResOk n (c :: rest) res := by
  cases res <;> simp_all [psResOk, List.length_cons] <;> omega

theorem psDetect_ok (i : ByteStr) : psResOk 3 i (psDetect i) := by
  induction i with
  | nil => simp [psDetect, psResOk, rank]
  | cons c rest ih =>
    simp only [psDetect]
    split
    · exact psResOk_mono ih
    · repeat' split
      all_goals simp_all [psResOk, rank, List.length_cons]
      all_goals omega

theorem psCheck_ok (w : ByteStr) (res : Value) (p : Nat) (i : ByteStr) :
    psResOk 2 i (psCheck w res p i) := by
  induction i generalizing p with
  | nil => simp [psCheck, psResOk, rank]
  | cons c rest ih =>
    simp only [psCheck]
    repeat' split
    · simp [psResOk, List.length_cons]; try omega
    · exact psResOk_mono (ih (p + 1))
    · simp [psResOk]

theorem psString_ok (e : Bool) (d : ByteStr) (i : ByteStr) :
    psResOk 0 i (psString e d i) := by
  induction i generalizing e d with
  | nil => simp [psString, psResOk, rank]
  | cons c rest ih =>
    simp only [psString]
    repeat' split
    · simp [psResOk, List.length_cons]; try omega
    · exact psResOk_mono (ih _ _)
    · exact psResOk_mono (ih _ _)

theorem psNumber_ok (d : ByteStr) (i : ByteStr) :
    psResOk 2 i (psNumber d i) := by
  induction i generalizing d with
  | nil => simp [psNumber, psResOk, rank]
  | cons c rest ih =>
    simp only [psNumber]
    repeat' split
    · exact psResOk_mono (ih _)
    · simp [psResOk, List.length_cons]; try omega
    · simp [psResOk]

theorem psArray_ok (d : List Value) (i : ByteStr) :
    psResOk (rank (.sarray d)) i (psArray d i) := by
  induction i with
  | nil => simp [psArray, psResOk]
  | cons c rest ih =>
    simp only [psArray]
    repeat' split
    all_goals first
      | exact psResOk_mono ih
      | (simp_all [psResOk, rank, List.length_cons, List.isEmpty_iff]; try omega)

theorem psObject_ok (rk : Bool) (k : ByteStr) (d : List (ByteStr × Value))
    (i : ByteStr) : psResOk (rank (.sobject rk k d)) i (psObject rk k d i) := by
  induction i with
  | nil => simp [psObject, psResOk]
  | cons c rest ih =>
    simp only [psObject]
    repeat' split
    all_goals first
      | exact psResOk_mono ih
      | (simp_all [psResOk, rank, List.length_cons, List.isEmpty_iff]; try omega)

theorem parseState_ok (st : TState) (i : ByteStr) :
    psResOk (rank st) i (parseState st i) := by
  cases st with
  | detect => exact psDetect_ok i
  | scheck w res p => exact psCheck_ok w res p i
  | sstring e d => exact psString_ok e d i
  | snumber d => exact psNumber_ok d i
  | sarray d => exact psArray_ok d i
  | sobject rk k d => exact psObject_ok rk k d i

/-- A `cascade` that keeps the machine running leaves a collector frame of
rank 0 on top (the element or entry just appended makes its data
nonempty, or it has just switched to expecting a value after a key). -/
theorem cascade_continue_ok (tl : List TState) (res : Value) (r : ByteStr)
    (c' : Cfg) (h : cascade tl res r = .continue c') :
    c'.input = r ∧
      match c'.stack with
      | [] => False
      | st0 :: _ => rank st0 = 0 := by
  induction tl generalizing res with
  | nil => simp [cascade] at h
  | cons st tl ih =>
    simp only [cascade] at h
    split at h
    case h_1 st' heq =>
      cases h
      refine ⟨rfl, ?_⟩
      cases st with
      | detect | scheck | sstring | snumber => simp [finishState] at heq
      | sarray d =>
        simp only [finishState, FSRes.keep.injEq] at heq
        subst heq; simp [rank]
      | sobject rk k d =>
        simp only [finishState] at heq
        split at heq
        · split at heq
          · exact absurd heq (by simp)
          · cases heq; simp [rank]
        · cases heq; simp [rank]
    case h_2 res' heq => exact ih res' h
    case h_3 heq => simp at h

/-- Each `do_parse_cycle` returning true strictly decreases the measure
(given a nonempty chunk remainder, which is what the `write` loop checks
before running a cycle). -/
theorem cycle_decreases (c c' : Cfg) (hne : c.input ≠ [])
    (h : cycleStep c = .continue c') : phi c' < phi c := by
  have hlen : 0 < c.input.length := List.length_pos.mpr hne
  unfold cycleStep at h
  split at h
  case h_1 => simp at h
  case h_2 st tl hstk =>
    have hps := parseState_ok st c.input
    split at h
    case h_1 st' hres =>
      cases h
      rw [hres] at hps
      simp only [psResOk] at hps
      simp [phi, hstk, hps]
      omega
    case h_2 st' ch r hres =>
      cases h
      rw [hres] at hps
      simp only [psResOk] at hps
      simp [phi, hstk]
      omega
    case h_3 res r hres =>
      split at h
      · simp at h
      · have hc := cascade_continue_ok tl res r c' h
        rw [hres] at hps
        simp only [psResOk] at hps
        obtain ⟨hin, hst⟩ := hc
        simp only [phi, hstk, hin]
        split
        · exact absurd hst (by simp_all)
        case h_2 st0 tl0 heq2 =>
          rw [heq2] at hst
          simp only at hst
          omega
    case h_4 => simp at h
    case h_5 => simp at h

end Imtjson

namespace Imtjson

/-- Result of a `write(text)` call: `ok c needMore` carries the parser state
after the call and the returned bool (`true` = need more data); `diverge` is
the number-state infinite loop — the call never returns. -/
inductive WriteRes where
  | ok (c : Cfg) (needMore : Bool)
  | diverge
deriving DecidableEq, Repr

/-- The loop of `Parser::write`: while the chunk is not exhausted, run
`do_parse_cycle`; a false cycle ends the call with `false`, an exhausted
chunk ends it with `!_state.empty()`. -/
def writeLoop (c : Cfg) : WriteRes :=
  if c.input = [] then .ok c (!c.stack.isEmpty)
  else
    match h : cycleStep c with
    | .continue c' => writeLoop c'
    | .finished c' => .ok c' false
    | .stuckRes => .diverge
termination_by phi c
decreasing_by exact cycle_decreases c c' (by assumption) h

/-- `Parser::write(text)` from parser state `c` (the leftover input of the
previous call is unreachable; `_pos`/`_end` are rebound to the new chunk). -/
def write (c : Cfg) (text : ByteStr) : WriteRes :=
  writeLoop { c with input := text }

/-- Fuel-indexed evaluator for the `write` loop (for concrete runs: unlike
`writeLoop` it is structurally recursive, so the kernel can evaluate it). -/
def writeFuel : Nat → Cfg → Option WriteRes
  | 0, _ => none
  | n + 1, c =>
    if c.input = [] then some (.ok c (!c.stack.isEmpty))
    else
      match cycleStep c with
      | .continue c' => writeFuel n c'
      | .finished c' => some (.ok c' false)
      | .stuckRes => some .diverge

theorem writeFuel_sound : ∀ (n : Nat) (c : Cfg) (r : WriteRes),
    writeFuel n c = some r → writeLoop c = r := by
  intro n
  induction n with
  | zero => intro c r h; simp [writeFuel] at h
  | succ n ih =>
    intro c r h
    rw [writeLoop]
    simp only [writeFuel] at h
    by_cases hin : c.input = []
    · simp only [if_pos hin] at h ⊢
      exact (Option.some.injEq _ _ ▸ h).symm ▸ rfl
    · simp only [if_neg hin] at h ⊢
      cases heq : cycleStep c with
      | @«continue» c' =>
        simp only [heq] at h ⊢
        exact ih c' r h
      | finished c' => simp only [heq] at h ⊢; exact (Option.some.inj h) ▸ rfl
      | stuckRes => simp only [heq] at h ⊢; exact (Option.some.inj h) ▸ rfl

/-- A freshly constructed parser: stack `{DetectType()}`, default `_result`
(undefined), no error. -/
def initParser : Cfg := ⟨[.detect], .undefined, false, []⟩

/-- `Parser::get_result()`. -/
def getResult (c : Cfg) : Value :=
  if c.isErr then .undefined else c.result

/-- The one-shot `parse(text)` wrapper: `none` models the `ParseError`
throw (error or exhausted input with parsing still pending) and the
non-returning divergence case. -/
def parse (text : ByteStr) : Option Value :=
  match write initParser text with
  | .ok c false => if c.isErr then none else some c.result
  | .ok _ true => none
  | .diverge => none

end Imtjson

namespace Imtjson

/-! ## Canonical values

The binary round-trip can only reproduce a `Value` whose in-memory storage
is the one the parser itself would build: `uint64`/negative-`int64`
numbers, strings in the exact layout `Value(std::string_view)` produces,
non-NaN doubles, containers built by the move constructors with strictly
sorted object keys.  `canonV` captures this fragment (it is exactly the
image of the binary parser on well-formed streams, intersected with the
values on which `operator==` is reflexive). -/

/-- The keys strictly increase along the entry list (adjacent
`lexLt` checks suffice on a transitive order). -/
def kvStrictSorted : KVList → Bool
  | .nil => true
  | .cons _ _ .nil => true
  | .cons k _ (.cons l w tl) => lexLt k l && kvStrictSorted (.cons l w tl)

mutual

def canonV : Value → Bool
  | .undefined => false
  | .null => true
  | .boolean _ => true
  | .int32 _ => false
  | .uint32 _ => false
  | .int64 n => decide (-(2 ^ 63) < n) && decide (n < 0)
  | .uint64 n => decide (n < 2 ^ 64)
  | .dnum bits => decide (bits < 2 ^ 64) && !bitsIsNaN bits
  | .shortString len buf => Value.mkStr (buf.take len) false == .shortString len buf
  | .shortNumber len buf => Value.mkStr (buf.take len) true == .shortNumber len buf
  | .longString s => decide (15 ≤ s.length) && decide (s.length < 2 ^ 64)
  | .longNumber s => decide (15 ≤ s.length) && decide (s.length < 2 ^ 64)
  | .stringRef _ => false
  | .numberRef _ => false
  | .emptyArray => true
  | .emptyObject => true
  | .array xs => decide (1 ≤ xs.length) && decide (xs.length < 2 ^ 64) && canonL xs
  | .object xs =>
    decide (1 ≤ xs.length) && decide (xs.length < 2 ^ 64)
      && kvStrictSorted xs && canonK xs

def canonL : ValueList → Bool
  | .nil => true
  | .cons v tl => canonV v && canonL tl

def canonK : KVList → Bool
  | .nil => true
  | .cons k v tl => decide (k.length < 2 ^ 64) && canonV v && canonK tl

end

mutual

/-- Fuel sufficient for `parseBinV` to parse `binValue v`: one unit per
nesting step (the C++ parser recurses through its explicit stack, so any
bound works; this one is compared against `unbinarize`'s `3·|bin| + 3`). -/
def costV : Value → Nat
  | .array xs => costL xs + 1
  | .object xs => costK xs + 1
  | _ => 1

def costL : ValueList → Nat
  | .nil => 1
  | .cons v tl => max (costV v) (costL tl) + 1

def costK : KVList → Nat
  | .nil => 1
  | .cons _ v tl => max (costV v) (costK tl) + 1

end

/-! ### Text-canonical values

The text round trip reproduces a narrower fragment still.  The escape
table of `Serializer::encode` mangles two bytes — `'\b'` is emitted as
`b` `\` (the backslash then corrupts the following character) and `'\r'`
is emitted as `\f`, which decodes to `'\f'` — so string contents and keys
must avoid bytes 8 and 13.  Numbers are emitted as bare digit runs, so a
number value must carry a valid JSON number text made of accepted bytes
(otherwise the number state diverges or errors), and — because the number
state only emits on seeing a byte after the run — a number can never
complete at the top level.  Integer-storage values (`int32`…`uint64`)
parse back into number-string storage, which `operator==` never compares
equal to an integer storage, so they are outside the fragment entirely. -/

/-- String content the escape/decode pair transports verbatim. -/
def strOk (s : ByteStr) : Bool := s.all fun c => !(c == 8) && !(c == 13)

/-- Number-string content the parser accepts and terminates on: a valid
JSON number text, made of accepted bytes, led by a digit or `'-'` (the
detect state only opens a number on such bytes; the valid texts with
another head are the `"∞"` prefixes, which the number state cannot
consume anyway). -/
def numOk (s : ByteStr) : Bool :=
  is_valid_json_number s && s.all numAccept
    && (match s with
        | c :: _ => isDigit c || c == 45
        | [] => false)

mutual

def tcanonV : Value → Bool
  | .undefined => false
  | .null => true
  | .boolean _ => true
  | .int32 _ => false
  | .uint32 _ => false
  | .int64 _ => false
  | .uint64 _ => false
  | .dnum _ => false
  | .shortString len buf =>
    (Value.mkStr (buf.take len) false == .shortString len buf)
      && strOk (buf.take len)
  | .shortNumber len buf =>
    (Value.mkStr (buf.take len) true == .shortNumber len buf)
      && numOk (buf.take len)
  | .longString s => decide (15 ≤ s.length) && strOk s
  | .longNumber s => decide (15 ≤ s.length) && numOk s
  | .stringRef _ => false
  | .numberRef _ => false
  | .emptyArray => true
  | .emptyObject => true
  | .array xs => decide (1 ≤ xs.length) && tcanonL xs
  | .object xs => decide (1 ≤ xs.length) && kvStrictSorted xs && tcanonK xs

def tcanonL : ValueList → Bool
  | .nil => true
  | .cons v tl => tcanonV v && tcanonL tl

def tcanonK : KVList → Bool
  | .nil => true
  | .cons k v tl => strOk k && tcanonV v && tcanonK tl

end

/-- The `write` outcome reached when a cycle's `parse_state` finishes a
value: the `do_parse_cycle` pop loop runs, and the `write` loop either
goes on (true cycle) or returns (false cycle). -/
def cascadeRun (tl : List TState) (v : Value) (r : ByteStr) : WriteRes :=
  match cascade tl v r with
  | .continue c' => writeLoop c'
  | .finished c' => .ok c' false
  | .stuckRes => .diverge

/-- Extend the unconsumed chunk of a configuration: the state `write`
leaves behind, seen from a run that was handed the next chunk glued on. -/
def inpExt (c : Cfg) (s2 : ByteStr) : Cfg := { c with input := c.input ++ s2 }

/-- Observable equivalence of `write` outcomes: same returned bool, error
flag, `_result` and unconsumed rest.  (The frame stacks may differ: an
error return keeps the top frame as it stood when the failing cycle
began, and the glued run entered that cycle with the not-yet-updated
frame of the earlier chunk.) -/
def wrEq : WriteRes → WriteRes → Prop
  | .ok c b, .ok c' b' =>
    b = b' ∧ c.isErr = c'.isErr ∧ c.result = c'.result ∧ c.input = c'.input
  | .diverge, .diverge => True
  | _, _ => False

/-- A concrete text-canonical document: `{"a": [null, 5], "b": "x\"y"}`. -/
def c2val : Value :=
  Value.mkObject
    [([97], Value.mkArray [Value.null, Value.mkNumber [53]]),
     ([98], Value.mkString [120, 34, 121])]

/-- A concrete canonical document:
`{"a": [null, true], "bb": {"k": -5}, "c": 7}` with a long string thrown in. -/
def c1val : Value :=
  Value.mkObject
    [([97], Value.mkArray [Value.null, Value.boolean true]),
     ([98, 98], Value.mkObject [([107], Value.int64 (-5))]),
     ([99], Value.uint64 7),
     ([100], Value.mkString [104, 101, 108, 108, 111, 32, 119, 111, 114,
        108, 100, 33, 32, 104, 105, 33])]

end Imtjson

namespace Imtjson

/-! ## Order facts about the byte-string comparison -/

theorem strCompare_refl (a : ByteStr) : strCompare a a = .eq := by
  induction a with
  | nil => rfl
  | cons c tl ih => simp [strCompare, ih]

theorem strCompare_eq_iff {a b : ByteStr} : strCompare a b = .eq ↔ a = b := by
  constructor
  · intro h
    induction a generalizing b with
    | nil => cases b with
      | nil => rfl
      | cons d tl => simp [strCompare] at h
    | cons c tl ih =>
      cases b with
      | nil => simp [strCompare] at h
      | cons d tl' =>
        by_cases h1 : c < d
        · simp [strCompare, h1] at h
        · by_cases h2 : d < c
          · simp [strCompare, h1, h2] at h
          · have hcd : c = d := by omega
            subst hcd
            simp only [strCompare, if_neg h1, if_neg h2] at h
            rw [ih h]
  · rintro rfl; exact strCompare_refl a

theorem strCompare_swap (a b : ByteStr) :
    strCompare b a = (strCompare a b).swap := by
  induction a generalizing b with
  | nil => cases b <;> rfl
  | cons c tl ih =>
    cases b with
    | nil => rfl
    | cons d tl' =>
      by_cases h1 : c < d
      · have h2 : ¬ d < c := by omega
        simp [strCompare, h1, h2, Ordering.swap]
      · by_cases h2 : d < c
        · simp [strCompare, h1, h2, Ordering.swap]
        · simp [strCompare, h1, h2, ih]

theorem lexLt_iff {a b : ByteStr} : lexLt a b = true ↔ strCompare a b = .lt := by
  cases h : strCompare a b <;> simp only [lexLt, h] <;> simp <;> decide

theorem lexLt_irrefl (a : ByteStr) : lexLt a a = false := by
  simp [lexLt, strCompare_refl]
  rfl

theorem lexLt_asymm {a b : ByteStr} (h : lexLt a b = true) : lexLt b a = false := by
  have h' := lexLt_iff.mp h
  simp only [lexLt]
  rw [strCompare_swap, h']
  rfl

theorem lexLt_trans {a b c : ByteStr} (h1 : lexLt a b = true)
    (h2 : lexLt b c = true) : lexLt a c = true := by
  rw [lexLt_iff] at h1 h2 ⊢
  induction a generalizing b c with
  | nil =>
    cases c with
    | nil => cases b <;> simp_all [strCompare]
    | cons _ _ => simp [strCompare]
  | cons x tl ih =>
    cases b with
    | nil => simp [strCompare] at h1
    | cons y tlb =>
      cases c with
      | nil => simp [strCompare] at h2
      | cons z tlc =>
        by_cases hxy : x < y
        · by_cases hyz : y < z
          · simp [strCompare, show x < z by omega]
          · by_cases hzy : z < y
            · simp [strCompare, hyz, hzy] at h2
            · have : y = z := by omega
              subst this
              simp [strCompare, hxy]
        · by_cases hyx : y < x
          · simp [strCompare, hxy, hyx] at h1
          · have hxyeq : x = y := by omega
            subst hxyeq
            simp only [strCompare, if_neg hxy, if_neg hyx] at h1
            by_cases hxz : x < z
            · simp [strCompare, hxz]
            · by_cases hzx : z < x
              · simp [strCompare, hxz, hzx] at h2
              · have : x = z := by omega
                subst this
                simp only [strCompare, if_neg hxz, if_neg hzx] at h2 ⊢
                exact ih h1 h2

theorem lexLt_total {a b : ByteStr} (hne : a ≠ b) :
    lexLt a b = true ∨ lexLt b a = true := by
  rw [lexLt_iff, lexLt_iff]
  rcases hcmp : strCompare a b with _ | _ | _
  · exact Or.inl rfl
  · exact absurd (strCompare_eq_iff.mp hcmp) hne
  · right
    rw [strCompare_swap, hcmp]
    rfl

end Imtjson

namespace Imtjson

/-! ### Induction principles

The `induction` tactic does not handle the mutual inductive block directly,
so structural induction principles are provided once, by mutual structural
recursion. -/

def KVList.inductionOn {P : KVList → Prop} (xs : KVList) (hnil : P .nil)
    (hcons : ∀ k v tl, P tl → P (.cons k v tl)) : P xs :=
  match xs with
  | .nil => hnil
  | .cons k v tl => hcons k v tl (KVList.inductionOn tl hnil hcons)

def ValueList.inductionOn {P : ValueList → Prop} (xs : ValueList)
    (hnil : P .nil) (hcons : ∀ v tl, P tl → P (.cons v tl)) : P xs :=
  match xs with
  | .nil => hnil
  | .cons v tl => hcons v tl (ValueList.inductionOn tl hnil hcons)

mutual

def Value.mutualInd {PV : Value → Prop} {PL : ValueList → Prop}
    {PK : KVList → Prop}
    (hundef : PV .undefined) (hnull : PV .null)
    (hbool : ∀ b, PV (.boolean b))
    (hi32 : ∀ n, PV (.int32 n)) (hu32 : ∀ n, PV (.uint32 n))
    (hi64 : ∀ n, PV (.int64 n)) (hu64 : ∀ n, PV (.uint64 n))
    (hdnum : ∀ bits, PV (.dnum bits))
    (hss : ∀ len buf, PV (.shortString len buf))
    (hsn : ∀ len buf, PV (.shortNumber len buf))
    (hls : ∀ s, PV (.longString s)) (hln : ∀ s, PV (.longNumber s))
    (hsr : ∀ s, PV (.stringRef s)) (hnr : ∀ s, PV (.numberRef s))
    (hea : PV .emptyArray) (heo : PV .emptyObject)
    (harr : ∀ xs, PL xs → PV (.array xs))
    (hobj : ∀ xs, PK xs → PV (.object xs))
    (hlnil : PL .nil) (hlcons : ∀ v tl, PV v → PL tl → PL (.cons v tl))
    (hknil : PK .nil)
    (hkcons : ∀ k v tl, PV v → PK tl → PK (.cons k v tl)) :
    ∀ v, PV v :=
  fun v =>
    match v with
    | .undefined => hundef
    | .null => hnull
    | .boolean b => hbool b
    | .int32 n => hi32 n
    | .uint32 n => hu32 n
    | .int64 n => hi64 n
    | .uint64 n => hu64 n
    | .dnum bits => hdnum bits
    | .shortString len buf => hss len buf
    | .shortNumber len buf => hsn len buf
    | .longString s => hls s
    | .longNumber s => hln s
    | .stringRef s => hsr s
    | .numberRef s => hnr s
    | .emptyArray => hea
    | .emptyObject => heo
    | .array xs => harr xs
        (ValueList.mutualInd hundef hnull hbool hi32 hu32 hi64 hu64 hdnum
          hss hsn hls hln hsr hnr hea heo harr hobj hlnil hlcons hknil hkcons xs)
    | .object xs => hobj xs
        (KVList.mutualInd hundef hnull hbool hi32 hu32 hi64 hu64 hdnum
          hss hsn hls hln hsr hnr hea heo harr hobj hlnil hlcons hknil hkcons xs)

def ValueList.mutualInd {PV : Value → Prop} {PL : ValueList → Prop}
    {PK : KVList → Prop}
    (hundef : PV .undefined) (hnull : PV .null)
    (hbool : ∀ b, PV (.boolean b))
    (hi32 : ∀ n, PV (.int32 n)) (hu32 : ∀ n, PV (.uint32 n))
    (hi64 : ∀ n, PV (.int64 n)) (hu64 : ∀ n, PV (.uint64 n))
    (hdnum : ∀ bits, PV (.dnum bits))
    (hss : ∀ len buf, PV (.shortString len buf))
    (hsn : ∀ len buf, PV (.shortNumber len buf))
    (hls : ∀ s, PV (.longString s)) (hln : ∀ s, PV (.longNumber s))
    (hsr : ∀ s, PV (.stringRef s)) (hnr : ∀ s, PV (.numberRef s))
    (hea : PV .emptyArray) (heo : PV .emptyObject)
    (harr : ∀ xs, PL xs → PV (.array xs))
    (hobj : ∀ xs, PK xs → PV (.object xs))
    (hlnil : PL .nil) (hlcons : ∀ v tl, PV v → PL tl → PL (.cons v tl))
    (hknil : PK .nil)
    (hkcons : ∀ k v tl, PV v → PK tl → PK (.cons k v tl)) :
    ∀ xs, PL xs :=
  fun xs =>
    match xs with
    | .nil => hlnil
    | .cons v tl =>
      hlcons v tl
        (Value.mutualInd hundef hnull hbool hi32 hu32 hi64 hu64 hdnum
          hss hsn hls hln hsr hnr hea heo harr hobj hlnil hlcons hknil hkcons v)
        (ValueList.mutualInd hundef hnull hbool hi32 hu32 hi64 hu64 hdnum
          hss hsn hls hln hsr hnr hea heo harr hobj hlnil hlcons hknil hkcons tl)

def KVList.mutualInd {PV : Value → Prop} {PL : ValueList → Prop}
    {PK : KVList → Prop}
    (hundef : PV .undefined) (hnull : PV .null)
    (hbool : ∀ b, PV (.boolean b))
    (hi32 : ∀ n, PV (.int32 n)) (hu32 : ∀ n, PV (.uint32 n))
    (hi64 : ∀ n, PV (.int64 n)) (hu64 : ∀ n, PV (.uint64 n))
    (hdnum : ∀ bits, PV (.dnum bits))
    (hss : ∀ len buf, PV (.shortString len buf))
    (hsn : ∀ len buf, PV (.shortNumber len buf))
    (hls : ∀ s, PV (.longString s)) (hln : ∀ s, PV (.longNumber s))
    (hsr : ∀ s, PV (.stringRef s)) (hnr : ∀ s, PV (.numberRef s))
    (hea : PV .emptyArray) (heo : PV .emptyObject)
    (harr : ∀ xs, PL xs → PV (.array xs))
    (hobj : ∀ xs, PK xs → PV (.object xs))
    (hlnil : PL .nil) (hlcons : ∀ v tl, PV v → PL tl → PL (.cons v tl))
    (hknil : PK .nil)
    (hkcons : ∀ k v tl, PV v → PK tl → PK (.cons k v tl)) :
    ∀ xs, PK xs :=
  fun xs =>
    match xs with
    | .nil => hknil
    | .cons k v tl =>
      hkcons k v tl
        (Value.mutualInd hundef hnull hbool hi32 hu32 hi64 hu64 hdnum
          hss hsn hls hln hsr hnr hea heo harr hobj hlnil hlcons hknil hkcons v)
        (KVList.mutualInd hundef hnull hbool hi32 hu32 hi64 hu64 hdnum
          hss hsn hls hln hsr hnr hea heo harr hobj hlnil hlcons hknil hkcons tl)

end

/-- `a ≤ b` in the key order (`!(b < a)`). -/
theorem lexLe_trans {a b c : ByteStr} (h1 : lexLt b a = false)
    (h2 : lexLt c b = false) : lexLt c a = false := by
  by_contra hca
  have hca' : lexLt c a = true := by
    cases h : lexLt c a
    · exact absurd h hca
    · rfl
  by_cases hab : a = b
  · subst hab; simp_all
  · rcases lexLt_total hab with h | h
    · by_cases hbc : b = c
      · subst hbc; simp_all
      · rcases lexLt_total hbc with h' | h'
        · exact absurd (lexLt_trans h' hca') (by simp [h1])
        · exact absurd h' (by simp [h2])
    · exact absurd h (by simp [h1])

/-! ## Facts about `sort_object` -/

theorem kvInsert_mem_keys {m k : ByteStr} {v : Value} {xs : KVList} :
    m ∈ (kvInsert k v xs).keys ↔ m = k ∨ m ∈ xs.keys := by
  induction xs using KVList.inductionOn with
  | hnil => simp [kvInsert, KVList.keys]
  | hcons l w tl ih =>
    simp only [kvInsert]
    split
    · simp [KVList.keys, ih]
      tauto
    · simp [KVList.keys]

/-- Insertion keeps the non-decreasing order of the keys. -/
theorem kvInsert_sorted {k : ByteStr} {v : Value} {xs : KVList}
    (h : List.Pairwise (fun a b => lexLt b a = false) xs.keys) :
    List.Pairwise (fun a b => lexLt b a = false) (kvInsert k v xs).keys := by
  induction xs using KVList.inductionOn with
  | hnil => simp [kvInsert, KVList.keys]
  | hcons l w tl ih =>
    simp only [KVList.keys, List.pairwise_cons] at h
    obtain ⟨hl, htl⟩ := h
    simp only [kvInsert]
    split
    case isTrue hlk =>
      simp only [KVList.keys, List.pairwise_cons]
      refine ⟨?_, ih htl⟩
      intro m hm
      rcases kvInsert_mem_keys.mp hm with rfl | hm'
      · exact lexLt_asymm hlk
      · exact hl m hm'
    case isFalse hlk =>
      simp only [KVList.keys, List.pairwise_cons]
      have hlk' : lexLt l k = false := by
        cases h : lexLt l k
        · rfl
        · exact absurd h hlk
      refine ⟨?_, hl, htl⟩
      intro m hm
      simp only [KVList.keys, List.mem_cons] at hm
      rcases hm with rfl | hm'
      · exact hlk'
      · exact lexLe_trans hlk' (hl m hm')

/-- `sort_object` sorts the keys in non-decreasing order. -/
theorem sortObject_sorted (xs : KVList) :
    List.Pairwise (fun a b => lexLt b a = false) (sortObject xs).keys := by
  induction xs using KVList.inductionOn with
  | hnil => simp [sortObject, KVList.keys]
  | hcons k v tl ih => exact kvInsert_sorted ih

theorem kvInsert_keys_perm (k : ByteStr) (v : Value) (xs : KVList) :
    (kvInsert k v xs).keys.Perm (k :: xs.keys) := by
  induction xs using KVList.inductionOn with
  | hnil => simp [kvInsert, KVList.keys]
  | hcons l w tl ih =>
    simp only [kvInsert]
    split
    · simp only [KVList.keys]
      exact (List.Perm.cons l ih).trans (List.Perm.swap k l tl.keys)
    · simp [KVList.keys]

theorem sortObject_keys_perm (xs : KVList) :
    (sortObject xs).keys.Perm xs.keys := by
  induction xs using KVList.inductionOn with
  | hnil => simp [sortObject]
  | hcons k v tl ih =>
    simp only [sortObject, KVList.keys]
    exact (kvInsert_keys_perm k v (sortObject tl)).trans (List.Perm.cons k ih)

/-- A non-decreasing duplicate-free sequence is strictly increasing. -/
theorem pairwise_le_nodup_strict (l : List ByteStr)
    (hs : List.Pairwise (fun a b => lexLt b a = false) l) (hnd : l.Nodup) :
    List.Pairwise (fun a b => lexLt a b = true) l := by
  induction l with
  | nil => simp
  | cons a m ih =>
    simp only [List.pairwise_cons] at hs ⊢
    simp only [List.nodup_cons] at hnd
    refine ⟨?_, ih hs.2 hnd.2⟩
    intro c hc
    have hne : a ≠ c := fun hEq => hnd.1 (hEq ▸ hc)
    rcases lexLt_total hne with h | h
    · exact h
    · exact absurd (hs.1 c hc) (by simp [h])

/-- With pairwise distinct keys the sorted key sequence is strictly
increasing. -/
theorem sortObject_sorted_strict {xs : KVList} (hnd : xs.keys.Nodup) :
    List.Pairwise (fun a b => lexLt a b = true) (sortObject xs).keys :=
  pairwise_le_nodup_strict _ (sortObject_sorted xs)
    ((sortObject_keys_perm xs).nodup_iff.mpr hnd)

theorem KVList.keys_ofList (l : List (ByteStr × Value)) :
    (KVList.ofList l).keys = l.map Prod.fst := by
  induction l with
  | nil => rfl
  | cons p tl ih => cases p; simp [KVList.ofList, KVList.keys, ih]

end Imtjson

namespace Imtjson

/-! ## Claim C5 — object key ordering -/

/-- C5, counterexample: an object constructed from an entry list with the
duplicate key `"a"` keeps both entries after `sort_object` (no
deduplication), so its `keys()` sequence is *not* strictly increasing. -/
theorem c5_dup_keys_not_strict :
    (Value.mkObject [([97], .null), ([97], .boolean true)]).keyStrings
        = [[97], [97]] ∧
    ¬ List.Pairwise (fun a b => lexLt a b = true)
        (Value.mkObject [([97], .null), ([97], .boolean true)]).keyStrings := by
  constructor
  · decide
  · intro h
    rw [show (Value.mkObject [([97], .null), ([97], .boolean true)]).keyStrings
          = [[97], [97]] by decide] at h
    simp [List.pairwise_cons, lexLt_irrefl] at h

/-- C5 (amended): for an object built by any construction path (they all
run `sort_object`), the `keys()` sequence is non-decreasing in the
lexicographic byte order; it is strictly increasing whenever the
constructed entry list carries pairwise distinct keys (duplicates are not
removed, so with duplicate keys the sequence is only non-decreasing). -/
theorem c5_keys_sorted (l : List (ByteStr × Value)) :
    List.Pairwise (fun a b => lexLt b a = false)
        (Value.mkObject l).keyStrings ∧
    ((l.map Prod.fst).Nodup →
      List.Pairwise (fun a b => lexLt a b = true)
        (Value.mkObject l).keyStrings) := by
  by_cases h : l.isEmpty
  · simp [Value.mkObject, h, Value.keysList, Value.keyStrings, KVList.keys]
  · simp only [Value.mkObject, h, if_neg, Bool.false_eq_true, not_false_iff,
      if_false, Value.keyStrings, Value.keysList]
    refine ⟨sortObject_sorted _, fun hnd => ?_⟩
    exact sortObject_sorted_strict (by rw [KVList.keys_ofList]; exact hnd)

/-- C5 witness: the amended statement evaluated on a concrete entry list
with distinct keys. -/
theorem c5_keys_sorted_witness :
    List.Pairwise (fun a b => lexLt a b = true)
      (Value.mkObject [([98], .null), ([97], .boolean true)]).keyStrings :=
  (c5_keys_sorted [([98], .null), ([97], .boolean true)]).2 (by decide)

/-! ## Claim C10 — string construction and retrieval -/

/-- C10: `Value(s)` (string construction) always has logical type `string`
and `get_string()` returns exactly the constructed bytes, for the inline
short-string storage (length up to 14: buffer zero-padded to 15, length in
the tag) as well as for the heap long-string storage. -/
theorem c10_string_construction (s : ByteStr) :
    (Value.mkString s).type = .string ∧
    (Value.mkString s).get_string = s ∧
    (s.length < 15 →
      Value.mkString s
        = .shortString s.length (s ++ List.replicate (15 - s.length) 0)) ∧
    (15 ≤ s.length → Value.mkString s = .longString s) := by
  by_cases h : s.length < 15
  · have hmk : Value.mkString s
        = .shortString s.length (s ++ List.replicate (15 - s.length) 0) := by
      simp [Value.mkString, Value.mkStr, h]
    have htake : (s ++ List.replicate (15 - s.length) 0).take s.length = s := by
      simpa using List.take_left s (List.replicate (15 - s.length) 0)
    refine ⟨?_, ?_, fun _ => hmk, fun h' => absurd h (by omega)⟩
    · rw [hmk]; rfl
    · rw [hmk]
      simp [Value.get_string, Value.strView, htake]
  · have hmk : Value.mkString s = .longString s := by
      simp [Value.mkString, Value.mkStr, h]
    refine ⟨?_, ?_, fun h' => absurd h' h, fun _ => hmk⟩
    · rw [hmk]; rfl
    · rw [hmk]; rfl

/-- C10 witness: a 14-byte string (inline) and a 15-byte string (heap). -/
theorem c10_string_construction_witness :
    (Value.mkString (List.replicate 14 65)).get_string = List.replicate 14 65 ∧
    (Value.mkString (List.replicate 15 65)).get_string = List.replicate 15 65 ∧
    Value.mkString (List.replicate 15 65) = .longString (List.replicate 15 65) :=
  ⟨(c10_string_construction (List.replicate 14 65)).2.1,
   (c10_string_construction (List.replicate 15 65)).2.1,
   (c10_string_construction (List.replicate 15 65)).2.2.2 (by decide)⟩

/-! ## Claim C8 — keyed and indexed access -/

theorem KVList.key_mem_of_mem_toList {k : ByteStr} {w : Value} {xs : KVList}
    (h : (k, w) ∈ xs.toList) : k ∈ xs.keys := by
  induction xs using KVList.inductionOn with
  | hnil => simp [KVList.toList] at h
  | hcons l v tl ih =>
    simp only [KVList.toList, List.mem_cons] at h
    rcases h with h | h
    · simp only [Prod.mk.injEq] at h
      simp [KVList.keys, h.1]
    · simp [KVList.keys, ih h]

theorem kvLowerBound_miss {k : ByteStr} {xs : KVList} (h : k ∉ xs.keys) :
    kvLowerBound k xs = .nil ∨
      ∃ l w tl, kvLowerBound k xs = .cons l w tl ∧ l ≠ k := by
  induction xs using KVList.inductionOn with
  | hnil => exact Or.inl rfl
  | hcons l w tl ih =>
    simp only [KVList.keys, List.mem_cons] at h
    push_neg at h
    simp only [kvLowerBound]
    split
    · exact ih h.2
    · exact Or.inr ⟨l, w, tl, rfl, Ne.symm h.1⟩

theorem kvLowerBound_found {k : ByteStr} {w : Value} {xs : KVList}
    (hs : List.Pairwise (fun a b => lexLt a b = true) xs.keys)
    (h : (k, w) ∈ xs.toList) :
    ∃ tl, kvLowerBound k xs = .cons k w tl := by
  induction xs using KVList.inductionOn with
  | hnil => simp [KVList.toList] at h
  | hcons l v tl ih =>
    simp only [KVList.keys, List.pairwise_cons] at hs
    simp only [KVList.toList, List.mem_cons] at h
    rcases h with h | h
    · simp only [Prod.mk.injEq] at h
      obtain ⟨rfl, rfl⟩ := h
      simp [kvLowerBound, lexLt_irrefl]
    · have hk : k ∈ tl.keys := KVList.key_mem_of_mem_toList h
      have hlk : lexLt l k = true := hs.1 k hk
      simp only [kvLowerBound, if_pos hlk]
      exact ih hs.2 h

/-- C8: keyed access returns the shared `undefined` on every non-object
receiver and on every object miss (resolving hits by the
`lower_bound` binary search over the sorted entries); indexed access
returns `undefined` whenever the index is out of range (non-containers
have size 0) and on every non-container receiver. -/
theorem c8_access :
    (∀ (v : Value) (k : ByteStr), v.type ≠ .object → v.getKey k = .undefined) ∧
    (∀ (k : ByteStr), Value.emptyObject.getKey k = .undefined) ∧
    (∀ (xs : KVList) (k : ByteStr), k ∉ xs.keys →
      (Value.object xs).getKey k = .undefined) ∧
    (∀ (xs : KVList) (k : ByteStr) (w : Value),
      List.Pairwise (fun a b => lexLt a b = true) xs.keys →
      (k, w) ∈ xs.toList → (Value.object xs).getKey k = w) ∧
    (∀ (v : Value) (i : Nat), v.size ≤ i → v.getIndex i = .undefined) ∧
    (∀ (v : Value) (i : Nat), v.type ≠ .array → v.type ≠ .object →
      v.getIndex i = .undefined) := by
  refine ⟨?_, ?_, ?_, ?_, ?_, ?_⟩
  · intro v k h
    cases v <;> first | rfl | simp [Value.type] at h
  · intro k; rfl
  · intro xs k h
    simp only [Value.getKey]
    rcases kvLowerBound_miss h with h' | ⟨l, w, tl, h', hne⟩
    · rw [h']
    · rw [h']
      simp [hne]
  · intro xs k w hs hmem
    obtain ⟨tl, htl⟩ := kvLowerBound_found hs hmem
    simp [Value.getKey, htl]
  · intro v i h
    cases v <;> simp_all [Value.size, Value.getIndex]
  · intro v i h1 h2
    cases v <;> first | rfl | simp [Value.type] at h1 h2

/-- C8 witness: concrete object/array instances exercising each clause. -/
theorem c8_access_witness :
    (Value.boolean true).getKey [97] = .undefined ∧
    (Value.object (.cons [97] (.int32 1) .nil)).getKey [98] = .undefined ∧
    (Value.object (.cons [97] (.int32 1) (.cons [98] (.int32 2) .nil))).getKey
        [98] = .int32 2 ∧
    (Value.array (.cons .null .nil)).getIndex 1 = .undefined ∧
    (Value.int32 7).getIndex 0 = .undefined := by
  refine ⟨c8_access.1 _ _ (by decide), ?_, ?_, ?_, ?_⟩
  · exact c8_access.2.2.1 _ _ (by decide)
  · exact c8_access.2.2.2.1 _ _ _ (by decide) (by decide)
  · exact c8_access.2.2.2.2.1 _ _ (by decide)
  · exact c8_access.2.2.2.2.2 _ 0 (by decide) (by decide)

end Imtjson

namespace Imtjson

/-! ## Claim C4 — `merge_keys` -/

theorem lexLt_of_cmp_lt {k l : ByteStr} (h : strCompare k l = .lt) :
    lexLt k l = true := lexLt_iff.mpr h

theorem lexLt_of_cmp_gt {k l : ByteStr} (h : strCompare k l = .gt) :
    lexLt l k = true := by
  apply lexLt_iff.mpr
  rw [strCompare_swap, h]
  rfl

/-- In a strictly key-sorted entry sequence the head key appears once: an
entry carrying the head key is the head entry. -/
theorem sorted_head_unique {l : ByteStr} {w : Value} {tl : KVList}
    {k : ByteStr} {w' : Value}
    (hs : List.Pairwise (fun a b => lexLt a b = true) (KVList.cons l w tl).keys)
    (hm : (k, w') ∈ (KVList.cons l w tl).toList) (hk : k = l) : w' = w := by
  subst hk
  simp only [KVList.toList, List.mem_cons, Prod.mk.injEq] at hm
  rcases hm with ⟨_, rfl⟩ | hm
  · rfl
  · simp only [KVList.keys, List.pairwise_cons] at hs
    have := hs.1 k (KVList.key_mem_of_mem_toList hm)
    simp [lexLt_irrefl] at this

theorem mergeKVs_mem_keys {a b : KVList} {k : ByteStr}
    (h : k ∈ (mergeKVs a b).keys) : k ∈ a.keys ∨ k ∈ b.keys := by
  induction a, b using mergeKVs.induct with
  | case1 => simp [mergeKVs, KVList.keys] at h
  | case2 ka va tl ih =>
    rw [show mergeKVs (KVList.cons ka va tl) .nil
          = .cons ka va (mergeKVs tl .nil) from by simp [mergeKVs]] at h
    simp only [KVList.keys, List.mem_cons] at h ⊢
    rcases h with rfl | h
    · exact Or.inl (Or.inl rfl)
    · rcases ih h with h' | h'
      · exact Or.inl (Or.inr h')
      · exact Or.inr h'
  | case3 l w tl hdef ih =>
    rw [show mergeKVs .nil (KVList.cons l w tl)
          = .cons l w (mergeKVs .nil tl) from by simp [mergeKVs, hdef]] at h
    simp only [KVList.keys, List.mem_cons] at h ⊢
    rcases h with rfl | h
    · exact Or.inr (Or.inl rfl)
    · rcases ih h with h' | h'
      · exact Or.inl h'
      · exact Or.inr (Or.inr h')
  | case4 l w tl hdef ih =>
    rw [show mergeKVs .nil (KVList.cons l w tl)
          = mergeKVs .nil tl from by simp [mergeKVs, hdef]] at h
    rcases ih h with h' | h'
    · exact Or.inl h'
    · exact Or.inr (by simp [KVList.keys, h'])
  | case5 ka va tl1 l w tl2 hcmp ih =>
    rw [show mergeKVs (KVList.cons ka va tl1) (KVList.cons l w tl2)
          = .cons ka va (mergeKVs tl1 (KVList.cons l w tl2)) from by
        simp [mergeKVs, hcmp]] at h
    simp only [KVList.keys, List.mem_cons] at h ⊢
    rcases h with rfl | h
    · exact Or.inl (Or.inl rfl)
    · rcases ih h with h' | h'
      · exact Or.inl (Or.inr h')
      · exact Or.inr (by simpa [KVList.keys] using h')
  | case6 ka va tl1 l w tl2 hcmp hdef ih =>
    rw [show mergeKVs (KVList.cons ka va tl1) (KVList.cons l w tl2)
          = .cons l w (mergeKVs (KVList.cons ka va tl1) tl2) from by
        simp [mergeKVs, hcmp, hdef]] at h
    simp only [KVList.keys, List.mem_cons] at h ⊢
    rcases h with rfl | h
    · exact Or.inr (Or.inl rfl)
    · rcases ih h with h' | h'
      · exact Or.inl (by simpa [KVList.keys] using h')
      · exact Or.inr (Or.inr h')
  | case7 ka va tl1 l w tl2 hcmp hdef ih =>
    rw [show mergeKVs (KVList.cons ka va tl1) (KVList.cons l w tl2)
          = mergeKVs (KVList.cons ka va tl1) tl2 from by
        simp [mergeKVs, hcmp, hdef]] at h
    rcases ih h with h' | h'
    · exact Or.inl h'
    · exact Or.inr (by simp [KVList.keys, h'])
  | case8 ka va tl1 l w tl2 hcmp hdef ih =>
    rw [show mergeKVs (KVList.cons ka va tl1) (KVList.cons l w tl2)
          = .cons l w (mergeKVs tl1 tl2) from by simp [mergeKVs, hcmp, hdef]] at h
    simp only [KVList.keys, List.mem_cons] at h ⊢
    rcases h with rfl | h
    · exact Or.inr (Or.inl rfl)
    · rcases ih h with h' | h'
      · exact Or.inl (Or.inr h')
      · exact Or.inr (Or.inr h')
  | case9 ka va tl1 l w tl2 hcmp hdef ih =>
    rw [show mergeKVs (KVList.cons ka va tl1) (KVList.cons l w tl2)
          = mergeKVs tl1 tl2 from by simp [mergeKVs, hcmp, hdef]] at h
    rcases ih h with h' | h'
    · exact Or.inl (by simp [KVList.keys, h'])
    · exact Or.inr (by simp [KVList.keys, h'])

end Imtjson

namespace Imtjson

/-- Merging two strictly key-sorted sequences yields a strictly key-sorted
sequence. -/
theorem mergeKVs_sorted {a b : KVList}
    (hsa : List.Pairwise (fun x y => lexLt x y = true) a.keys)
    (hsb : List.Pairwise (fun x y => lexLt x y = true) b.keys) :
    List.Pairwise (fun x y => lexLt x y = true) (mergeKVs a b).keys := by
  induction a, b using mergeKVs.induct with
  | case1 => simp [mergeKVs, KVList.keys]
  | case2 ka va tl ih =>
    rw [show mergeKVs (KVList.cons ka va tl) .nil
          = .cons ka va (mergeKVs tl .nil) from by simp [mergeKVs]]
    simp only [KVList.keys, List.pairwise_cons] at hsa ⊢
    refine ⟨?_, ih hsa.2 hsb⟩
    intro m hm
    rcases mergeKVs_mem_keys hm with h' | h'
    · exact hsa.1 m h'
    · simp [KVList.keys] at h'
  | case3 l w tl hdef ih =>
    rw [show mergeKVs .nil (KVList.cons l w tl)
          = .cons l w (mergeKVs .nil tl) from by simp [mergeKVs, hdef]]
    simp only [KVList.keys, List.pairwise_cons] at hsb ⊢
    refine ⟨?_, ih hsa hsb.2⟩
    intro m hm
    rcases mergeKVs_mem_keys hm with h' | h'
    · simp [KVList.keys] at h'
    · exact hsb.1 m h'
  | case4 l w tl hdef ih =>
    rw [show mergeKVs .nil (KVList.cons l w tl)
          = mergeKVs .nil tl from by simp [mergeKVs, hdef]]
    simp only [KVList.keys, List.pairwise_cons] at hsb
    exact ih hsa hsb.2
  | case5 ka va tl1 l w tl2 hcmp ih =>
    rw [show mergeKVs (KVList.cons ka va tl1) (KVList.cons l w tl2)
          = .cons ka va (mergeKVs tl1 (KVList.cons l w tl2)) from by
        simp [mergeKVs, hcmp]]
    simp only [KVList.keys, List.pairwise_cons] at hsa ⊢
    refine ⟨?_, ih hsa.2 hsb⟩
    intro m hm
    rcases mergeKVs_mem_keys hm with h' | h'
    · exact hsa.1 m h'
    · simp only [KVList.keys, List.mem_cons] at h'
      simp only [KVList.keys, List.pairwise_cons] at hsb
      rcases h' with rfl | h'
      · exact lexLt_of_cmp_lt hcmp
      · exact lexLt_trans (lexLt_of_cmp_lt hcmp) (hsb.1 m h')
  | case6 ka va tl1 l w tl2 hcmp hdef ih =>
    rw [show mergeKVs (KVList.cons ka va tl1) (KVList.cons l w tl2)
          = .cons l w (mergeKVs (KVList.cons ka va tl1) tl2) from by
        simp [mergeKVs, hcmp, hdef]]
    simp only [KVList.keys, List.pairwise_cons] at hsb ⊢
    refine ⟨?_, ih hsa hsb.2⟩
    intro m hm
    rcases mergeKVs_mem_keys hm with h' | h'
    · simp only [KVList.keys, List.mem_cons] at h'
      simp only [KVList.keys, List.pairwise_cons] at hsa
      rcases h' with rfl | h'
      · exact lexLt_of_cmp_gt hcmp
      · exact lexLt_trans (lexLt_of_cmp_gt hcmp) (hsa.1 m h')
    · exact hsb.1 m h'
  | case7 ka va tl1 l w tl2 hcmp hdef ih =>
    rw [show mergeKVs (KVList.cons ka va tl1) (KVList.cons l w tl2)
          = mergeKVs (KVList.cons ka va tl1) tl2 from by
        simp [mergeKVs, hcmp, hdef]]
    simp only [KVList.keys, List.pairwise_cons] at hsb
    exact ih hsa hsb.2
  | case8 ka va tl1 l w tl2 hcmp hdef ih =>
    rw [show mergeKVs (KVList.cons ka va tl1) (KVList.cons l w tl2)
          = .cons l w (mergeKVs tl1 tl2) from by simp [mergeKVs, hcmp, hdef]]
    simp only [KVList.keys, List.pairwise_cons] at hsa hsb ⊢
    refine ⟨?_, ih hsa.2 hsb.2⟩
    intro m hm
    rcases mergeKVs_mem_keys hm with h' | h'
    · have := hsa.1 m h'
      rw [strCompare_eq_iff.mp hcmp] at this
      exact this
    · exact hsb.1 m h'
  | case9 ka va tl1 l w tl2 hcmp hdef ih =>
    rw [show mergeKVs (KVList.cons ka va tl1) (KVList.cons l w tl2)
          = mergeKVs tl1 tl2 from by simp [mergeKVs, hcmp, hdef]]
    simp only [KVList.keys, List.pairwise_cons] at hsa hsb
    exact ih hsa.2 hsb.2

/-- Every defined entry of the argument survives the merge unchanged. -/
theorem mergeKVs_mem_b {a b : KVList} {k : ByteStr} {w : Value}
    (hsb : List.Pairwise (fun x y => lexLt x y = true) b.keys)
    (hmem : (k, w) ∈ b.toList) (hdefk : w.defined = true) :
    (k, w) ∈ (mergeKVs a b).toList := by
  induction a, b using mergeKVs.induct with
  | case1 => simp [KVList.toList] at hmem
  | case2 ka va tl ih => simp [KVList.toList] at hmem
  | case3 l w' tl hdef ih =>
    rw [show mergeKVs .nil (KVList.cons l w' tl)
          = .cons l w' (mergeKVs .nil tl) from by simp [mergeKVs, hdef]]
    simp only [KVList.toList, List.mem_cons, Prod.mk.injEq] at hmem ⊢
    rcases hmem with ⟨rfl, rfl⟩ | hmem
    · exact Or.inl ⟨rfl, rfl⟩
    · simp only [KVList.keys, List.pairwise_cons] at hsb
      exact Or.inr (ih hsb.2 hmem)
  | case4 l w' tl hdef ih =>
    rw [show mergeKVs .nil (KVList.cons l w' tl)
          = mergeKVs .nil tl from by simp [mergeKVs, hdef]]
    simp only [KVList.toList, List.mem_cons, Prod.mk.injEq] at hmem
    rcases hmem with ⟨rfl, rfl⟩ | hmem
    · simp [hdefk] at hdef
    · simp only [KVList.keys, List.pairwise_cons] at hsb
      exact ih hsb.2 hmem
  | case5 ka va tl1 l w' tl2 hcmp ih =>
    rw [show mergeKVs (KVList.cons ka va tl1) (KVList.cons l w' tl2)
          = .cons ka va (mergeKVs tl1 (KVList.cons l w' tl2)) from by
        simp [mergeKVs, hcmp]]
    simp only [KVList.toList, List.mem_cons]
    exact Or.inr (ih hsb hmem)
  | case6 ka va tl1 l w' tl2 hcmp hdef ih =>
    rw [show mergeKVs (KVList.cons ka va tl1) (KVList.cons l w' tl2)
          = .cons l w' (mergeKVs (KVList.cons ka va tl1) tl2) from by
        simp [mergeKVs, hcmp, hdef]]
    simp only [KVList.toList, List.mem_cons, Prod.mk.injEq] at hmem ⊢
    rcases hmem with ⟨rfl, rfl⟩ | hmem
    · exact Or.inl ⟨rfl, rfl⟩
    · simp only [KVList.keys, List.pairwise_cons] at hsb
      exact Or.inr (ih hsb.2 hmem)
  | case7 ka va tl1 l w' tl2 hcmp hdef ih =>
    rw [show mergeKVs (KVList.cons ka va tl1) (KVList.cons l w' tl2)
          = mergeKVs (KVList.cons ka va tl1) tl2 from by
        simp [mergeKVs, hcmp, hdef]]
    simp only [KVList.toList, List.mem_cons, Prod.mk.injEq] at hmem
    rcases hmem with ⟨rfl, rfl⟩ | hmem
    · simp [hdefk] at hdef
    · simp only [KVList.keys, List.pairwise_cons] at hsb
      exact ih hsb.2 hmem
  | case8 ka va tl1 l w' tl2 hcmp hdef ih =>
    rw [show mergeKVs (KVList.cons ka va tl1) (KVList.cons l w' tl2)
          = .cons l w' (mergeKVs tl1 tl2) from by simp [mergeKVs, hcmp, hdef]]
    simp only [KVList.toList, List.mem_cons, Prod.mk.injEq] at hmem ⊢
    rcases hmem with ⟨rfl, rfl⟩ | hmem
    · exact Or.inl ⟨rfl, rfl⟩
    · simp only [KVList.keys, List.pairwise_cons] at hsb
      exact Or.inr (ih hsb.2 hmem)
  | case9 ka va tl1 l w' tl2 hcmp hdef ih =>
    rw [show mergeKVs (KVList.cons ka va tl1) (KVList.cons l w' tl2)
          = mergeKVs tl1 tl2 from by simp [mergeKVs, hcmp, hdef]]
    simp only [KVList.toList, List.mem_cons, Prod.mk.injEq] at hmem
    rcases hmem with ⟨rfl, rfl⟩ | hmem
    · simp [hdefk] at hdef
    · simp only [KVList.keys, List.pairwise_cons] at hsb
      exact ih hsb.2 hmem

end Imtjson

namespace Imtjson

/-- A key that the argument maps to `undefined` is deleted by the merge. -/
theorem mergeKVs_b_undef_absent {a b : KVList} {k : ByteStr}
    (hsa : List.Pairwise (fun x y => lexLt x y = true) a.keys)
    (hsb : List.Pairwise (fun x y => lexLt x y = true) b.keys)
    (hmem : (k, Value.undefined) ∈ b.toList) :
    k ∉ (mergeKVs a b).keys := by
  induction a, b using mergeKVs.induct with
  | case1 => simp [KVList.toList] at hmem
  | case2 ka va tl ih => simp [KVList.toList] at hmem
  | case3 l w tl hdef ih =>
    rcases (by simpa [KVList.toList] using hmem :
        (k = l ∧ Value.undefined = w) ∨ (k, Value.undefined) ∈ tl.toList)
      with ⟨rfl, hw⟩ | hmem'
    · rw [← hw] at hdef
      simp [Value.defined] at hdef
    · rw [show mergeKVs .nil (KVList.cons l w tl)
            = .cons l w (mergeKVs .nil tl) from by simp [mergeKVs, hdef]]
      simp only [KVList.keys, List.mem_cons, not_or]
      simp only [KVList.keys, List.pairwise_cons] at hsb
      have hk : k ∈ tl.keys := KVList.key_mem_of_mem_toList hmem'
      refine ⟨?_, ih hsa hsb.2 hmem'⟩
      intro hEq
      have := hsb.1 k hk
      rw [hEq] at this
      simp [lexLt_irrefl] at this
  | case4 l w tl hdef ih =>
    rw [show mergeKVs .nil (KVList.cons l w tl)
          = mergeKVs .nil tl from by simp [mergeKVs, hdef]]
    rcases (by simpa [KVList.toList] using hmem :
        (k = l ∧ Value.undefined = w) ∨ (k, Value.undefined) ∈ tl.toList)
      with ⟨rfl, hw⟩ | hmem'
    · intro hk
      rcases mergeKVs_mem_keys hk with h' | h'
      · simp [KVList.keys] at h'
      · simp only [KVList.keys, List.pairwise_cons] at hsb
        have := hsb.1 k h'
        simp [lexLt_irrefl] at this
    · simp only [KVList.keys, List.pairwise_cons] at hsb
      exact ih hsa hsb.2 hmem'
  | case5 ka va tl1 l w tl2 hcmp ih =>
    rw [show mergeKVs (KVList.cons ka va tl1) (KVList.cons l w tl2)
          = .cons ka va (mergeKVs tl1 (KVList.cons l w tl2)) from by
        simp [mergeKVs, hcmp]]
    simp only [KVList.keys, List.mem_cons, not_or]
    simp only [KVList.keys, List.pairwise_cons] at hsa
    have hk : k ∈ (KVList.cons l w tl2).keys := KVList.key_mem_of_mem_toList hmem
    constructor
    · intro hEq
      subst hEq
      rcases (by simpa [KVList.keys] using hk : k = l ∨ k ∈ tl2.keys)
        with rfl | hk'
      · exact absurd (lexLt_of_cmp_lt hcmp) (by simp [lexLt_irrefl])
      · simp only [KVList.keys, List.pairwise_cons] at hsb
        have h1 := lexLt_trans (lexLt_of_cmp_lt hcmp) (hsb.1 k hk')
        simp [lexLt_irrefl] at h1
    · exact ih hsa.2 hsb hmem
  | case6 ka va tl1 l w tl2 hcmp hdef ih =>
    rcases (by simpa [KVList.toList] using hmem :
        (k = l ∧ Value.undefined = w) ∨ (k, Value.undefined) ∈ tl2.toList)
      with ⟨rfl, hw⟩ | hmem'
    · rw [← hw] at hdef
      simp [Value.defined] at hdef
    · rw [show mergeKVs (KVList.cons ka va tl1) (KVList.cons l w tl2)
            = .cons l w (mergeKVs (KVList.cons ka va tl1) tl2) from by
          simp [mergeKVs, hcmp, hdef]]
      simp only [KVList.keys, List.mem_cons, not_or]
      simp only [KVList.keys, List.pairwise_cons] at hsb
      have hk : k ∈ tl2.keys := KVList.key_mem_of_mem_toList hmem'
      refine ⟨?_, ih hsa hsb.2 hmem'⟩
      intro hEq
      have := hsb.1 k hk
      rw [hEq] at this
      simp [lexLt_irrefl] at this
  | case7 ka va tl1 l w tl2 hcmp hdef ih =>
    rw [show mergeKVs (KVList.cons ka va tl1) (KVList.cons l w tl2)
          = mergeKVs (KVList.cons ka va tl1) tl2 from by
        simp [mergeKVs, hcmp, hdef]]
    rcases (by simpa [KVList.toList] using hmem :
        (k = l ∧ Value.undefined = w) ∨ (k, Value.undefined) ∈ tl2.toList)
      with ⟨rfl, hw⟩ | hmem'
    · intro hk
      rcases mergeKVs_mem_keys hk with h' | h'
      · rcases (by simpa [KVList.keys] using h' : k = ka ∨ k ∈ tl1.keys)
          with rfl | h''
        · have := lexLt_of_cmp_gt hcmp
          simp [lexLt_irrefl] at this
        · simp only [KVList.keys, List.pairwise_cons] at hsa
          have := lexLt_trans (lexLt_of_cmp_gt hcmp) (hsa.1 k h'')
          simp [lexLt_irrefl] at this
      · simp only [KVList.keys, List.pairwise_cons] at hsb
        have := hsb.1 k h'
        simp [lexLt_irrefl] at this
    · simp only [KVList.keys, List.pairwise_cons] at hsb
      exact ih hsa hsb.2 hmem'
  | case8 ka va tl1 l w tl2 hcmp hdef ih =>
    rcases (by simpa [KVList.toList] using hmem :
        (k = l ∧ Value.undefined = w) ∨ (k, Value.undefined) ∈ tl2.toList)
      with ⟨rfl, hw⟩ | hmem'
    · rw [← hw] at hdef
      simp [Value.defined] at hdef
    · rw [show mergeKVs (KVList.cons ka va tl1) (KVList.cons l w tl2)
            = .cons l w (mergeKVs tl1 tl2) from by simp [mergeKVs, hcmp, hdef]]
      simp only [KVList.keys, List.mem_cons, not_or]
      simp only [KVList.keys, List.pairwise_cons] at hsa hsb
      have hk : k ∈ tl2.keys := KVList.key_mem_of_mem_toList hmem'
      refine ⟨?_, ih hsa.2 hsb.2 hmem'⟩
      intro hEq
      have := hsb.1 k hk
      rw [hEq] at this
      simp [lexLt_irrefl] at this
  | case9 ka va tl1 l w tl2 hcmp hdef ih =>
    rw [show mergeKVs (KVList.cons ka va tl1) (KVList.cons l w tl2)
          = mergeKVs tl1 tl2 from by simp [mergeKVs, hcmp, hdef]]
    rcases (by simpa [KVList.toList] using hmem :
        (k = l ∧ Value.undefined = w) ∨ (k, Value.undefined) ∈ tl2.toList)
      with ⟨rfl, hw⟩ | hmem'
    · intro hk
      rcases mergeKVs_mem_keys hk with h' | h'
      · simp only [KVList.keys, List.pairwise_cons] at hsa
        have := hsa.1 k h'
        rw [strCompare_eq_iff.mp hcmp] at this
        simp [lexLt_irrefl] at this
      · simp only [KVList.keys, List.pairwise_cons] at hsb
        have := hsb.1 k h'
        simp [lexLt_irrefl] at this
    · simp only [KVList.keys, List.pairwise_cons] at hsa hsb
      exact ih hsa.2 hsb.2 hmem'

/-- A key present only in the receiver survives the merge. -/
theorem mergeKVs_a_only {a b : KVList} {k : ByteStr}
    (hka : k ∈ a.keys) (hkb : k ∉ b.keys) :
    k ∈ (mergeKVs a b).keys := by
  induction a, b using mergeKVs.induct with
  | case1 => simp [KVList.keys] at hka
  | case2 ka va tl ih =>
    rw [show mergeKVs (KVList.cons ka va tl) .nil
          = .cons ka va (mergeKVs tl .nil) from by simp [mergeKVs]]
    rcases List.mem_cons.mp (by simpa [KVList.keys] using hka) with rfl | h'
    · simp [KVList.keys]
    · simp only [KVList.keys, List.mem_cons]
      exact Or.inr (ih h' hkb)
  | case3 l w tl hdef ih => simp [KVList.keys] at hka
  | case4 l w tl hdef ih => simp [KVList.keys] at hka
  | case5 ka va tl1 l w tl2 hcmp ih =>
    rw [show mergeKVs (KVList.cons ka va tl1) (KVList.cons l w tl2)
          = .cons ka va (mergeKVs tl1 (KVList.cons l w tl2)) from by
        simp [mergeKVs, hcmp]]
    rcases List.mem_cons.mp (by simpa [KVList.keys] using hka) with rfl | h'
    · simp [KVList.keys]
    · simp only [KVList.keys, List.mem_cons]
      exact Or.inr (ih h' hkb)
  | case6 ka va tl1 l w tl2 hcmp hdef ih =>
    rw [show mergeKVs (KVList.cons ka va tl1) (KVList.cons l w tl2)
          = .cons l w (mergeKVs (KVList.cons ka va tl1) tl2) from by
        simp [mergeKVs, hcmp, hdef]]
    simp only [KVList.keys, List.mem_cons]
    have hkb' : k ∉ tl2.keys := fun h => hkb (by simp [KVList.keys, h])
    exact Or.inr (ih hka hkb')
  | case7 ka va tl1 l w tl2 hcmp hdef ih =>
    rw [show mergeKVs (KVList.cons ka va tl1) (KVList.cons l w tl2)
          = mergeKVs (KVList.cons ka va tl1) tl2 from by
        simp [mergeKVs, hcmp, hdef]]
    have hkb' : k ∉ tl2.keys := fun h => hkb (by simp [KVList.keys, h])
    exact ih hka hkb'
  | case8 ka va tl1 l w tl2 hcmp hdef ih =>
    rw [show mergeKVs (KVList.cons ka va tl1) (KVList.cons l w tl2)
          = .cons l w (mergeKVs tl1 tl2) from by simp [mergeKVs, hcmp, hdef]]
    rcases List.mem_cons.mp (by simpa [KVList.keys] using hka) with rfl | h'
    · exact absurd (by simp [KVList.keys, strCompare_eq_iff.mp hcmp]) hkb
    · simp only [KVList.keys, List.mem_cons]
      have hkb' : k ∉ tl2.keys := fun h => hkb (by simp [KVList.keys, h])
      exact Or.inr (ih h' hkb')
  | case9 ka va tl1 l w tl2 hcmp hdef ih =>
    rw [show mergeKVs (KVList.cons ka va tl1) (KVList.cons l w tl2)
          = mergeKVs tl1 tl2 from by simp [mergeKVs, hcmp, hdef]]
    rcases List.mem_cons.mp (by simpa [KVList.keys] using hka) with rfl | h'
    · exact absurd (by simp [KVList.keys, strCompare_eq_iff.mp hcmp]) hkb
    · have hkb' : k ∉ tl2.keys := fun h => hkb (by simp [KVList.keys, h])
      exact ih h' hkb'

end Imtjson

namespace Imtjson

/-- C4, counterexample: the claim's deletion clause fails on objects with
duplicate keys, which the constructors produce (`sort_object` does not
deduplicate — the fact behind claim C5's correction).  Build the argument
object from `{("a", undefined), ("a", 5)}`: the construction sorts it to
the entry list `[("a", undefined), ("a", 5)]`, the key `"a"` is present
with an undefined value, yet `merge_keys` only skips the undefined entry
and then copies the defined duplicate, so `"a"` survives in the result —
against the claim's "for every key k present in b with an undefined
value, k is absent from the result". -/
theorem c4_dup_key_not_deleted :
    Value.mkObject [([97], Value.undefined), ([97], Value.int32 5)]
      = Value.object (.cons [97] Value.undefined
          (.cons [97] (Value.int32 5) .nil)) ∧
    ([97], Value.undefined)
      ∈ (KVList.cons [97] Value.undefined
          (.cons [97] (Value.int32 5) .nil)).toList ∧
    [97] ∈ (Value.emptyObject.merge_keys
        (Value.mkObject [([97], Value.undefined),
          ([97], Value.int32 5)])).keyStrings := by
  refine ⟨by decide, by decide, ?_⟩
  have hmerge : Value.emptyObject.merge_keys
      (Value.mkObject [([97], Value.undefined), ([97], Value.int32 5)])
      = Value.object (.cons [97] (Value.int32 5) .nil) := by
    rw [show Value.mkObject [([97], Value.undefined), ([97], Value.int32 5)]
        = Value.object (.cons [97] Value.undefined
            (.cons [97] (Value.int32 5) .nil)) from by decide]
    show Value.object (mergeKVs .nil (.cons [97] Value.undefined
        (.cons [97] (Value.int32 5) .nil))) = _
    simp [mergeKVs, Value.defined]
  rw [hmerge]
  decide

/-- C4, amended: for objects `a`, `b` with strictly increasing keys (the
form every duplicate-free construction yields; with duplicate keys the
deletion clause is refuted above), `a.merge_keys(b)`:
its key set is contained in the union of the two key sets; at every key the
argument maps to a defined value the merged object agrees with the argument
(`merged[k] = b[k]`); every key the argument maps to `undefined` is absent
from the result; and a key present in only one side (with a defined value,
in the argument's case) is kept. -/
theorem c4_merge_keys (a b : KVList)
    (hsa : List.Pairwise (fun x y => lexLt x y = true) a.keys)
    (hsb : List.Pairwise (fun x y => lexLt x y = true) b.keys) :
    (∀ k, k ∈ ((Value.object a).merge_keys (Value.object b)).keyStrings →
      k ∈ a.keys ∨ k ∈ b.keys) ∧
    (∀ (k : ByteStr) (w : Value), (k, w) ∈ b.toList → w.defined = true →
      ((Value.object a).merge_keys (Value.object b)).getKey k
        = (Value.object b).getKey k) ∧
    (∀ k : ByteStr, (k, Value.undefined) ∈ b.toList →
      k ∉ ((Value.object a).merge_keys (Value.object b)).keyStrings) ∧
    (∀ k : ByteStr, k ∈ a.keys → k ∉ b.keys →
      k ∈ ((Value.object a).merge_keys (Value.object b)).keyStrings) ∧
    (∀ (k : ByteStr) (w : Value), (k, w) ∈ b.toList → w.defined = true →
      k ∈ ((Value.object a).merge_keys (Value.object b)).keyStrings) := by
  have hmerge : (Value.object a).merge_keys (Value.object b)
      = .object (mergeKVs a b) := rfl
  rw [hmerge]
  have hsm := mergeKVs_sorted hsa hsb
  refine ⟨?_, ?_, ?_, ?_, ?_⟩
  · intro k h
    exact mergeKVs_mem_keys h
  · intro k w hmem hdef
    have hm := mergeKVs_mem_b (a := a) hsb hmem hdef
    obtain ⟨tl1, h1⟩ := kvLowerBound_found hsm hm
    obtain ⟨tl2, h2⟩ := kvLowerBound_found hsb hmem
    simp [Value.getKey, Value.keysList, h1, h2]
  · intro k hmem
    exact mergeKVs_b_undef_absent hsa hsb hmem
  · intro k hka hkb
    exact mergeKVs_a_only hka hkb
  · intro k w hmem hdef
    exact KVList.key_mem_of_mem_toList (mergeKVs_mem_b (a := a) hsb hmem hdef)

/-- C4 witness: `{"a":1,"b":2}.merge_keys({"b":3,"c":undefined,"d":4})`. -/
theorem c4_merge_keys_witness :
    ((Value.object (.cons [97] (.int32 1) (.cons [98] (.int32 2) .nil))).merge_keys
      (Value.object (.cons [98] (.int32 3) (.cons [99] .undefined
        (.cons [100] (.int32 4) .nil))))).getKey [98] = .int32 3 ∧
    [99] ∉ ((Value.object (.cons [97] (.int32 1) (.cons [98] (.int32 2) .nil))).merge_keys
      (Value.object (.cons [98] (.int32 3) (.cons [99] .undefined
        (.cons [100] (.int32 4) .nil))))).keyStrings ∧
    [97] ∈ ((Value.object (.cons [97] (.int32 1) (.cons [98] (.int32 2) .nil))).merge_keys
      (Value.object (.cons [98] (.int32 3) (.cons [99] .undefined
        (.cons [100] (.int32 4) .nil))))).keyStrings := by
  have h := c4_merge_keys
    (.cons [97] (.int32 1) (.cons [98] (.int32 2) .nil))
    (.cons [98] (.int32 3) (.cons [99] .undefined (.cons [100] (.int32 4) .nil)))
    (by decide) (by decide)
  refine ⟨?_, ?_, ?_⟩
  · have := h.2.1 [98] (.int32 3) (by decide) (by decide)
    rw [this]
    decide
  · exact h.2.2.1 [99] (by decide)
  · exact h.2.2.2.1 [97] (by decide) (by decide)

end Imtjson

namespace Imtjson

/-! ## Claim C6 — undefined elision in the text serializer -/

/-- Entries with defined values (the ones `next()`/`render_item` keep). -/
def kvFilterDefined : KVList → KVList
  | .nil => .nil
  | .cons k v tl =>
    if v.defined then .cons k v (kvFilterDefined tl) else kvFilterDefined tl

theorem textObj_filter_defined (xs : KVList) :
    textObjHead xs = textObjHead (kvFilterDefined xs) ∧
    textObjTail xs = textObjTail (kvFilterDefined xs) := by
  induction xs using KVList.inductionOn with
  | hnil => exact ⟨rfl, rfl⟩
  | hcons k v tl ih =>
    by_cases h : v.defined
    · simp only [kvFilterDefined, if_pos h, textObjHead, textObjTail, h,
        if_true, ih.2]
      exact ⟨trivial, trivial⟩
    · have h' : v.defined = false := by
        cases hd : v.defined
        · rfl
        · exact absurd hd h
      simp only [kvFilterDefined, h', Bool.false_eq_true, if_false,
        textObjHead, textObjTail]
      exact ih

/-- C6: the text serializer skips object entries whose value is undefined
entirely — serializing an object is serializing the object with those
entries removed (no key, no value, no separator byte for them); the
spec's example `{"a":1,"b":undefined,"c":3}` serializes to exactly the
bytes `{"a":1,"c":3}`; and a top-level `undefined` serializes as `null`. -/
theorem c6_undefined_elision :
    (∀ xs : KVList,
      textValue (.object xs) = textValue (.object (kvFilterDefined xs))) ∧
    stringify (Value.mkObject [([97], .int32 1), ([98], .undefined),
        ([99], .int32 3)])
      = some [123, 34, 97, 34, 58, 49, 44, 34, 99, 34, 58, 51, 125] ∧
    stringify .undefined = some Value.nullBytes := by
  refine ⟨?_, by decide, by decide⟩
  intro xs
  simp only [textValue, (textObj_filter_defined xs).1]

/-! ## Claim C9 — invalid escape sequences -/

/-- C9 (the code's actual behaviour): decoding the raw string bytes
`a\qbc` — where `\q` is an invalid escape — does *not* drop the escape
without output: the shared `++output` of `decode_json_string` advances
past a byte that was never written, leaving the stale buffer byte
(here the backslash at offset 1) in the decoded string.  The result is
`a\bc` (4 bytes, second one `0x5C`), not `abc`; the same is visible
through a full parse of the JSON document `"a\qbc"`. -/
theorem c9_invalid_escape_stale_byte :
    decodeJsonString [97, 92, 113, 98, 99] = [97, 92, 98, 99] ∧
    decodeJsonString [97, 92, 113, 98, 99] ≠ [97, 98, 99] ∧
    parse [34, 97, 92, 113, 98, 99, 34]
      = some (Value.mkString [97, 92, 98, 99]) := by
  refine ⟨by decide, by decide, ?_⟩
  have h : writeFuel 20 { initParser with input := [34, 97, 92, 113, 98, 99, 34] }
      = some (.ok ⟨[], Value.mkString [97, 92, 98, 99], false, []⟩ false) := by
    decide
  simp [parse, write, writeFuel_sound _ _ _ h]

/-! ## Claim C7 — number-state termination -/

/-- C7 (the code's actual behaviour): on the chunk `-x`, the number state
accumulates `-`, then meets `x` — a byte outside the accepted set while
the accumulated run `-` is not a valid JSON number.  The C++ loop in
`parse_state(StateNumber&)` neither consumes the byte nor raises the
error flag, so `write` never returns (modelled by the explicit `diverge`
outcome), instead of reporting a parse error. -/
theorem c7_number_state_diverges :
    write initParser [45, 120] = .diverge ∧
    numAccept 120 = false ∧
    is_valid_json_number [45] = false := by
  refine ⟨?_, by decide, by decide⟩
  have h : writeFuel 10 { initParser with input := [45, 120] } = some .diverge := by
    decide
  simpa [write] using writeFuel_sound _ _ _ h

end Imtjson

namespace Imtjson

/-! ## Claim C1 — binary round trip -/

/-- C1, counterexample: the claim fails on the stated value space.  At the
top level, `undefined` round-trips to `undefined`, but `Value::operator==`
is false whenever either side is undefined — so
`unbinarize(binarize(undefined)) == undefined` is false; and an `int32`
value round-trips into the parser's `uint64` storage, whose visited
alternative differs from `int32`, so `unbinarize(binarize(Value(5))) ==
Value(5)` is false as well. -/
theorem c1_roundtrip_not_equal :
    unbinarize (binarize .undefined) = some .undefined ∧
    valueEq .undefined .undefined = false ∧
    unbinarize (binarize (.int32 5)) = some (.uint64 5) ∧
    valueEq (.uint64 5) (.int32 5) = false := by
  refine ⟨by decide, by decide, by decide, by decide⟩

theorem countBytes_le (sz : Nat) : Bin.countBytes sz ≤ 8 := by
  unfold Bin.countBytes
  have h8 : List.range 8 = [0, 1, 2, 3, 4, 5, 6, 7] := by decide
  rw [h8]
  simp only [List.foldl]
  split_ifs <;> omega

theorem countBytes_eq_countP (sz : Nat) :
    Bin.countBytes sz
      = (List.range 8).countP (fun i => decide (sz >>> (8 * i) > 0)) := by
  unfold Bin.countBytes
  have gen : ∀ (l : List Nat) (acc : Nat),
      l.foldl (fun a i => a + if sz >>> (8 * i) > 0 then 1 else 0) acc
        = acc + l.countP (fun i => decide (sz >>> (8 * i) > 0)) := by
    intro l
    induction l with
    | nil => intro acc; simp
    | cons a tl ih =>
      intro acc
      simp only [List.foldl, List.countP_cons, ih]
      split_ifs <;> simp_all <;> omega
  rw [gen]
  omega

theorem shiftR_byte_antitone {sz i j : Nat} (hij : i ≤ j)
    (h : 0 < sz >>> (8 * j)) : 0 < sz >>> (8 * i) := by
  simp only [Nat.shiftRight_eq_div_pow] at h ⊢
  have hle : 2 ^ (8 * i) ≤ 2 ^ (8 * j) :=
    Nat.pow_le_pow_right (by omega) (by omega)
  have := Nat.div_le_div_left (a := sz) hle
    (Nat.pos_pow_of_pos (8 * i) (by omega))
  omega

theorem countBytes_bound {sz : Nat} (h : sz < 2 ^ 64) :
    sz < 2 ^ (8 * max 1 (Bin.countBytes sz)) := by
  rcases Nat.lt_or_ge (Bin.countBytes sz) 8 with hc | hc
  · -- the (countBytes sz)-th byte position is already zero
    have hzero : ¬ 0 < sz >>> (8 * Bin.countBytes sz) := by
      intro hpos
      have hmono : (List.range 8).countP (fun i => decide (i ≤ Bin.countBytes sz))
          ≤ (List.range 8).countP (fun i => decide (sz >>> (8 * i) > 0)) := by
        apply List.countP_mono_left
        intro a _ ha
        simp only [decide_eq_true_eq] at ha ⊢
        exact shiftR_byte_antitone ha hpos
      have hcount : (List.range 8).countP
          (fun i => decide (i ≤ Bin.countBytes sz)) = Bin.countBytes sz + 1 := by
        generalize hgen : Bin.countBytes sz = c at hc
        interval_cases c <;> decide
      rw [hcount, ← countBytes_eq_countP] at hmono
      omega
    have hlt : sz < 2 ^ (8 * Bin.countBytes sz) := by
      simp only [Nat.shiftRight_eq_div_pow, Nat.not_lt, Nat.le_zero] at hzero
      have := (Nat.div_eq_zero_iff
        (Nat.pos_pow_of_pos (8 * Bin.countBytes sz) (by omega))).mp hzero
      exact this
    calc sz < 2 ^ (8 * Bin.countBytes sz) := hlt
      _ ≤ 2 ^ (8 * max 1 (Bin.countBytes sz)) :=
        Nat.pow_le_pow_right (by omega) (by omega)
  · have h8 : Bin.countBytes sz = 8 := Nat.le_antisymm (countBytes_le sz) hc
    rw [h8]
    simpa using h

end Imtjson

namespace Imtjson

theorem readBE_beBytes (cb : Nat) : ∀ (acc sz : Nat) (rest : ByteStr),
    readBE acc cb (Bin.beBytes cb sz ++ rest)
      = some (acc * 2 ^ (8 * cb) + sz % 2 ^ (8 * cb), rest) := by
  induction cb with
  | zero =>
    intro acc sz rest
    simp [Bin.beBytes, readBE, Nat.mod_one]
  | succ cb ih =>
    intro acc sz rest
    have harith : (acc * 256 + sz >>> (cb * 8) % 256) * 2 ^ (8 * cb)
        + sz % 2 ^ (8 * cb)
        = acc * 2 ^ (8 * (cb + 1)) + sz % 2 ^ (8 * (cb + 1)) := by
      rw [Nat.shiftRight_eq_div_pow]
      have hp : (2 : Nat) ^ (8 * (cb + 1)) = 2 ^ (8 * cb) * 256 := by
        rw [show 8 * (cb + 1) = 8 * cb + 8 by ring, pow_add]
        norm_num
      have hd : (2 : Nat) ^ (cb * 8) = 2 ^ (8 * cb) := by ring_nf
      rw [hd, hp, Nat.mod_mul]
      ring
    simp only [Bin.beBytes, List.cons_append, readBE]
    exact (ih (acc * 256 + sz >>> (cb * 8) % 256) sz rest).trans (by rw [harith])

theorem takeBytes_exact (s : ByteStr) : ∀ rest : ByteStr,
    takeBytes s.length (s ++ rest) = some (s, rest) := by
  induction s with
  | nil => intro rest; simp [takeBytes]
  | cons b tl ih => intro rest; simp [takeBytes, ih]

theorem leToNat_leBytes (k : Nat) : ∀ bits : Nat,
    Bin.leToNat (Bin.leBytes k bits) = bits % 2 ^ (8 * k) := by
  induction k with
  | zero => intro bits; simp [Bin.leBytes, Bin.leToNat, Nat.mod_one]
  | succ k ih =>
    intro bits
    simp only [Bin.leBytes, Bin.leToNat, ih, Nat.shiftRight_eq_div_pow]
    have hp : (2 : Nat) ^ (8 * (k + 1)) = 2 ^ 8 * 2 ^ (8 * k) := by
      rw [show 8 * (k + 1) = 8 + 8 * k by ring, pow_add]
    rw [hp, Nat.mod_mul]
    norm_num

theorem leBytes_length (k : Nat) : ∀ bits : Nat, (Bin.leBytes k bits).length = k := by
  induction k with
  | zero => intro bits; simp [Bin.leBytes]
  | succ k ih => intro bits; simp [Bin.leBytes, ih]

/-- The header byte built by `render_binary_type_size` splits back into its
major tag and size field, for every major the serializer uses and every
size field below 8. -/
theorem hdr_fields : ∀ m, m < 8 →
    ((0x10 ||| m) &&& 0xF8 = 0x10 ∧ (0x10 ||| m) &&& 0x07 = m) ∧
    ((0x18 ||| m) &&& 0xF8 = 0x18 ∧ (0x18 ||| m) &&& 0x07 = m) ∧
    ((0x20 ||| m) &&& 0xF8 = 0x20 ∧ (0x20 ||| m) &&& 0x07 = m) ∧
    ((0x28 ||| m) &&& 0xF8 = 0x28 ∧ (0x28 ||| m) &&& 0x07 = m) ∧
    ((0x30 ||| m) &&& 0xF8 = 0x30 ∧ (0x30 ||| m) &&& 0x07 = m) ∧
    ((0x38 ||| m) &&& 0xF8 = 0x38 ∧ (0x38 ||| m) &&& 0x07 = m) := by
  decide

end Imtjson

namespace Imtjson

theorem cb_facts (n : Nat) :
    1 ≤ max 1 (Bin.countBytes n) ∧ max 1 (Bin.countBytes n) ≤ 8 ∧
      max 1 (Bin.countBytes n) - 1 < 8 := by
  have := countBytes_le n
  omega

theorem parseBinV_pnum (f n : Nat) (hn : n < 2 ^ 64) (rest : ByteStr) :
    parseBinV (f + 1) (Bin.renderTypeSize 0x10 n ++ rest)
      = some (.uint64 n, rest) := by
  obtain ⟨hcb1, hcb8, hm⟩ := cb_facts n
  obtain ⟨⟨hmaj, hsz⟩, _⟩ := hdr_fields _ hm
  have hbound := countBytes_bound hn
  simp only [Bin.renderTypeSize, List.cons_append, parseBinV]
  simp only [hmaj, hsz]
  norm_num
  simp only [Bin.tPNumber, Bin.tNNumber, Bin.tString, Bin.tStringNumber,
    Bin.tArray, Bin.tObject]
  norm_num
  rw [readBE_beBytes]
  simp [Nat.mod_eq_of_lt hbound]

end Imtjson

namespace Imtjson

theorem parseBinV_null (f : Nat) (rest : ByteStr) :
    parseBinV (f + 1) (Bin.tNull :: rest) = some (.null, rest) := by
  simp [parseBinV, Bin.tNull, Bin.tTrue, Bin.tFalse, Bin.tDouble]

theorem parseBinV_true (f : Nat) (rest : ByteStr) :
    parseBinV (f + 1) (Bin.tTrue :: rest) = some (.boolean true, rest) := by
  simp [parseBinV, Bin.tNull, Bin.tTrue, Bin.tFalse, Bin.tDouble]

theorem parseBinV_false (f : Nat) (rest : ByteStr) :
    parseBinV (f + 1) (Bin.tFalse :: rest) = some (.boolean false, rest) := by
  have h2 : 2 &&& 248 = 0 := by decide
  simp [parseBinV, h2, Bin.tNull, Bin.tTrue, Bin.tFalse, Bin.tDouble]

theorem parseBinV_double (f bits : Nat) (rest : ByteStr) :
    parseBinV (f + 1) ((Bin.tDouble :: Bin.leBytes 8 bits) ++ rest)
      = some (.dnum (bits % 2 ^ 64), rest) := by
  have h8 : (Bin.leBytes 8 bits).length = 8 := leBytes_length 8 bits
  have hand : 3 &&& 248 = 0 := by decide
  have ht : ∀ s : ByteStr, s.length = 8 →
      takeBytes 8 (s ++ rest) = some (s, rest) := by
    intro s hs
    rw [← hs]
    exact takeBytes_exact _ _
  simp only [List.cons_append, parseBinV]
  norm_num [hand, Bin.tNull, Bin.tTrue, Bin.tFalse, Bin.tDouble]
  rw [ht _ h8]
  simp [leToNat_leBytes]

theorem parseBinV_nnum (f m : Nat) (hm : m < 2 ^ 64) (rest : ByteStr) :
    parseBinV (f + 1) (Bin.renderTypeSize 0x18 m ++ rest)
      = some (.int64 (-(toInt64 m)), rest) := by
  obtain ⟨hcb1, hcb8, hmm⟩ := cb_facts m
  obtain ⟨_, ⟨hmaj, hsz⟩, _⟩ := hdr_fields _ hmm
  have hbound := countBytes_bound hm
  simp only [Bin.renderTypeSize, List.cons_append, parseBinV]
  simp only [hmaj, hsz]
  norm_num
  simp only [Bin.tPNumber, Bin.tNNumber, Bin.tString, Bin.tStringNumber,
    Bin.tArray, Bin.tObject]
  norm_num
  rw [readBE_beBytes]
  simp [Nat.mod_eq_of_lt hbound]

theorem parseBinV_str (f : Nat) (s rest : ByteStr) (hs : s.length < 2 ^ 64) :
    parseBinV (f + 1) (Bin.renderTypeSize 0x20 s.length ++ (s ++ rest))
      = some (.mkString s, rest) := by
  obtain ⟨hcb1, hcb8, hmm⟩ := cb_facts s.length
  obtain ⟨_, _, ⟨hmaj, hsz⟩, _⟩ := hdr_fields _ hmm
  have hbound := countBytes_bound hs
  simp only [Bin.renderTypeSize, List.cons_append, parseBinV]
  simp only [hmaj, hsz]
  norm_num
  simp only [Bin.tPNumber, Bin.tNNumber, Bin.tString, Bin.tStringNumber,
    Bin.tArray, Bin.tObject]
  norm_num
  rw [readBE_beBytes]
  simp [Nat.mod_eq_of_lt hbound, takeBytes_exact]

theorem parseBinV_numstr (f : Nat) (s rest : ByteStr) (hs : s.length < 2 ^ 64) :
    parseBinV (f + 1) (Bin.renderTypeSize 0x28 s.length ++ (s ++ rest))
      = some (.mkNumber s, rest) := by
  obtain ⟨hcb1, hcb8, hmm⟩ := cb_facts s.length
  obtain ⟨_, _, _, ⟨hmaj, hsz⟩, _⟩ := hdr_fields _ hmm
  have hbound := countBytes_bound hs
  simp only [Bin.renderTypeSize, List.cons_append, parseBinV]
  simp only [hmaj, hsz]
  norm_num
  simp only [Bin.tPNumber, Bin.tNNumber, Bin.tString, Bin.tStringNumber,
    Bin.tArray, Bin.tObject]
  norm_num
  rw [readBE_beBytes]
  simp [Nat.mod_eq_of_lt hbound, takeBytes_exact]

theorem parseBinV_arr (f n : Nat) (hn : n < 2 ^ 64) (hpos : n ≠ 0)
    (rest : ByteStr) :
    parseBinV (f + 1) (Bin.renderTypeSize 0x30 n ++ rest)
      = (match parseBinList f n rest with
         | none => none
         | some (xs, rest2) => some (.mkArray xs, rest2)) := by
  obtain ⟨hcb1, hcb8, hmm⟩ := cb_facts n
  obtain ⟨_, _, _, _, ⟨hmaj, hsz⟩, _⟩ := hdr_fields _ hmm
  have hbound := countBytes_bound hn
  simp only [Bin.renderTypeSize, List.cons_append, parseBinV]
  simp only [hmaj, hsz]
  norm_num
  simp only [Bin.tPNumber, Bin.tNNumber, Bin.tString, Bin.tStringNumber,
    Bin.tArray, Bin.tObject]
  norm_num
  rw [readBE_beBytes]
  simp [Nat.mod_eq_of_lt hbound, hpos]

theorem parseBinV_obj (f n : Nat) (hn : n < 2 ^ 64) (hpos : n ≠ 0)
    (rest : ByteStr) :
    parseBinV (f + 1) (Bin.renderTypeSize 0x38 n ++ rest)
      = (match parseBinKVs f n rest with
         | none => none
         | some (kvs, rest2) => some (.mkObject kvs, rest2)) := by
  obtain ⟨hcb1, hcb8, hmm⟩ := cb_facts n
  obtain ⟨_, _, _, _, _, ⟨hmaj, hsz⟩⟩ := hdr_fields _ hmm
  have hbound := countBytes_bound hn
  simp only [Bin.renderTypeSize, List.cons_append, parseBinV]
  simp only [hmaj, hsz]
  norm_num
  simp only [Bin.tPNumber, Bin.tNNumber, Bin.tString, Bin.tStringNumber,
    Bin.tArray, Bin.tObject]
  norm_num
  rw [readBE_beBytes]
  simp [Nat.mod_eq_of_lt hbound, hpos]

end Imtjson

namespace Imtjson

theorem beBytes_length (k : Nat) : ∀ sz : Nat, (Bin.beBytes k sz).length = k := by
  induction k with
  | zero => intro sz; simp [Bin.beBytes]
  | succ k ih => intro sz; simp [Bin.beBytes, ih]

theorem renderTypeSize_length (t sz : Nat) :
    (Bin.renderTypeSize t sz).length = 1 + max 1 (Bin.countBytes sz) := by
  simp [Bin.renderTypeSize, beBytes_length]
  omega

theorem mkStr_strView (s : ByteStr) (b : Bool) :
    (Value.mkStr s b).strView = some s := by
  unfold Value.mkStr
  have htake : (s ++ List.replicate (15 - s.length) 0).take s.length = s := by
    rw [List.take_append_of_le_length (le_refl _), List.take_length]
  split_ifs <;> simp [Value.strView, htake]

theorem mkStr_type (s : ByteStr) (b : Bool) :
    (Value.mkStr s b).type = if b then JType.number else JType.string := by
  unfold Value.mkStr
  split_ifs <;> simp_all [Value.type]

theorem get_string_mkStr (s : ByteStr) (b : Bool) :
    (Value.mkStr s b).get_string = s := by
  unfold Value.get_string
  rw [mkStr_strView]

theorem ValueList.vlOfList_toList (xs : ValueList) :
    ValueList.ofList xs.toList = xs := by
  induction xs using ValueList.inductionOn with
  | hnil => rfl
  | hcons v tl ih => simp [ValueList.toList, ValueList.ofList, ih]

theorem KVList.kvOfList_toList (xs : KVList) :
    KVList.ofList xs.toList = xs := by
  induction xs using KVList.inductionOn with
  | hnil => rfl
  | hcons k v tl ih => simp [KVList.toList, KVList.ofList, ih]

theorem ValueList.vlLength_toList (xs : ValueList) :
    xs.toList.length = xs.length := by
  induction xs using ValueList.inductionOn with
  | hnil => rfl
  | hcons v tl ih => simp [ValueList.toList, ValueList.length, ih, Nat.add_comm]

theorem KVList.kvLength_toList (xs : KVList) :
    xs.toList.length = xs.length := by
  induction xs using KVList.inductionOn with
  | hnil => rfl
  | hcons k v tl ih => simp [KVList.toList, KVList.length, ih, Nat.add_comm]

/-- On an object whose keys already strictly increase, the model's
`sort_object` changes nothing (and so the C++ `std::sort` cannot either:
a strictly sorted range is a fixed point of every sort). -/
theorem sortObject_eq_self : ∀ {xs : KVList}, kvStrictSorted xs = true →
    sortObject xs = xs := by
  intro xs
  induction xs using KVList.inductionOn with
  | hnil => intro _; rfl
  | hcons k v tl ih =>
    intro h
    cases tl with
    | nil => simp [sortObject, kvInsert]
    | cons l w tl2 =>
      simp only [kvStrictSorted, Bool.and_eq_true] at h
      obtain ⟨hkl, h2⟩ := h
      have := ih h2
      simp only [sortObject] at this ⊢
      rw [this, kvInsert, lexLt_asymm hkl]
      simp

end Imtjson

namespace Imtjson

theorem binValue_len_pos (v : Value) : 1 ≤ (binValue v).length := by
  cases v <;> simp [binValue, Bin.renderTypeSize] <;> split_ifs <;>
    simp [Bin.renderTypeSize]

theorem costV_pos (v : Value) : 1 ≤ costV v := by
  cases v <;> simp [costV]

/-- Fuel bound: the cost of a value is at most twice its binary length
(each value contributes at least one output byte, and the cost is the
nesting depth plus one per list step). -/
theorem costV_le_twice_len : ∀ v : Value, costV v ≤ 2 * (binValue v).length :=
  @Value.mutualInd
    (fun v => costV v ≤ 2 * (binValue v).length)
    (fun xs => costL xs ≤ 2 * (binVL xs).length + 1)
    (fun xs => costK xs ≤ 2 * (binKVL xs).length + 1)
    (by simp [costV, binValue])
    (by simp [costV, binValue])
    (fun b => by simp [costV, binValue])
    (fun n => by have := binValue_len_pos (.int32 n); simp [costV]; omega)
    (fun n => by have := binValue_len_pos (.uint32 n); simp [costV]; omega)
    (fun n => by have := binValue_len_pos (.int64 n); simp [costV]; omega)
    (fun n => by have := binValue_len_pos (.uint64 n); simp [costV]; omega)
    (fun bits => by have := binValue_len_pos (.dnum bits); simp [costV]; omega)
    (fun len buf => by
      have := binValue_len_pos (.shortString len buf); simp [costV]; omega)
    (fun len buf => by
      have := binValue_len_pos (.shortNumber len buf); simp [costV]; omega)
    (fun s => by have := binValue_len_pos (.longString s); simp [costV]; omega)
    (fun s => by have := binValue_len_pos (.longNumber s); simp [costV]; omega)
    (fun s => by have := binValue_len_pos (.stringRef s); simp [costV]; omega)
    (fun s => by have := binValue_len_pos (.numberRef s); simp [costV]; omega)
    (by have := binValue_len_pos .emptyArray; simp [costV]; omega)
    (by have := binValue_len_pos .emptyObject; simp [costV]; omega)
    (fun xs ih => by
      have hh : 1 ≤ (Bin.renderTypeSize Bin.tArray xs.length).length := by
        rw [renderTypeSize_length]; omega
      simp only [costV, binValue, List.length_append]
      omega)
    (fun xs ih => by
      have hh : 1 ≤ (Bin.renderTypeSize Bin.tObject xs.length).length := by
        rw [renderTypeSize_length]; omega
      simp only [costV, binValue, List.length_append]
      omega)
    (by simp [costL, binVL])
    (fun v tl ihv ihtl => by
      have hv := binValue_len_pos v
      simp only [costL, binVL, List.length_append]
      omega)
    (by simp [costK, binKVL])
    (fun k v tl ihv ihtl => by
      have hv := binValue_len_pos v
      have hk : 1 ≤ (Bin.renderTypeSize Bin.tString k.length ++ k).length := by
        simp [renderTypeSize_length]
        omega
      simp only [costK, binKVL, List.length_append]
      omega)

end Imtjson

namespace Imtjson

/-- `Value::operator==` is reflexive on the canonical fragment (it is not
reflexive in general: `undefined == undefined` and NaN `dnum`s compare
`false`). -/
theorem canon_valueEq_refl : ∀ v : Value, canonV v = true → valueEq v v = true :=
  @Value.mutualInd
    (fun v => canonV v = true → valueEq v v = true)
    (fun xs => canonL xs = true → valueListEq xs xs = true)
    (fun xs => canonK xs = true → kvListEq xs xs = true)
    (by intro h; simp [canonV] at h)
    (by intro _; rfl)
    (fun b => by intro _; simp [valueEq])
    (fun n => by intro h; simp [canonV] at h)
    (fun n => by intro h; simp [canonV] at h)
    (fun n => by intro _; simp [valueEq])
    (fun n => by intro _; simp [valueEq])
    (fun bits => by
      intro h
      simp only [canonV, Bool.and_eq_true, Bool.not_eq_true'] at h
      simp [valueEq, doubleEqBits, h.2])
    (fun len buf => by
      intro _
      show (buf.take len == buf.take len) = true
      simp)
    (fun len buf => by
      intro _
      show (buf.take len == buf.take len) = true
      simp)
    (fun s => by intro _; show (s == s) = true; simp)
    (fun s => by intro _; show (s == s) = true; simp)
    (fun s => by intro h; simp [canonV] at h)
    (fun s => by intro h; simp [canonV] at h)
    (by intro _; rfl)
    (by intro _; rfl)
    (fun xs ih => by
      intro h
      simp only [canonV, Bool.and_eq_true] at h
      show valueListEq xs xs = true
      exact ih h.2)
    (fun xs ih => by
      intro h
      simp only [canonV, Bool.and_eq_true] at h
      show kvListEq xs xs = true
      exact ih h.2)
    (by intro _; rfl)
    (fun v tl ihv ihtl => by
      intro h
      simp only [canonL, Bool.and_eq_true] at h
      simp [valueListEq, ihv h.1, ihtl h.2])
    (by intro _; rfl)
    (fun k v tl ihv ihtl => by
      intro h
      simp only [canonK, Bool.and_eq_true] at h
      simp [kvListEq, ihv h.1.2, ihtl h.2])

end Imtjson

namespace Imtjson

theorem parseBinV_arr0 (f : Nat) (rest : ByteStr) :
    parseBinV (f + 1) (Bin.renderTypeSize 0x30 0 ++ rest)
      = some (.emptyArray, rest) := by
  have hr : Bin.renderTypeSize 0x30 0 = [48, 0] := by decide
  have h1 : 48 &&& 248 = 48 := by decide
  have h2 : 48 &&& 7 = 0 := by decide
  rw [hr]
  simp [parseBinV, h1, h2, readBE, Bin.tPNumber, Bin.tNNumber, Bin.tString,
    Bin.tStringNumber, Bin.tArray, Bin.tObject]

theorem parseBinV_obj0 (f : Nat) (rest : ByteStr) :
    parseBinV (f + 1) (Bin.renderTypeSize 0x38 0 ++ rest)
      = some (.emptyObject, rest) := by
  have hr : Bin.renderTypeSize 0x38 0 = [56, 0] := by decide
  have h1 : 56 &&& 248 = 56 := by decide
  have h2 : 56 &&& 7 = 0 := by decide
  rw [hr]
  simp [parseBinV, h1, h2, readBE, Bin.tPNumber, Bin.tNNumber, Bin.tString,
    Bin.tStringNumber, Bin.tArray, Bin.tObject]

theorem mkString_type (s : ByteStr) : (Value.mkString s).type = .string := by
  rw [Value.mkString, mkStr_type]
  rfl

theorem get_string_mkString (s : ByteStr) : (Value.mkString s).get_string = s :=
  get_string_mkStr s false

theorem mkArray_toList {xs : ValueList} (h : 1 ≤ xs.length) :
    Value.mkArray xs.toList = .array xs := by
  have hlen := ValueList.vlLength_toList xs
  have hne : ¬ xs.toList.isEmpty = true := by
    intro hemp
    rw [List.isEmpty_iff] at hemp
    rw [hemp] at hlen
    simp at hlen
    omega
  unfold Value.mkArray
  rw [if_neg hne, ValueList.vlOfList_toList]

theorem mkObject_toList {xs : KVList} (h : 1 ≤ xs.length)
    (hs : kvStrictSorted xs = true) :
    Value.mkObject xs.toList = .object xs := by
  have hlen := KVList.kvLength_toList xs
  have hne : ¬ xs.toList.isEmpty = true := by
    intro hemp
    rw [List.isEmpty_iff] at hemp
    rw [hemp] at hlen
    simp at hlen
    omega
  unfold Value.mkObject
  rw [if_neg hne, KVList.kvOfList_toList, sortObject_eq_self hs]

end Imtjson

namespace Imtjson

/-- The binary parser inverts the binary serializer syntactically on every
canonical value, for any fuel at least the value's cost and any trailing
bytes. -/
theorem binRound : ∀ v : Value, ∀ f : Nat, ∀ rest : ByteStr,
    canonV v = true → costV v ≤ f →
    parseBinV f (binValue v ++ rest) = some (v, rest) :=
  @Value.mutualInd
    (fun v => ∀ f rest, canonV v = true → costV v ≤ f →
      parseBinV f (binValue v ++ rest) = some (v, rest))
    (fun xs => ∀ f rest, canonL xs = true → costL xs ≤ f →
      parseBinList f xs.length (binVL xs ++ rest) = some (xs.toList, rest))
    (fun xs => ∀ f rest, canonK xs = true → costK xs ≤ f →
      parseBinKVs f xs.length (binKVL xs ++ rest) = some (xs.toList, rest))
    (by intro f rest h _; simp [canonV] at h)
    (by
      intro f rest _ hc
      have hc' : 1 ≤ f := hc
      obtain ⟨g, rfl⟩ : ∃ g, f = g + 1 := ⟨f - 1, by omega⟩
      simpa [binValue] using parseBinV_null g rest)
    (fun b => by
      intro f rest _ hc
      have hc' : 1 ≤ f := hc
      obtain ⟨g, rfl⟩ : ∃ g, f = g + 1 := ⟨f - 1, by omega⟩
      cases b
      · simpa [binValue] using parseBinV_false g rest
      · simpa [binValue] using parseBinV_true g rest)
    (fun n => by intro f rest h _; simp [canonV] at h)
    (fun n => by intro f rest h _; simp [canonV] at h)
    (fun n => by
      intro f rest h hc
      have hc' : 1 ≤ f := hc
      obtain ⟨g, rfl⟩ : ∃ g, f = g + 1 := ⟨f - 1, by omega⟩
      simp only [canonV, Bool.and_eq_true, decide_eq_true_eq] at h
      have habs : n.natAbs < 2 ^ 64 := by omega
      have hto : -(toInt64 n.natAbs) = n := by
        unfold toInt64
        rw [if_pos (by omega : n.natAbs < 2 ^ 63)]
        omega
      simp only [binValue, if_pos h.2, Bin.tNNumber]
      rw [parseBinV_nnum g n.natAbs habs rest, hto]
    )
    (fun n => by
      intro f rest h hc
      have hc' : 1 ≤ f := hc
      obtain ⟨g, rfl⟩ : ∃ g, f = g + 1 := ⟨f - 1, by omega⟩
      simp only [canonV, decide_eq_true_eq] at h
      simp only [binValue, Bin.tPNumber]
      exact parseBinV_pnum g n h rest)
    (fun bits => by
      intro f rest h hc
      have hc' : 1 ≤ f := hc
      obtain ⟨g, rfl⟩ : ∃ g, f = g + 1 := ⟨f - 1, by omega⟩
      simp only [canonV, Bool.and_eq_true, decide_eq_true_eq] at h
      simp only [binValue]
      rw [parseBinV_double g bits rest, Nat.mod_eq_of_lt h.1])
    (fun len buf => by
      intro f rest h hc
      have hc' : 1 ≤ f := hc
      obtain ⟨g, rfl⟩ : ∃ g, f = g + 1 := ⟨f - 1, by omega⟩
      simp only [canonV, beq_iff_eq] at h
      have hslen : (buf.take len).length < 15 := by
        by_contra hge
        unfold Value.mkStr at h
        rw [if_neg (by omega)] at h
        simp at h
      simp only [binValue, Bin.tString, List.append_assoc]
      rw [parseBinV_str g (buf.take len) rest (by omega)]
      rw [show Value.mkString (buf.take len) = Value.shortString len buf from h]
    )
    (fun len buf => by
      intro f rest h hc
      have hc' : 1 ≤ f := hc
      obtain ⟨g, rfl⟩ : ∃ g, f = g + 1 := ⟨f - 1, by omega⟩
      simp only [canonV, beq_iff_eq] at h
      have hslen : (buf.take len).length < 15 := by
        by_contra hge
        unfold Value.mkStr at h
        rw [if_neg (by omega)] at h
        simp at h
      simp only [binValue, Bin.tStringNumber, List.append_assoc]
      rw [parseBinV_numstr g (buf.take len) rest (by omega)]
      rw [show Value.mkNumber (buf.take len) = Value.shortNumber len buf from h]
    )
    (fun s => by
      intro f rest h hc
      have hc' : 1 ≤ f := hc
      obtain ⟨g, rfl⟩ : ∃ g, f = g + 1 := ⟨f - 1, by omega⟩
      simp only [canonV, Bool.and_eq_true, decide_eq_true_eq] at h
      simp only [binValue, Bin.tString, List.append_assoc]
      rw [parseBinV_str g s rest h.2]
      have hn : ¬ s.length < 15 := by omega
      simp [Value.mkString, Value.mkStr, hn])
    (fun s => by
      intro f rest h hc
      have hc' : 1 ≤ f := hc
      obtain ⟨g, rfl⟩ : ∃ g, f = g + 1 := ⟨f - 1, by omega⟩
      simp only [canonV, Bool.and_eq_true, decide_eq_true_eq] at h
      simp only [binValue, Bin.tStringNumber, List.append_assoc]
      rw [parseBinV_numstr g s rest h.2]
      have hn : ¬ s.length < 15 := by omega
      simp [Value.mkNumber, Value.mkStr, hn])
    (fun s => by intro f rest h _; simp [canonV] at h)
    (fun s => by intro f rest h _; simp [canonV] at h)
    (by
      intro f rest _ hc
      have hc' : 1 ≤ f := hc
      obtain ⟨g, rfl⟩ : ∃ g, f = g + 1 := ⟨f - 1, by omega⟩
      simp only [binValue, Bin.tArray]
      exact parseBinV_arr0 g rest)
    (by
      intro f rest _ hc
      have hc' : 1 ≤ f := hc
      obtain ⟨g, rfl⟩ : ∃ g, f = g + 1 := ⟨f - 1, by omega⟩
      simp only [binValue, Bin.tObject]
      exact parseBinV_obj0 g rest)
    (fun xs ih => by
      intro f rest h hc
      have hc' : costL xs + 1 ≤ f := hc
      obtain ⟨g, rfl⟩ : ∃ g, f = g + 1 := ⟨f - 1, by omega⟩
      simp only [canonV, Bool.and_eq_true, decide_eq_true_eq] at h
      simp only [binValue, Bin.tArray, List.append_assoc]
      rw [parseBinV_arr g xs.length h.1.2 (by omega) (binVL xs ++ rest)]
      rw [ih g rest h.2 (by omega)]
      show some (Value.mkArray xs.toList, rest) = some (.array xs, rest)
      rw [mkArray_toList h.1.1])
    (fun xs ih => by
      intro f rest h hc
      have hc' : costK xs + 1 ≤ f := hc
      obtain ⟨g, rfl⟩ : ∃ g, f = g + 1 := ⟨f - 1, by omega⟩
      simp only [canonV, Bool.and_eq_true, decide_eq_true_eq] at h
      simp only [binValue, Bin.tObject, List.append_assoc]
      rw [parseBinV_obj g xs.length h.1.1.2 (by omega) (binKVL xs ++ rest)]
      rw [ih g rest h.2 (by omega)]
      show some (Value.mkObject xs.toList, rest) = some (.object xs, rest)
      rw [mkObject_toList h.1.1.1 h.1.2])
    (by
      intro f rest _ hc
      have hc' : 1 ≤ f := hc
      obtain ⟨g, rfl⟩ : ∃ g, f = g + 1 := ⟨f - 1, by omega⟩
      simp [parseBinList, binVL, ValueList.toList, ValueList.length])
    (fun v tl ihv ihtl => by
      intro f rest h hc
      simp only [canonL, Bool.and_eq_true] at h
      have hc' : max (costV v) (costL tl) + 1 ≤ f := hc
      obtain ⟨g, rfl⟩ : ∃ g, f = g + 1 := ⟨f - 1, by omega⟩
      have hlen : ValueList.length (.cons v tl) = tl.length + 1 := by
        simp [ValueList.length, Nat.add_comm]
      rw [hlen]
      simp only [binVL, List.append_assoc, parseBinList]
      rw [ihv g (binVL tl ++ rest) h.1 (by omega)]
      show (match parseBinList g tl.length (binVL tl ++ rest) with
            | none => none
            | some (xs, rest2) => some (v :: xs, rest2))
          = some ((ValueList.cons v tl).toList, rest)
      rw [ihtl g rest h.2 (by omega)]
      rfl)
    (by
      intro f rest _ hc
      have hc' : 1 ≤ f := hc
      obtain ⟨g, rfl⟩ : ∃ g, f = g + 1 := ⟨f - 1, by omega⟩
      simp [parseBinKVs, binKVL, KVList.toList, KVList.length])
    (fun k v tl ihv ihtl => by
      intro f rest h hc
      simp only [canonK, Bool.and_eq_true, decide_eq_true_eq] at h
      have hc' : max (costV v) (costK tl) + 1 ≤ f := hc
      have hv1 := costV_pos v
      obtain ⟨g, rfl⟩ : ∃ g, f = g + 1 := ⟨f - 1, by omega⟩
      obtain ⟨g2, rfl⟩ : ∃ g2, g = g2 + 1 := ⟨g - 1, by omega⟩
      have hlen : KVList.length (.cons k v tl) = tl.length + 1 := by
        simp [KVList.length, Nat.add_comm]
      rw [hlen]
      simp only [binKVL, Bin.tString, List.append_assoc, parseBinKVs]
      rw [parseBinV_str g2 k (binValue v ++ (binKVL tl ++ rest)) h.1.1]
      show (if (Value.mkString k).type != .string then none
            else
              match parseBinV (g2 + 1) (binValue v ++ (binKVL tl ++ rest)) with
              | none => none
              | some (w, rest2) =>
                match parseBinKVs (g2 + 1) tl.length rest2 with
                | none => none
                | some (kvs, rest3) =>
                  some (((Value.mkString k).get_string, w) :: kvs, rest3))
          = some ((KVList.cons k v tl).toList, rest)
      rw [mkString_type]
      simp only [bne_self_eq_false, Bool.false_eq_true, if_false]
      rw [ihv (g2 + 1) (binKVL tl ++ rest) h.1.2 (by omega)]
      show (match parseBinKVs (g2 + 1) tl.length (binKVL tl ++ rest) with
            | none => none
            | some (kvs, rest3) =>
              some (((Value.mkString k).get_string, v) :: kvs, rest3))
          = some ((KVList.cons k v tl).toList, rest)
      rw [ihtl (g2 + 1) rest h.2 (by omega), get_string_mkString]
      rfl)

end Imtjson

namespace Imtjson

/-- C1, amended: the binary round trip is the syntactic identity — and
hence compares equal under `Value::operator==` — on every canonical value:
no `undefined` anywhere (`==` is constantly false on undefined operands),
no NaN double (`==` is false on NaN), numbers, strings and containers in
the storage the parser itself produces (`uint64`/negative `int64`
magnitudes below `2^64`/`2^63`, string buffers as laid out by
`Value(std::string_view)`, object keys strictly sorted, container and
string sizes below `2^64`). -/
theorem c1_binary_roundtrip (v : Value) (h : canonV v = true) :
    unbinarize (binarize v) = some v ∧ valueEq v v = true := by
  constructor
  · unfold unbinarize binarize
    have hcost : costV v ≤ 3 * (binValue v).length + 3 := by
      have := costV_le_twice_len v
      omega
    have hrt := binRound v (3 * (binValue v).length + 3) [] h hcost
    rw [List.append_nil] at hrt
    rw [hrt]
  · exact canon_valueEq_refl v h

/-- C1 witness: the amended theorem applied to the concrete document
`{"a": [null, true], "bb": {"k": -5}, "c": 7, "d": "hello world! hi!"}`. -/
theorem c1_binary_roundtrip_witness :
    canonV c1val = true ∧
    (unbinarize (binarize c1val) = some c1val ∧ valueEq c1val c1val = true) :=
  ⟨by decide, c1_binary_roundtrip c1val (by decide)⟩

end Imtjson

namespace Imtjson

/-! ## C2 groundwork: the escape encoder and the in-place decoder invert -/

theorem take_set (l : ByteStr) : ∀ (n : Nat) (b : Nat),
    (l.set n b).take n = l.take n := by
  induction l with
  | nil => intro n b; simp
  | cons c t ih =>
    intro n b
    cases n with
    | zero => simp
    | succ n => simp [List.set, List.take, ih]

theorem take_succ_set (l : ByteStr) : ∀ (n : Nat) (b : Nat), n < l.length →
    (l.set n b).take (n + 1) = l.take n ++ [b] := by
  induction l with
  | nil => intro n b h; simp at h
  | cons c t ih =>
    intro n b h
    cases n with
    | zero => simp
    | succ n =>
      simp only [List.set, List.take, List.cons_append]
      rw [ih n b (by simpa using h)]

theorem bufWrite_length : ∀ (ws buf : ByteStr) (out : Nat),
    (bufWrite buf out ws).length = buf.length := by
  intro ws
  induction ws with
  | nil => intro buf out; simp [bufWrite]
  | cons b tl ih => intro buf out; simp [bufWrite, ih]

theorem bufWrite_take : ∀ (ws buf : ByteStr) (out : Nat),
    out + ws.length ≤ buf.length →
    (bufWrite buf out ws).take (out + ws.length) = buf.take out ++ ws := by
  intro ws
  induction ws with
  | nil => intro buf out h; simp [bufWrite]
  | cons b tl ih =>
    intro buf out h
    simp only [bufWrite, List.length_cons]
    have hlt : out + (tl.length + 1) ≤ buf.length := by
      simpa using h
    have harr : out + (tl.length + 1) = (out + 1) + tl.length := by omega
    rw [harr, ih (buf.set out b) (out + 1) (by simp; omega)]
    rw [take_succ_set buf out b (by omega)]
    simp

theorem hexToInt_hexDigit {n : Nat} (h : n < 16) : hexToInt (hexDigit n) = n := by
  unfold hexDigit hexToInt
  split_ifs <;> simp_all <;> omega

theorem hexAccum_byte {c : Nat} (h : c < 32) :
    hexAccum 0 [48, 48, hexDigit (c / 16), hexDigit (c % 16)] = c := by
  have h1 := hexToInt_hexDigit (show c / 16 < 16 by omega)
  have h2 := hexToInt_hexDigit (show c % 16 < 16 by omega)
  have h48 : hexToInt 48 = 0 := by simp [hexToInt]
  simp only [hexAccum, List.foldl, h48, h1, h2]
  omega

theorem utf8Bytes_small {c : Nat} (h : c < 128) : utf8Bytes c = [c] := by
  unfold utf8Bytes
  rw [if_pos (by omega)]

theorem hexDigit_bounds {n : Nat} (h : n < 16) :
    48 ≤ hexDigit n ∧ hexDigit n ≤ 70 := by
  unfold hexDigit
  split_ifs <;> omega

theorem encodeChar_len_pos (c : Nat) : 1 ≤ (encodeChar c).length := by
  unfold encodeChar
  split_ifs <;> simp

theorem encodeStr_len_ge : ∀ s : ByteStr, s.length ≤ (encodeStr s).length := by
  intro s
  induction s with
  | nil => simp [encodeStr]
  | cons c tl ih =>
    have := encodeChar_len_pos c
    simp [encodeStr]
    omega

end Imtjson

namespace Imtjson

/-- The in-place decoder undoes the escape encoder, one character per
step, writing the decoded byte at the output position.  Bytes 8 and 13
are excluded: their encodings (`b\` and `\f`) do not decode back. -/
theorem decodeGo_encodeStr : ∀ s : ByteStr, strOk s = true →
    ∀ (fuel : Nat) (buf : ByteStr) (out : Nat),
      (encodeStr s).length ≤ fuel → out + (encodeStr s).length ≤ buf.length →
      decodeGo fuel (encodeStr s) buf out
        = (bufWrite buf out s).take (out + s.length) := by
  intro s
  induction s with
  | nil =>
    intro _ fuel buf out _ _
    cases fuel <;> simp [encodeStr, decodeGo, bufWrite]
  | cons c tlS ih =>
    intro hok fuel buf out hfuel hbuf
    rw [strOk, List.all_cons] at hok
    simp only [Bool.and_eq_true, Bool.not_eq_true', beq_eq_false_iff_ne] at hok
    obtain ⟨⟨hc8, hc13⟩, htl⟩ := hok
    have htlOk : strOk tlS = true := htl
    rw [encodeStr] at hfuel hbuf ⊢
    by_cases h34 : c = 34
    · subst h34
      have he : encodeChar 34 = [92, 34] := by decide
      rw [he] at hfuel hbuf ⊢
      obtain ⟨f, rfl⟩ : ∃ f, fuel = f + 1 := ⟨fuel - 1, by simp at hfuel; omega⟩
      simp only [List.cons_append, decodeGo]
      norm_num
      rw [ih htlOk f (buf.set out 34) (out + 1)
        (by simp at hfuel; omega) (by simp at hbuf ⊢; omega)]
      simp only [bufWrite, List.length_cons]
      rw [show out + (tlS.length + 1) = out + 1 + tlS.length by omega]
    · by_cases h92 : c = 92
      · subst h92
        have he : encodeChar 92 = [92, 92] := by decide
        rw [he] at hfuel hbuf ⊢
        obtain ⟨f, rfl⟩ : ∃ f, fuel = f + 1 := ⟨fuel - 1, by simp at hfuel; omega⟩
        simp only [List.cons_append, decodeGo]
        norm_num
        rw [ih htlOk f (buf.set out 92) (out + 1)
          (by simp at hfuel; omega) (by simp at hbuf ⊢; omega)]
        simp only [bufWrite, List.length_cons]
        rw [show out + (tlS.length + 1) = out + 1 + tlS.length by omega]
      · by_cases h12 : c = 12
        · subst h12
          have he : encodeChar 12 = [92, 102] := by decide
          rw [he] at hfuel hbuf ⊢
          obtain ⟨f, rfl⟩ : ∃ f, fuel = f + 1 := ⟨fuel - 1, by simp at hfuel; omega⟩
          simp only [List.cons_append, decodeGo]
          norm_num
          rw [ih htlOk f (buf.set out 12) (out + 1)
            (by simp at hfuel; omega) (by simp at hbuf ⊢; omega)]
          simp only [bufWrite, List.length_cons]
          rw [show out + (tlS.length + 1) = out + 1 + tlS.length by omega]
        · by_cases h10 : c = 10
          · subst h10
            have he : encodeChar 10 = [92, 110] := by decide
            rw [he] at hfuel hbuf ⊢
            obtain ⟨f, rfl⟩ : ∃ f, fuel = f + 1 := ⟨fuel - 1, by simp at hfuel; omega⟩
            simp only [List.cons_append, decodeGo]
            norm_num
            rw [ih htlOk f (buf.set out 10) (out + 1)
              (by simp at hfuel; omega) (by simp at hbuf ⊢; omega)]
            simp only [bufWrite, List.length_cons]
            rw [show out + (tlS.length + 1) = out + 1 + tlS.length by omega]
          · by_cases h9 : c = 9
            · subst h9
              have he : encodeChar 9 = [92, 116] := by decide
              rw [he] at hfuel hbuf ⊢
              obtain ⟨f, rfl⟩ : ∃ f, fuel = f + 1 :=
                ⟨fuel - 1, by simp at hfuel; omega⟩
              simp only [List.cons_append, decodeGo]
              norm_num
              rw [ih htlOk f (buf.set out 9) (out + 1)
                (by simp at hfuel; omega) (by simp at hbuf ⊢; omega)]
              simp only [bufWrite, List.length_cons]
              rw [show out + (tlS.length + 1) = out + 1 + tlS.length by omega]
            · by_cases hctl : c < 32
              · -- `\u00XX` escape
                have he : encodeChar c
                    = [92, 117, 48, 48, hexDigit (c / 16), hexDigit (c % 16)] := by
                  unfold encodeChar
                  rw [if_neg (by simp [h34]), if_neg (by simp [h92]),
                    if_neg (by simp [hc8]), if_neg (by simp [h12]),
                    if_neg (by simp [h10]), if_neg (by simp [hc13]),
                    if_neg (by simp [h9]), if_pos hctl]
                rw [he] at hfuel hbuf ⊢
                obtain ⟨f, rfl⟩ : ∃ f, fuel = f + 1 :=
                  ⟨fuel - 1, by simp at hfuel; omega⟩
                simp only [List.cons_append, decodeGo]
                norm_num
                rw [hexAccum_byte hctl]
                rw [if_neg (by omega)]
                rw [utf8Bytes_small (by omega)]
                simp only [List.drop_succ_cons, List.drop_zero, List.length_cons,
                  List.length_nil]
                have hm : out + max (0 + 1) 1 = out + 1 := by simp
                rw [hm]
                rw [ih htlOk f (bufWrite buf out [c]) (out + 1)
                  (by simp at hfuel; omega)
                  (by rw [bufWrite_length]; simp at hbuf ⊢; omega)]
                simp only [bufWrite, List.length_cons]
                rw [show out + (tlS.length + 1) = out + 1 + tlS.length by omega]
              · -- literal byte
                have he : encodeChar c = [c] := by
                  unfold encodeChar
                  rw [if_neg (by simp [h34]), if_neg (by simp [h92]),
                    if_neg (by simp [hc8]), if_neg (by simp [h12]),
                    if_neg (by simp [h10]), if_neg (by simp [hc13]),
                    if_neg (by simp [h9]), if_neg hctl]
                rw [he] at hfuel hbuf ⊢
                obtain ⟨f, rfl⟩ : ∃ f, fuel = f + 1 :=
                  ⟨fuel - 1, by simp at hfuel; omega⟩
                have hcond : (c == 92) = false := by simp [h92]
                simp only [List.cons_append, List.nil_append, decodeGo, hcond,
                  Bool.false_eq_true, if_false]
                show decodeGo f (encodeStr tlS) (buf.set out c) (out + 1)
                  = List.take (out + (c :: tlS).length) (bufWrite buf out (c :: tlS))
                rw [ih htlOk f (buf.set out c) (out + 1)
                  (by simp at hfuel; omega) (by simp at hbuf ⊢; omega)]
                simp only [bufWrite, List.length_cons]
                rw [show out + (tlS.length + 1) = out + 1 + tlS.length by omega]

end Imtjson

namespace Imtjson

theorem decode_encode (s : ByteStr) (h : strOk s = true) :
    decodeJsonString (encodeStr s) = s := by
  unfold decodeJsonString
  rw [decodeGo_encodeStr s h _ _ _ le_rfl (by simp)]
  have hb := bufWrite_take s (encodeStr s) 0 (by simpa using encodeStr_len_ge s)
  simpa using hb

theorem psString_lit (acc : ByteStr) (c : Nat) (h34 : (c == 34) = false)
    (i : ByteStr) :
    psString false acc (c :: i) = psString (c == 92) (acc ++ [c]) i := by
  simp [psString, h34]

theorem psString_esc (acc : ByteStr) (c : Nat) (i : ByteStr) :
    psString true acc (c :: i) = psString false (acc ++ [c]) i := by
  simp [psString]

theorem psString_esc2 (acc : ByteStr) (e : Nat) (i : ByteStr) :
    psString false acc (92 :: e :: i) = psString false (acc ++ [92, e]) i := by
  rw [psString_lit acc 92 (by decide) _]
  rw [show ((92 : Nat) == 92) = true from rfl, psString_esc]
  simp

/-- The string state consumes a whole encoded payload and finishes at the
closing quote, accumulating the raw bytes for the in-place decode. -/
theorem psString_encode : ∀ s : ByteStr, strOk s = true →
    ∀ (acc rest : ByteStr),
      psString false acc (encodeStr s ++ 34 :: rest)
        = .done (Value.mkString (decodeJsonString (acc ++ encodeStr s))) rest := by
  intro s
  induction s with
  | nil =>
    intro _ acc rest
    simp [encodeStr, psString]
  | cons c tlS ih =>
    intro hok acc rest
    rw [strOk, List.all_cons] at hok
    simp only [Bool.and_eq_true, Bool.not_eq_true', beq_eq_false_iff_ne] at hok
    obtain ⟨⟨hc8, hc13⟩, htl⟩ := hok
    have htlOk : strOk tlS = true := htl
    rw [encodeStr]
    by_cases h34 : c = 34
    · subst h34
      rw [show encodeChar 34 = [92, 34] from by decide]
      simp only [List.cons_append, List.nil_append]
      rw [psString_esc2, ih htlOk (acc ++ [92, 34]) rest]
      simp
    · by_cases h92 : c = 92
      · subst h92
        rw [show encodeChar 92 = [92, 92] from by decide]
        simp only [List.cons_append, List.nil_append]
        rw [psString_esc2, ih htlOk (acc ++ [92, 92]) rest]
        simp
      · by_cases h12 : c = 12
        · subst h12
          rw [show encodeChar 12 = [92, 102] from by decide]
          simp only [List.cons_append, List.nil_append]
          rw [psString_esc2, ih htlOk (acc ++ [92, 102]) rest]
          simp
        · by_cases h10 : c = 10
          · subst h10
            rw [show encodeChar 10 = [92, 110] from by decide]
            simp only [List.cons_append, List.nil_append]
            rw [psString_esc2, ih htlOk (acc ++ [92, 110]) rest]
            simp
          · by_cases h9 : c = 9
            · subst h9
              rw [show encodeChar 9 = [92, 116] from by decide]
              simp only [List.cons_append, List.nil_append]
              rw [psString_esc2, ih htlOk (acc ++ [92, 116]) rest]
              simp
            · by_cases hctl : c < 32
              · have he : encodeChar c
                    = [92, 117, 48, 48, hexDigit (c / 16), hexDigit (c % 16)] := by
                  unfold encodeChar
                  rw [if_neg (by simp [h34]), if_neg (by simp [h92]),
                    if_neg (by simp [hc8]), if_neg (by simp [h12]),
                    if_neg (by simp [h10]), if_neg (by simp [hc13]),
                    if_neg (by simp [h9]), if_pos hctl]
                have hb1 := hexDigit_bounds (show c / 16 < 16 by omega)
                have hb2 := hexDigit_bounds (show c % 16 < 16 by omega)
                rw [he]
                simp only [List.cons_append, List.nil_append]
                rw [psString_esc2]
                rw [psString_lit _ 48 (by decide),
                  show ((48 : Nat) == 92) = false from rfl]
                rw [psString_lit _ 48 (by decide),
                  show ((48 : Nat) == 92) = false from rfl]
                rw [psString_lit _ (hexDigit (c / 16)) (by simp; omega),
                  show (hexDigit (c / 16) == 92) = false from by simp; omega]
                rw [psString_lit _ (hexDigit (c % 16)) (by simp; omega),
                  show (hexDigit (c % 16) == 92) = false from by simp; omega]
                rw [ih htlOk _ rest]
                simp
              · have he : encodeChar c = [c] := by
                  unfold encodeChar
                  rw [if_neg (by simp [h34]), if_neg (by simp [h92]),
                    if_neg (by simp [hc8]), if_neg (by simp [h12]),
                    if_neg (by simp [h10]), if_neg (by simp [hc13]),
                    if_neg (by simp [h9]), if_neg hctl]
                rw [he]
                simp only [List.cons_append, List.nil_append]
                rw [psString_lit _ c (by simp [h34]),
                  show (c == 92) = false from by simp [h92]]
                rw [ih htlOk (acc ++ [c]) rest]
                simp

end Imtjson

namespace Imtjson

/-! ## Machine run lemmas -/

theorem psCheck_run : ∀ (w2 w1 : ByteStr) (res : Value) (rest : ByteStr),
    w2 ≠ [] →
    psCheck (w1 ++ w2) res w1.length (w2 ++ rest) = .done res rest := by
  intro w2
  induction w2 with
  | nil => intro w1 res rest h; exact absurd rfl h
  | cons c w2' ih =>
    intro w1 res rest _
    simp only [List.cons_append, psCheck]
    have hget : (w1 ++ c :: w2').get? w1.length = some c := by
      rw [List.get?_append_right (le_refl _)]
      simp
    rw [hget]
    norm_num
    by_cases hw : w2' = []
    · subst hw
      rw [if_pos rfl]
      simp
    · rw [if_neg hw]
      have := ih (w1 ++ [c]) res rest hw
      simpa using this

theorem psNumber_accept : ∀ (s acc : ByteStr), s.all numAccept = true →
    ∀ i : ByteStr, psNumber acc (s ++ i) = psNumber (acc ++ s) i := by
  intro s
  induction s with
  | nil => intro acc _ i; simp
  | cons c s' ih =>
    intro acc h i
    rw [List.all_cons, Bool.and_eq_true] at h
    simp only [List.cons_append, psNumber, h.1, if_true]
    show psNumber (acc ++ [c]) (s' ++ i) = psNumber (acc ++ c :: s') i
    rw [ih (acc ++ [c]) h.2 i]
    simp

theorem psNumber_done (acc : ByteStr) (d : Nat) (i : ByteStr)
    (hd : numAccept d = false) (hv : is_valid_json_number acc = true) :
    psNumber acc (d :: i) = .done (Value.mkNumber acc) (d :: i) := by
  simp [psNumber, hd, hv]

theorem numOk_parts {s : ByteStr} (h : numOk s = true) :
    is_valid_json_number s = true ∧ s.all numAccept = true ∧
      ∃ c s', s = c :: s' ∧ (isDigit c || c == 45) = true := by
  unfold numOk at h
  cases s with
  | nil => simp at h
  | cons c s' =>
    simp only [Bool.and_eq_true] at h
    exact ⟨h.1.1, h.1.2, c, s', rfl, h.2⟩

theorem psDetect_number {c : Nat} (h : (isDigit c || c == 45) = true)
    (X : ByteStr) :
    psDetect (c :: X) = .push .detect (.snumber []) (c :: X) := by
  have h' : (48 ≤ c ∧ c ≤ 57) ∨ c = 45 := by
    simp [isDigit] at h
    rcases h with h | h
    · exact Or.inl h
    · exact Or.inr h
  have h1 : isSpace c = false := by simp [isSpace]; omega
  have h2 : (c == 91) = false := by simp; omega
  have h3 : (c == 123) = false := by simp; omega
  have h4 : (c == 34) = false := by simp; omega
  have h5 : (c == 116) = false := by simp; omega
  have h6 : (c == 102) = false := by simp; omega
  have h7 : (c == 110) = false := by simp; omega
  have h8 : (isDigit c || c == 45 || c == 43) = true := by
    rw [Bool.or_eq_true]
    exact Or.inl h
  simp [psDetect, h1, h2, h3, h4, h5, h6, h7, h8]

theorem tcanon_defined (v : Value) (h : tcanonV v = true) : v.defined = true := by
  cases v <;> first | rfl | simp [tcanonV] at h

theorem cascade_detect (tl : List TState) (v : Value) (r : ByteStr) :
    cascade (.detect :: tl) v r = cascade tl v r := by
  simp [cascade, finishState]

theorem cascadeRun_detect (tl : List TState) (v : Value) (r : ByteStr) :
    cascadeRun (.detect :: tl) v r = cascadeRun tl v r := by
  unfold cascadeRun
  rw [cascade_detect]

theorem cascade_sarray (d : List Value) (tl : List TState) (v : Value)
    (r : ByteStr) :
    cascade (.sarray d :: tl) v r
      = .continue ⟨.sarray (d ++ [v]) :: tl, v, false, r⟩ := by
  simp [cascade, finishState]

theorem cascade_sobject_key (key : ByteStr) (d : List (ByteStr × Value))
    (tl : List TState) (k' : Value) (r : ByteStr) (h : k'.type = .string) :
    cascade (.sobject true key d :: tl) k' r
      = .continue ⟨.sobject false k'.get_string d :: tl, k', false, r⟩ := by
  simp [cascade, finishState, h]

theorem cascade_sobject_val (key : ByteStr) (d : List (ByteStr × Value))
    (tl : List TState) (v : Value) (r : ByteStr) :
    cascade (.sobject false key d :: tl) v r
      = .continue ⟨.sobject true key (d ++ [(key, v)]) :: tl, v, false, r⟩ := by
  simp [cascade, finishState]

theorem writeLoop_continue {c c' : Cfg} (h1 : ¬ c.input = [])
    (h2 : cycleStep c = .continue c') : writeLoop c = writeLoop c' := by
  rw [writeLoop]
  simp only [if_neg h1]
  cases heq : cycleStep c with
  | «continue» c2 =>
    simp only [heq]
    rw [heq] at h2
    cases h2
    rfl
  | finished c2 => rw [heq] at h2; cases h2
  | stuckRes => rw [heq] at h2; cases h2

theorem writeLoop_finished {c : Cfg} {c' : Cfg} (h1 : ¬ c.input = [])
    (h2 : cycleStep c = .finished c') : writeLoop c = .ok c' false := by
  rw [writeLoop]
  simp only [if_neg h1]
  cases heq : cycleStep c with
  | «continue» c2 => rw [heq] at h2; cases h2
  | finished c2 =>
    simp only [heq]
    rw [heq] at h2
    cases h2
    rfl
  | stuckRes => rw [heq] at h2; cases h2

theorem writeLoop_stuck {c : Cfg} (h1 : ¬ c.input = [])
    (h2 : cycleStep c = .stuckRes) : writeLoop c = .diverge := by
  rw [writeLoop]
  simp only [if_neg h1]
  cases heq : cycleStep c with
  | «continue» c2 => rw [heq] at h2; cases h2
  | finished c2 => rw [heq] at h2; cases h2
  | stuckRes => simp only [heq]

theorem writeLoop_cascade {c : Cfg} {tl : List TState} {v : Value} {r : ByteStr}
    (h1 : ¬ c.input = []) (h2 : cycleStep c = cascade tl v r) :
    writeLoop c = cascadeRun tl v r := by
  cases hc : cascade tl v r with
  | «continue» c' =>
    rw [writeLoop_continue h1 (h2.trans hc)]
    unfold cascadeRun
    rw [hc]
  | finished c' =>
    rw [writeLoop_finished h1 (h2.trans hc)]
    unfold cascadeRun
    rw [hc]
  | stuckRes =>
    rw [writeLoop_stuck h1 (h2.trans hc)]
    unfold cascadeRun
    rw [hc]

end Imtjson

namespace Imtjson

theorem psDetect_quote (X : ByteStr) :
    psDetect (34 :: X) = .push .detect (.sstring false []) X := by
  simp [psDetect, isSpace]

theorem psDetect_lbracket (X : ByteStr) :
    psDetect (91 :: X) = .push .detect (.sarray []) X := by
  simp [psDetect, isSpace]

theorem psDetect_lbrace (X : ByteStr) :
    psDetect (123 :: X) = .push .detect (.sobject true [] []) X := by
  simp [psDetect, isSpace]

theorem psDetect_t (X : ByteStr) :
    psDetect (116 :: X)
      = .push .detect (.scheck Value.trueBytes (.boolean true) 0) (116 :: X) := by
  simp [psDetect, isSpace]

theorem psDetect_f (X : ByteStr) :
    psDetect (102 :: X)
      = .push .detect (.scheck Value.falseBytes (.boolean false) 0) (102 :: X) := by
  simp [psDetect, isSpace]

theorem psDetect_n (X : ByteStr) :
    psDetect (110 :: X)
      = .push .detect (.scheck Value.nullBytes .null 0) (110 :: X) := by
  simp [psDetect, isSpace]

/-- `write` from a detect frame on a quoted, escaped string: the quote is
consumed, the string frame accumulates the payload, decodes it and
finishes. -/
theorem strDetectRun (k : ByteStr) (hk : strOk k = true) (tl : List TState)
    (res0 : Value) (rest : ByteStr) :
    writeLoop ⟨.detect :: tl, res0, false, quoteStr k ++ rest⟩
      = cascadeRun tl (Value.mkString k) rest := by
  have hq : quoteStr k ++ rest = 34 :: (encodeStr k ++ 34 :: rest) := by
    simp [quoteStr]
  have hps : parseState .detect (quoteStr k ++ rest)
      = .push .detect (.sstring false []) (encodeStr k ++ 34 :: rest) := by
    rw [parseState, hq, psDetect_quote]
  have hcy : cycleStep ⟨.detect :: tl, res0, false, quoteStr k ++ rest⟩
      = .continue ⟨.sstring false [] :: .detect :: tl, res0, false,
          encodeStr k ++ 34 :: rest⟩ := by
    simp [cycleStep, hps]
  rw [writeLoop_continue (by simp [hq]) hcy]
  have hps2 : parseState (.sstring false []) (encodeStr k ++ 34 :: rest)
      = .done (Value.mkString k) rest := by
    rw [parseState, psString_encode k hk [] rest]
    simp [decode_encode k hk]
  have hcy2 : cycleStep ⟨.sstring false [] :: .detect :: tl, res0, false,
      encodeStr k ++ 34 :: rest⟩
      = cascade (.detect :: tl) (Value.mkString k) rest := by
    simp [cycleStep, hps2]
  rw [writeLoop_cascade (by simp) hcy2, cascadeRun_detect]

/-- `write` from a detect frame on a keyword literal (`null`, `true`,
`false`). -/
theorem literalRun (w : ByteStr) (res : Value) (c0 : Nat) (w' : ByteStr)
    (hw : w = c0 :: w')
    (hdisp : ∀ X, psDetect (c0 :: X) = .push .detect (.scheck w res 0) (c0 :: X))
    (tl : List TState) (res0 : Value) (rest : ByteStr) :
    writeLoop ⟨.detect :: tl, res0, false, w ++ rest⟩ = cascadeRun tl res rest := by
  have hps : parseState .detect (w ++ rest)
      = .push .detect (.scheck w res 0) (w ++ rest) := by
    rw [parseState, hw, List.cons_append, hdisp, ← List.cons_append, ← hw]
  have hcy : cycleStep ⟨.detect :: tl, res0, false, w ++ rest⟩
      = .continue ⟨.scheck w res 0 :: .detect :: tl, res0, false, w ++ rest⟩ := by
    simp [cycleStep, hps]
  rw [writeLoop_continue (by simp [hw]) hcy]
  have hps2 : parseState (.scheck w res 0) (w ++ rest) = .done res rest := by
    rw [parseState]
    have := psCheck_run w [] res rest (by simp [hw])
    simpa using this
  have hcy2 : cycleStep ⟨.scheck w res 0 :: .detect :: tl, res0, false, w ++ rest⟩
      = cascade (.detect :: tl) res rest := by
    simp [cycleStep, hps2]
  rw [writeLoop_cascade (by simp [hw]) hcy2, cascadeRun_detect]

/-- `write` from a detect frame on a number text followed by a
non-number byte: the number state accumulates the run and finishes on the
delimiter without consuming it. -/
theorem numberDetectRun (s : ByteStr) (hs : numOk s = true) (tl : List TState)
    (res0 : Value) (d : Nat) (hd : numAccept d = false) (rest : ByteStr) :
    writeLoop ⟨.detect :: tl, res0, false, s ++ d :: rest⟩
      = cascadeRun tl (Value.mkNumber s) (d :: rest) := by
  obtain ⟨hvalid, hall, c, s', hcs, hhead⟩ := numOk_parts hs
  have hps : parseState .detect (s ++ d :: rest)
      = .push .detect (.snumber []) (s ++ d :: rest) := by
    rw [parseState, hcs, List.cons_append, psDetect_number hhead,
      ← List.cons_append, ← hcs]
  have hcy : cycleStep ⟨.detect :: tl, res0, false, s ++ d :: rest⟩
      = .continue ⟨.snumber [] :: .detect :: tl, res0, false, s ++ d :: rest⟩ := by
    simp [cycleStep, hps]
  rw [writeLoop_continue (by simp [hcs]) hcy]
  have hps2 : parseState (.snumber []) (s ++ d :: rest)
      = .done (Value.mkNumber s) (d :: rest) := by
    rw [parseState, psNumber_accept s [] hall, List.nil_append,
      psNumber_done s d rest hd hvalid]
  have hcy2 : cycleStep ⟨.snumber [] :: .detect :: tl, res0, false, s ++ d :: rest⟩
      = cascade (.detect :: tl) (Value.mkNumber s) (d :: rest) := by
    simp [cycleStep, hps2]
  rw [writeLoop_cascade (by simp [hcs]) hcy2, cascadeRun_detect]

end Imtjson

namespace Imtjson

theorem textValue_head {v : Value} (h : tcanonV v = true) {s : ByteStr}
    (hs : textValue v = some s) :
    ∃ c s', s = c :: s' ∧ isSpace c = false ∧ (c == 44) = false
      ∧ (c == 93) = false := by
  cases v with
  | undefined => simp [tcanonV] at h
  | null =>
    rw [textValue] at hs
    cases hs
    exact ⟨110, _, rfl, by decide, by decide, by decide⟩
  | boolean b =>
    rw [textValue] at hs
    cases hs
    cases b
    · exact ⟨102, _, rfl, by decide, by decide, by decide⟩
    · exact ⟨116, _, rfl, by decide, by decide, by decide⟩
  | int32 n => simp [tcanonV] at h
  | uint32 n => simp [tcanonV] at h
  | int64 n => simp [tcanonV] at h
  | uint64 n => simp [tcanonV] at h
  | dnum bits => simp [tcanonV] at h
  | shortString len buf =>
    rw [textValue] at hs
    cases hs
    exact ⟨34, _, rfl, by decide, by decide, by decide⟩
  | shortNumber len buf =>
    simp only [tcanonV, Bool.and_eq_true] at h
    obtain ⟨_, _, c, s', hc, hhead⟩ := numOk_parts h.2
    rw [textValue] at hs
    cases hs
    have h' : (48 ≤ c ∧ c ≤ 57) ∨ c = 45 := by
      simp [isDigit] at hhead
      rcases hhead with h1 | h1
      · exact Or.inl h1
      · exact Or.inr h1
    exact ⟨c, s', hc, by simp [isSpace]; omega, by simp; omega, by simp; omega⟩
  | longString str =>
    rw [textValue] at hs
    cases hs
    exact ⟨34, _, rfl, by decide, by decide, by decide⟩
  | longNumber str =>
    simp only [tcanonV, Bool.and_eq_true] at h
    obtain ⟨_, _, c, s', hc, hhead⟩ := numOk_parts h.2
    rw [textValue] at hs
    cases hs
    have h' : (48 ≤ c ∧ c ≤ 57) ∨ c = 45 := by
      simp [isDigit] at hhead
      rcases hhead with h1 | h1
      · exact Or.inl h1
      · exact Or.inr h1
    exact ⟨c, s', hc, by simp [isSpace]; omega, by simp; omega, by simp; omega⟩
  | stringRef str => simp [tcanonV] at h
  | numberRef str => simp [tcanonV] at h
  | emptyArray =>
    rw [textValue] at hs
    cases hs
    exact ⟨91, _, rfl, by decide, by decide, by decide⟩
  | emptyObject =>
    rw [textValue] at hs
    cases hs
    exact ⟨123, _, rfl, by decide, by decide, by decide⟩
  | array xs =>
    rw [textValue] at hs
    rw [Option.map_eq_some'] at hs
    obtain ⟨t, _, ht⟩ := hs
    exact ⟨91, t, ht.symm, by decide, by decide, by decide⟩
  | object xs =>
    rw [textValue] at hs
    rw [Option.map_eq_some'] at hs
    obtain ⟨t, _, ht⟩ := hs
    exact ⟨123, t, ht.symm, by decide, by decide, by decide⟩

theorem textArrTail_shape {xs : ValueList} (h : tcanonL xs = true) {s : ByteStr}
    (hs : textArrTail xs = some s) :
    ∃ d s', s = d :: s' ∧ numAccept d = false := by
  cases xs with
  | nil =>
    rw [textArrTail] at hs
    cases hs
    exact ⟨93, [], rfl, by decide⟩
  | cons v tl =>
    simp only [tcanonL, Bool.and_eq_true] at h
    have hdef := tcanon_defined v h.1
    rw [textArrTail, hdef] at hs
    simp only [if_true] at hs
    split at hs
    · cases hs
      exact ⟨44, _, rfl, by decide⟩
    · cases hs

theorem textObjTail_shape {xs : KVList} (h : tcanonK xs = true) {s : ByteStr}
    (hs : textObjTail xs = some s) :
    ∃ d s', s = d :: s' ∧ numAccept d = false := by
  cases xs with
  | nil =>
    rw [textObjTail] at hs
    cases hs
    exact ⟨125, [], rfl, by decide⟩
  | cons k v tl =>
    simp only [tcanonK, Bool.and_eq_true] at h
    have hdef := tcanon_defined v h.1.2
    rw [textObjTail, hdef] at hs
    simp only [if_true] at hs
    split at hs
    · cases hs
      exact ⟨44, _, rfl, by decide⟩
    · cases hs

end Imtjson

namespace Imtjson

theorem stepPush {st st' ch : TState} {tl : List TState} {res0 : Value}
    {i r : ByteStr} (hne : ¬ i = [])
    (hps : parseState st i = .push st' ch r) :
    writeLoop ⟨st :: tl, res0, false, i⟩
      = writeLoop ⟨ch :: st' :: tl, res0, false, r⟩ := by
  apply writeLoop_continue hne
  simp [cycleStep, hps]

theorem stepDone {st : TState} {tl : List TState} {res0 res : Value}
    {i r : ByteStr} (hne : ¬ i = [])
    (hps : parseState st i = .done res r) :
    writeLoop ⟨st :: tl, res0, false, i⟩ = cascadeRun tl res r := by
  apply writeLoop_cascade hne
  simp [cycleStep, hps]

theorem stepPushD {ch : TState} {tl : List TState} {res0 : Value}
    {i r : ByteStr} (hne : ¬ i = [])
    (hps : psDetect i = .push .detect ch r) :
    writeLoop ⟨.detect :: tl, res0, false, i⟩
      = writeLoop ⟨ch :: .detect :: tl, res0, false, r⟩ :=
  stepPush hne hps

theorem stepPushArr {acc : List Value} {tl : List TState} {res0 : Value}
    {i r : ByteStr} (hne : ¬ i = [])
    (hps : psArray acc i = .push (.sarray acc) .detect r) :
    writeLoop ⟨.sarray acc :: tl, res0, false, i⟩
      = writeLoop ⟨.detect :: .sarray acc :: tl, res0, false, r⟩ :=
  stepPush hne hps

theorem stepDoneArr {acc : List Value} {tl : List TState} {res0 res : Value}
    {i r : ByteStr} (hne : ¬ i = [])
    (hps : psArray acc i = .done res r) :
    writeLoop ⟨.sarray acc :: tl, res0, false, i⟩ = cascadeRun tl res r :=
  stepDone hne hps

theorem stepPushObj {rk : Bool} {key : ByteStr} {acc : List (ByteStr × Value)}
    {tl : List TState} {res0 : Value} {i r : ByteStr} (hne : ¬ i = [])
    (hps : psObject rk key acc i = .push (.sobject rk key acc) .detect r) :
    writeLoop ⟨.sobject rk key acc :: tl, res0, false, i⟩
      = writeLoop ⟨.detect :: .sobject rk key acc :: tl, res0, false, r⟩ :=
  stepPush hne hps

theorem stepDoneObj {rk : Bool} {key : ByteStr} {acc : List (ByteStr × Value)}
    {tl : List TState} {res0 res : Value} {i r : ByteStr} (hne : ¬ i = [])
    (hps : psObject rk key acc i = .done res r) :
    writeLoop ⟨.sobject rk key acc :: tl, res0, false, i⟩ = cascadeRun tl res r :=
  stepDone hne hps

theorem cascadeRun_sarray (d : List Value) (tl : List TState) (v : Value)
    (r : ByteStr) :
    cascadeRun (.sarray d :: tl) v r
      = writeLoop ⟨.sarray (d ++ [v]) :: tl, v, false, r⟩ := by
  unfold cascadeRun
  rw [cascade_sarray]

theorem cascadeRun_sobject_key (key : ByteStr) (d : List (ByteStr × Value))
    (tl : List TState) (k' : Value) (r : ByteStr) (h : k'.type = .string) :
    cascadeRun (.sobject true key d :: tl) k' r
      = writeLoop ⟨.sobject false k'.get_string d :: tl, k', false, r⟩ := by
  unfold cascadeRun
  rw [cascade_sobject_key key d tl k' r h]

theorem cascadeRun_sobject_val (key : ByteStr) (d : List (ByteStr × Value))
    (tl : List TState) (v : Value) (r : ByteStr) :
    cascadeRun (.sobject false key d :: tl) v r
      = writeLoop ⟨.sobject true key (d ++ [(key, v)]) :: tl, v, false, r⟩ := by
  unfold cascadeRun
  rw [cascade_sobject_val]

theorem psArray_comma (acc : List Value) (hacc : acc.isEmpty = false)
    (X : ByteStr) :
    psArray acc (44 :: X) = .push (.sarray acc) .detect X := by
  simp [psArray, isSpace, hacc]

theorem psArray_close (acc : List Value) (X : ByteStr) :
    psArray acc (93 :: X) = .done (Value.mkArray acc) X := by
  simp [psArray, isSpace]

theorem psArray_open {c : Nat} (h1 : isSpace c = false) (h2 : (c == 44) = false)
    (h3 : (c == 93) = false) (X : ByteStr) :
    psArray [] (c :: X) = .push (.sarray []) .detect (c :: X) := by
  simp [psArray, h1, h2, h3]

theorem psObject_comma (key : ByteStr) (acc : List (ByteStr × Value))
    (hacc : acc.isEmpty = false) (X : ByteStr) :
    psObject true key acc (44 :: X) = .push (.sobject true key acc) .detect X := by
  simp [psObject, isSpace, hacc]

theorem psObject_colon (key : ByteStr) (acc : List (ByteStr × Value))
    (X : ByteStr) :
    psObject false key acc (58 :: X) = .push (.sobject false key acc) .detect X := by
  simp [psObject, isSpace]

theorem psObject_close (key : ByteStr) (acc : List (ByteStr × Value))
    (X : ByteStr) :
    psObject true key acc (125 :: X) = .done (Value.mkObject acc) X := by
  simp [psObject, isSpace]

theorem psObject_key (key : ByteStr) (X : ByteStr) :
    psObject true key [] (34 :: X)
      = .push (.sobject true key []) .detect (34 :: X) := by
  simp [psObject, isSpace]

/-- An element run from the detect frame, packaged over the number /
non-number split: the following serialized text always starts with a
non-number byte, which ends a number element without being consumed. -/
theorem elemStep {v : Value} {sv st : ByteStr}
    (hnum : v.type = .number → ∀ (tl : List TState) (res0 : Value) (d : Nat)
      (rest : ByteStr), numAccept d = false →
      writeLoop ⟨.detect :: tl, res0, false, sv ++ d :: rest⟩
        = cascadeRun tl v (d :: rest))
    (hplain : ¬ v.type = .number → ∀ (tl : List TState) (res0 : Value)
      (rest : ByteStr),
      writeLoop ⟨.detect :: tl, res0, false, sv ++ rest⟩ = cascadeRun tl v rest)
    (hshape : ∃ d s', st = d :: s' ∧ numAccept d = false)
    (tl : List TState) (res0 : Value) (rest : ByteStr) :
    writeLoop ⟨.detect :: tl, res0, false, sv ++ (st ++ rest)⟩
      = cascadeRun tl v (st ++ rest) := by
  by_cases hvt : v.type = .number
  · obtain ⟨d, s', rfl, hd⟩ := hshape
    have := hnum hvt tl res0 d (s' ++ rest) hd
    simpa using this
  · exact hplain hvt tl res0 (st ++ rest)

end Imtjson

namespace Imtjson

theorem isEmpty_false_of_ne {α : Type} {l : List α} (h : l ≠ []) :
    l.isEmpty = false := by
  cases l
  · exact absurd rfl h
  · rfl

/-- The incremental text parser inverts the text serializer on every
text-canonical value: from a detect frame over any continuation stack, the
serialized text drives the machine to finish the frame with exactly the
original value.  Number values need the byte after their text (they finish
without consuming it); every other value finishes on its last byte. -/
theorem textRun : ∀ v : Value, tcanonV v = true →
    ∃ s, textValue v = some s ∧
      ((v.type = .number → ∀ (tl : List TState) (res0 : Value) (d : Nat)
          (rest : ByteStr), numAccept d = false →
          writeLoop ⟨.detect :: tl, res0, false, s ++ d :: rest⟩
            = cascadeRun tl v (d :: rest)) ∧
       (¬ v.type = .number → ∀ (tl : List TState) (res0 : Value)
          (rest : ByteStr),
          writeLoop ⟨.detect :: tl, res0, false, s ++ rest⟩
            = cascadeRun tl v rest)) :=
  @Value.mutualInd
    (fun v => tcanonV v = true →
      ∃ s, textValue v = some s ∧
        ((v.type = .number → ∀ (tl : List TState) (res0 : Value) (d : Nat)
            (rest : ByteStr), numAccept d = false →
            writeLoop ⟨.detect :: tl, res0, false, s ++ d :: rest⟩
              = cascadeRun tl v (d :: rest)) ∧
         (¬ v.type = .number → ∀ (tl : List TState) (res0 : Value)
            (rest : ByteStr),
            writeLoop ⟨.detect :: tl, res0, false, s ++ rest⟩
              = cascadeRun tl v rest)))
    (fun xs => tcanonL xs = true →
      (∃ s, textArrTail xs = some s ∧
        ∀ (acc : List Value) (tl : List TState) (res0 : Value) (rest : ByteStr),
          acc ≠ [] →
          writeLoop ⟨.sarray acc :: tl, res0, false, s ++ rest⟩
            = cascadeRun tl (Value.mkArray (acc ++ xs.toList)) rest) ∧
      (∃ s, textArrHead xs = some s ∧
        ∀ (tl : List TState) (res0 : Value) (rest : ByteStr),
          writeLoop ⟨.sarray [] :: tl, res0, false, s ++ rest⟩
            = cascadeRun tl (Value.mkArray xs.toList) rest))
    (fun xs => tcanonK xs = true →
      (∃ s, textObjTail xs = some s ∧
        ∀ (key : ByteStr) (acc : List (ByteStr × Value)) (tl : List TState)
          (res0 : Value) (rest : ByteStr), acc ≠ [] →
          writeLoop ⟨.sobject true key acc :: tl, res0, false, s ++ rest⟩
            = cascadeRun tl (Value.mkObject (acc ++ xs.toList)) rest) ∧
      (∃ s, textObjHead xs = some s ∧
        ∀ (tl : List TState) (res0 : Value) (rest : ByteStr),
          writeLoop ⟨.sobject true [] [] :: tl, res0, false, s ++ rest⟩
            = cascadeRun tl (Value.mkObject xs.toList) rest))
    (by intro h; simp [tcanonV] at h)
    (by
      intro _
      refine ⟨Value.nullBytes, rfl, ?_, ?_⟩
      · intro htype; exact absurd htype (by decide)
      · intro _ tl res0 rest
        exact literalRun Value.nullBytes .null 110 _ rfl psDetect_n tl res0 rest)
    (fun b => by
      intro _
      cases b
      · refine ⟨Value.falseBytes, rfl, ?_, ?_⟩
        · intro htype; exact absurd htype (by decide)
        · intro _ tl res0 rest
          exact literalRun Value.falseBytes (.boolean false) 102 _ rfl
            psDetect_f tl res0 rest
      · refine ⟨Value.trueBytes, rfl, ?_, ?_⟩
        · intro htype; exact absurd htype (by decide)
        · intro _ tl res0 rest
          exact literalRun Value.trueBytes (.boolean true) 116 _ rfl
            psDetect_t tl res0 rest)
    (fun n => by intro h; simp [tcanonV] at h)
    (fun n => by intro h; simp [tcanonV] at h)
    (fun n => by intro h; simp [tcanonV] at h)
    (fun n => by intro h; simp [tcanonV] at h)
    (fun bits => by intro h; simp [tcanonV] at h)
    (fun len buf => by
      intro h
      simp only [tcanonV, Bool.and_eq_true, beq_iff_eq] at h
      refine ⟨quoteStr (buf.take len), rfl, ?_, ?_⟩
      · intro htype; exact absurd htype (by simp [Value.type])
      · intro _ tl res0 rest
        rw [strDetectRun (buf.take len) h.2 tl res0 rest]
        rw [show Value.mkString (buf.take len) = Value.shortString len buf from h.1])
    (fun len buf => by
      intro h
      simp only [tcanonV, Bool.and_eq_true, beq_iff_eq] at h
      refine ⟨buf.take len, rfl, ?_, ?_⟩
      · intro _ tl res0 d rest hd
        rw [numberDetectRun (buf.take len) h.2 tl res0 d hd rest]
        rw [show Value.mkNumber (buf.take len) = Value.shortNumber len buf from h.1]
      · intro hne; exact absurd rfl hne)
    (fun str => by
      intro h
      simp only [tcanonV, Bool.and_eq_true, decide_eq_true_eq] at h
      refine ⟨quoteStr str, rfl, ?_, ?_⟩
      · intro htype; exact absurd htype (by simp [Value.type])
      · intro _ tl res0 rest
        rw [strDetectRun str h.2 tl res0 rest]
        have hn : ¬ str.length < 15 := by omega
        simp [Value.mkString, Value.mkStr, hn])
    (fun str => by
      intro h
      simp only [tcanonV, Bool.and_eq_true, decide_eq_true_eq] at h
      refine ⟨str, rfl, ?_, ?_⟩
      · intro _ tl res0 d rest hd
        rw [numberDetectRun str h.2 tl res0 d hd rest]
        have hn : ¬ str.length < 15 := by omega
        simp [Value.mkNumber, Value.mkStr, hn]
      · intro hne; exact absurd rfl hne)
    (fun str => by intro h; simp [tcanonV] at h)
    (fun str => by intro h; simp [tcanonV] at h)
    (by
      intro _
      refine ⟨[91, 93], rfl, ?_, ?_⟩
      · intro htype; exact absurd htype (by decide)
      · intro _ tl res0 rest
        rw [show ([91, 93] : ByteStr) ++ rest = 91 :: (93 :: rest) from rfl]
        rw [stepPushD (by simp) (psDetect_lbracket (93 :: rest))]
        rw [stepDoneArr (by simp) (psArray_close [] rest)]
        rw [cascadeRun_detect]
        rfl)
    (by
      intro _
      refine ⟨[123, 125], rfl, ?_, ?_⟩
      · intro htype; exact absurd htype (by decide)
      · intro _ tl res0 rest
        rw [show ([123, 125] : ByteStr) ++ rest = 123 :: (125 :: rest) from rfl]
        rw [stepPushD (by simp) (psDetect_lbrace (125 :: rest))]
        rw [stepDoneObj (by simp) (psObject_close [] [] rest)]
        rw [cascadeRun_detect]
        rfl)
    (fun xs ih => by
      intro h
      simp only [tcanonV, Bool.and_eq_true, decide_eq_true_eq] at h
      obtain ⟨_, sh, hsh, hrun⟩ := ih h.2
      refine ⟨91 :: sh, ?_, ?_, ?_⟩
      · simp [textValue, hsh]
      · intro htype; exact absurd htype (by simp [Value.type])
      · intro _ tl res0 rest
        rw [show (91 :: sh) ++ rest = 91 :: (sh ++ rest) from rfl]
        rw [stepPushD (by simp) (psDetect_lbracket (sh ++ rest))]
        rw [hrun (.detect :: tl) res0 rest]
        rw [cascadeRun_detect]
        rw [mkArray_toList h.1])
    (fun xs ih => by
      intro h
      simp only [tcanonV, Bool.and_eq_true, decide_eq_true_eq] at h
      obtain ⟨_, sh, hsh, hrun⟩ := ih h.2
      refine ⟨123 :: sh, ?_, ?_, ?_⟩
      · simp [textValue, hsh]
      · intro htype; exact absurd htype (by simp [Value.type])
      · intro _ tl res0 rest
        rw [show (123 :: sh) ++ rest = 123 :: (sh ++ rest) from rfl]
        rw [stepPushD (by simp) (psDetect_lbrace (sh ++ rest))]
        rw [hrun (.detect :: tl) res0 rest]
        rw [cascadeRun_detect]
        rw [mkObject_toList h.1.1 h.1.2])
    (by
      intro _
      constructor
      · refine ⟨[93], rfl, ?_⟩
        intro acc tl res0 rest hacc
        rw [show ([93] : ByteStr) ++ rest = 93 :: rest from rfl]
        rw [stepDoneArr (by simp) (psArray_close acc rest)]
        simp [ValueList.toList]
      · refine ⟨[93], rfl, ?_⟩
        intro tl res0 rest
        rw [show ([93] : ByteStr) ++ rest = 93 :: rest from rfl]
        rw [stepDoneArr (by simp) (psArray_close [] rest)]
        rfl)
    (fun v tlx ihv ihtl => by
      intro h
      simp only [tcanonL, Bool.and_eq_true] at h
      obtain ⟨sv, hsv, hnum, hplain⟩ := ihv h.1
      obtain ⟨⟨st, hst, htailrun⟩, _⟩ := ihtl h.2
      have hshape := textArrTail_shape h.2 hst
      have hdef : v.defined = true := tcanon_defined v h.1
      constructor
      · refine ⟨44 :: (sv ++ st), ?_, ?_⟩
        · rw [textArrTail, hdef]
          simp [hsv, hst]
        · intro acc tl res0 rest hacc
          rw [show (44 :: (sv ++ st)) ++ rest = 44 :: (sv ++ (st ++ rest)) by simp]
          rw [stepPushArr (by simp) (psArray_comma acc (isEmpty_false_of_ne hacc) _)]
          rw [elemStep hnum hplain hshape (.sarray acc :: tl) res0 rest]
          rw [cascadeRun_sarray]
          rw [htailrun (acc ++ [v]) tl v rest (by simp)]
          simp [ValueList.toList]
      · refine ⟨sv ++ st, ?_, ?_⟩
        · rw [textArrHead, hdef]
          simp [hsv, hst]
        · intro tl res0 rest
          obtain ⟨c0, sv', hc0, hsp, h44, h93⟩ := textValue_head h.1 hsv
          rw [show (sv ++ st) ++ rest = sv ++ (st ++ rest) by simp]
          rw [hc0]
          rw [show (c0 :: sv') ++ (st ++ rest) = c0 :: (sv' ++ (st ++ rest))
            from rfl]
          rw [stepPushArr (by simp) (psArray_open hsp h44 h93 _)]
          rw [show c0 :: (sv' ++ (st ++ rest)) = sv ++ (st ++ rest) by
            rw [hc0]; rfl]
          rw [elemStep hnum hplain hshape (.sarray [] :: tl) res0 rest]
          rw [cascadeRun_sarray]
          rw [htailrun ([] ++ [v]) tl v rest (by simp)]
          simp [ValueList.toList])
    (by
      intro _
      constructor
      · refine ⟨[125], rfl, ?_⟩
        intro key acc tl res0 rest hacc
        rw [show ([125] : ByteStr) ++ rest = 125 :: rest from rfl]
        rw [stepDoneObj (by simp) (psObject_close key acc rest)]
        simp [KVList.toList]
      · refine ⟨[125], rfl, ?_⟩
        intro tl res0 rest
        rw [show ([125] : ByteStr) ++ rest = 125 :: rest from rfl]
        rw [stepDoneObj (by simp) (psObject_close [] [] rest)]
        rfl)
    (fun k v tlk ihv ihtl => by
      intro h
      simp only [tcanonK, Bool.and_eq_true] at h
      obtain ⟨sv, hsv, hnum, hplain⟩ := ihv h.1.2
      obtain ⟨⟨st, hst, htailrun⟩, _⟩ := ihtl h.2
      have hshape := textObjTail_shape h.2 hst
      have hdef : v.defined = true := tcanon_defined v h.1.2
      have hqs : ∀ Y : ByteStr, quoteStr k ++ Y = 34 :: (encodeStr k ++ 34 :: Y) := by
        intro Y
        simp [quoteStr]
      constructor
      · refine ⟨44 :: quoteStr k ++ 58 :: sv ++ st, ?_, ?_⟩
        · rw [textObjTail, hdef]
          simp [hsv, hst]
        · intro key acc tl res0 rest hacc
          rw [show (44 :: quoteStr k ++ 58 :: sv ++ st) ++ rest
            = 44 :: (quoteStr k ++ (58 :: (sv ++ (st ++ rest)))) by simp]
          rw [stepPushObj (by simp) (psObject_comma key acc
            (isEmpty_false_of_ne hacc) _)]
          rw [strDetectRun k h.1.1 (.sobject true key acc :: tl) res0
            (58 :: (sv ++ (st ++ rest)))]
          rw [cascadeRun_sobject_key key acc tl (Value.mkString k) _
            (mkString_type k)]
          rw [get_string_mkString]
          rw [stepPushObj (by simp) (psObject_colon k acc _)]
          rw [elemStep hnum hplain hshape (.sobject false k acc :: tl)
            (Value.mkString k) rest]
          rw [cascadeRun_sobject_val]
          rw [htailrun k (acc ++ [(k, v)]) tl v rest (by simp)]
          simp [KVList.toList]
      · refine ⟨quoteStr k ++ 58 :: sv ++ st, ?_, ?_⟩
        · rw [textObjHead, hdef]
          simp [hsv, hst]
        · intro tl res0 rest
          rw [show (quoteStr k ++ 58 :: sv ++ st) ++ rest
            = quoteStr k ++ (58 :: (sv ++ (st ++ rest))) by simp]
          rw [hqs]
          rw [stepPushObj (by simp) (psObject_key [] _)]
          rw [← hqs]
          rw [strDetectRun k h.1.1 (.sobject true [] [] :: tl) res0
            (58 :: (sv ++ (st ++ rest)))]
          rw [cascadeRun_sobject_key [] [] tl (Value.mkString k) _
            (mkString_type k)]
          rw [get_string_mkString]
          rw [stepPushObj (by simp) (psObject_colon k [] _)]
          rw [elemStep hnum hplain hshape (.sobject false k [] :: tl)
            (Value.mkString k) rest]
          rw [cascadeRun_sobject_val]
          rw [htailrun k ([] ++ [(k, v)]) tl v rest (by simp)]
          simp [KVList.toList])

end Imtjson

namespace Imtjson

/-- `Value::operator==` is reflexive on the text-canonical fragment. -/
theorem tcanon_valueEq_refl : ∀ v : Value, tcanonV v = true → valueEq v v = true :=
  @Value.mutualInd
    (fun v => tcanonV v = true → valueEq v v = true)
    (fun xs => tcanonL xs = true → valueListEq xs xs = true)
    (fun xs => tcanonK xs = true → kvListEq xs xs = true)
    (by intro h; simp [tcanonV] at h)
    (by intro _; rfl)
    (fun b => by intro _; simp [valueEq])
    (fun n => by intro h; simp [tcanonV] at h)
    (fun n => by intro h; simp [tcanonV] at h)
    (fun n => by intro h; simp [tcanonV] at h)
    (fun n => by intro h; simp [tcanonV] at h)
    (fun bits => by intro h; simp [tcanonV] at h)
    (fun len buf => by
      intro _
      show (buf.take len == buf.take len) = true
      simp)
    (fun len buf => by
      intro _
      show (buf.take len == buf.take len) = true
      simp)
    (fun s => by intro _; show (s == s) = true; simp)
    (fun s => by intro _; show (s == s) = true; simp)
    (fun s => by intro h; simp [tcanonV] at h)
    (fun s => by intro h; simp [tcanonV] at h)
    (by intro _; rfl)
    (by intro _; rfl)
    (fun xs ih => by
      intro h
      simp only [tcanonV, Bool.and_eq_true] at h
      show valueListEq xs xs = true
      exact ih h.2)
    (fun xs ih => by
      intro h
      simp only [tcanonV, Bool.and_eq_true] at h
      show kvListEq xs xs = true
      exact ih h.2)
    (by intro _; rfl)
    (fun v tl ihv ihtl => by
      intro h
      simp only [tcanonL, Bool.and_eq_true] at h
      simp [valueListEq, ihv h.1, ihtl h.2])
    (by intro _; rfl)
    (fun k v tl ihv ihtl => by
      intro h
      simp only [tcanonK, Bool.and_eq_true] at h
      simp [kvListEq, ihv h.1.2, ihtl h.2])

end Imtjson

namespace Imtjson

/-! ## Claim C2 — text round trip -/

/-- C2, counterexample: the claim fails on the stated value space.  A bare
top-level number never completes — the number state only emits on seeing a
following byte, so `parse(stringify(Value(5)))` throws instead of
returning — and even inside a container, a parsed number comes back in
number-string storage, which `operator==` never equates with the original
`int32` storage. -/
theorem c2_roundtrip_not_equal :
    stringify (.int32 5) = some [53] ∧ parse [53] = none ∧
    stringify (Value.mkArray [.int32 5]) = some [91, 53, 93] ∧
    parse [91, 53, 93] = some (Value.mkArray [Value.mkNumber [53]]) ∧
    valueEq (Value.mkArray [Value.mkNumber [53]]) (Value.mkArray [.int32 5])
      = false := by
  refine ⟨by decide, ?_, by decide, ?_, by decide⟩
  · have h : writeFuel 10 { initParser with input := [53] }
        = some (.ok ⟨[.snumber [53], .detect], .undefined, false, []⟩ true) := by
      decide
    simp [parse, write, writeFuel_sound _ _ _ h]
  · have h : writeFuel 20 { initParser with input := [91, 53, 93] }
        = some (.ok ⟨[], Value.mkArray [Value.mkNumber [53]], false, []⟩ false) := by
      decide
    simp [parse, write, writeFuel_sound _ _ _ h]

/-- C2, amended: the text round trip holds — syntactically, hence under
`Value::operator==`, which is reflexive there — on the text-canonical
fragment: no `undefined`, no NaN, and moreover no integer or double
storage at all (numbers must already be number-strings: the parser always
produces number-string storage and `operator==` compares storage
alternatives), number texts valid and made of accepted bytes, strings and
keys free of bytes 8 and 13 (the encoder mangles both), canonical string
layouts, strictly sorted object keys — and a non-number top-level value
(a bare top-level number never completes, claim C7's divergence aside). -/
theorem c2_text_roundtrip (v : Value) (h : tcanonV v = true)
    (htop : ¬ v.type = .number) :
    ∃ s, stringify v = some s ∧ parse s = some v ∧ valueEq v v = true := by
  obtain ⟨s, hsv, hx⟩ := textRun v h
  refine ⟨s, hsv, ?_, tcanon_valueEq_refl v h⟩
  have hrun := hx.2 htop [] .undefined []
  rw [List.append_nil] at hrun
  have hw : write initParser s = .ok ⟨[], v, false, []⟩ false := by
    unfold write
    have hcfg : ({ initParser with input := s } : Cfg)
        = ⟨[.detect], .undefined, false, s⟩ := rfl
    rw [hcfg, hrun]
    rfl
  simp [parse, hw]

/-- C2 witness: the amended theorem applied to the concrete document
`{"a": [null, 5], "b": "x\"y"}` (exercising containers, a nested number
and an escaped quote). -/
theorem c2_text_roundtrip_witness :
    tcanonV c2val = true ∧ ¬ c2val.type = .number ∧
    (∃ s, stringify c2val = some s ∧ parse s = some c2val ∧
      valueEq c2val c2val = true) :=
  ⟨by decide, by decide, c2_text_roundtrip c2val (by decide) (by decide)⟩

end Imtjson

namespace Imtjson

/-! ## C3 groundwork: chunk-splitting lemmas

Each `parse_state` overload scans the chunk left to right, so running it
on `i ++ s2` behaves like running it on `i` and, only when `i` is
exhausted (`more`), continuing on `s2`; every other outcome just carries
`s2` along in the unconsumed rest. -/

theorem parseState_nil (st : TState) : parseState st [] = .more st := by
  cases st <;> rfl

theorem parseState_extend (st : TState) (i s2 : ByteStr) :
    parseState st (i ++ s2)
      = (match parseState st i with
         | .more st' => parseState st' s2
         | .push st' ch r => .push st' ch (r ++ s2)
         | .done res r => .done res (r ++ s2)
         | .err r => .err (r ++ s2)
         | .stuck st' r => .stuck st' (r ++ s2)) := by
  cases st with
  | detect =>
    show psDetect (i ++ s2)
        = (match psDetect i with
         | .more st' => parseState st' s2
         | .push st' ch r => .push st' ch (r ++ s2)
         | .done res r => .done res (r ++ s2)
         | .err r => .err (r ++ s2)
         | .stuck st' r => .stuck st' (r ++ s2))
    induction i with
    | nil => rfl
    | cons c i' ih =>
      simp only [List.cons_append, psDetect]
      split_ifs <;> first | exact ih | rfl
  | scheck w res p =>
    show psCheck w res p (i ++ s2)
        = (match psCheck w res p i with
         | .more st' => parseState st' s2
         | .push st' ch r => .push st' ch (r ++ s2)
         | .done res r => .done res (r ++ s2)
         | .err r => .err (r ++ s2)
         | .stuck st' r => .stuck st' (r ++ s2))
    induction i generalizing p with
    | nil => rfl
    | cons c i' ih =>
      simp only [List.cons_append, psCheck]
      split_ifs <;> first | exact ih (p + 1) | rfl
  | sstring e d =>
    show psString e d (i ++ s2)
        = (match psString e d i with
         | .more st' => parseState st' s2
         | .push st' ch r => .push st' ch (r ++ s2)
         | .done res r => .done res (r ++ s2)
         | .err r => .err (r ++ s2)
         | .stuck st' r => .stuck st' (r ++ s2))
    induction i generalizing e d with
    | nil => rfl
    | cons c i' ih =>
      simp only [List.cons_append, psString]
      split_ifs <;> first | exact ih _ _ | rfl
  | snumber d =>
    show psNumber d (i ++ s2)
        = (match psNumber d i with
         | .more st' => parseState st' s2
         | .push st' ch r => .push st' ch (r ++ s2)
         | .done res r => .done res (r ++ s2)
         | .err r => .err (r ++ s2)
         | .stuck st' r => .stuck st' (r ++ s2))
    induction i generalizing d with
    | nil => rfl
    | cons c i' ih =>
      simp only [List.cons_append, psNumber]
      split_ifs <;> first | exact ih _ | rfl
  | sarray d =>
    show psArray d (i ++ s2)
        = (match psArray d i with
         | .more st' => parseState st' s2
         | .push st' ch r => .push st' ch (r ++ s2)
         | .done res r => .done res (r ++ s2)
         | .err r => .err (r ++ s2)
         | .stuck st' r => .stuck st' (r ++ s2))
    induction i with
    | nil => rfl
    | cons c i' ih =>
      simp only [List.cons_append, psArray]
      split_ifs <;> first | exact ih | rfl
  | sobject rk k d =>
    show psObject rk k d (i ++ s2)
        = (match psObject rk k d i with
         | .more st' => parseState st' s2
         | .push st' ch r => .push st' ch (r ++ s2)
         | .done res r => .done res (r ++ s2)
         | .err r => .err (r ++ s2)
         | .stuck st' r => .stuck st' (r ++ s2))
    induction i with
    | nil => rfl
    | cons c i' ih =>
      simp only [List.cons_append, psObject]
      split_ifs <;> first | exact ih | rfl

theorem cascade_extend (tl : List TState) (res : Value) (r s2 : ByteStr) :
    cascade tl res (r ++ s2)
      = (match cascade tl res r with
         | .continue c' => .continue (inpExt c' s2)
         | .finished c' => .finished (inpExt c' s2)
         | .stuckRes => .stuckRes) := by
  induction tl generalizing res with
  | nil => rfl
  | cons st tl ih =>
    simp only [cascade]
    cases hfs : finishState st res with
    | keep st' => rfl
    | pop res' => exact ih res'
    | errF => rfl

theorem cascade_finished_shape {tl : List TState} {res : Value} {r : ByteStr}
    {c' : Cfg} (h : cascade tl res r = .finished c') :
    c'.stack = [] ∨ c'.isErr = true := by
  induction tl generalizing res with
  | nil =>
    rw [cascade] at h
    cases h
    exact Or.inl rfl
  | cons st tl ih =>
    rw [cascade] at h
    split at h
    · cases h
    · exact ih h
    · cases h
      exact Or.inr rfl

end Imtjson

namespace Imtjson

theorem writeLoop_nilstack (c : Cfg) (h : c.stack = []) :
    writeLoop c = .ok c false := by
  by_cases hin : c.input = []
  · rw [writeLoop, if_pos hin, h]
    rfl
  · exact writeLoop_finished hin (by simp [cycleStep, h])

/-- The trivial splitting case: the first chunk was fully consumed right
at the `write` exit, so gluing more input on simply resumes. -/
theorem writeLoop_extend_exit {c c1 : Cfg} (hin : c.input = [])
    (h : writeLoop c = .ok c1 true) (s2 : ByteStr) :
    writeLoop (inpExt c s2) = writeLoop { c1 with input := s2 } := by
  rw [writeLoop, if_pos hin] at h
  injection h with hc hb
  subst hc
  have he : inpExt c s2 = { c with input := s2 } := by
    simp [inpExt, hin]
  rw [he]

theorem wrEq_refl (r : WriteRes) : wrEq r r := by
  cases r <;> simp [wrEq]

/-- Chunk composition, needs-more case: a `write` that consumed its whole
chunk and asked for more behaves, on the glued chunk, observably like the
saved state resumed on the second chunk.  (Only the frame stack of an
error exit can differ, and only in the top frame's scan position.) -/
theorem writeLoop_extend : ∀ (n : Nat) (c c1 : Cfg) (s2 : ByteStr), phi c ≤ n →
    writeLoop c = .ok c1 true →
    wrEq (writeLoop (inpExt c s2)) (writeLoop { c1 with input := s2 }) := by
  intro n
  induction n with
  | zero =>
    intro c c1 s2 hphi h
    have hin : c.input = [] := by
      unfold phi at hphi
      cases hi : c.input
      · rfl
      · rw [hi] at hphi
        simp at hphi
    rw [writeLoop_extend_exit hin h s2]
    exact wrEq_refl _
  | succ n ih =>
    intro c c1 s2 hphi h
    by_cases hin : c.input = []
    · rw [writeLoop_extend_exit hin h s2]
      exact wrEq_refl _
    · have hneE : ¬ (inpExt c s2).input = [] := by
        simp [inpExt, hin]
      cases hstk : c.stack with
      | nil =>
        rw [writeLoop_finished hin
          (show cycleStep c = .finished c by simp [cycleStep, hstk])] at h
        simp at h
      | cons st tl =>
        have hext := parseState_extend st c.input s2
        cases hps : parseState st c.input with
        | more st' =>
          simp only [hps] at hext
          have hcy : cycleStep c = .continue ⟨st' :: tl, c.result, c.isErr, []⟩ := by
            simp [cycleStep, hstk, hps]
          rw [writeLoop_continue hin hcy] at h
          rw [writeLoop, if_pos rfl] at h
          injection h with hc hb
          by_cases hs2 : s2 = []
          · subst hs2
            rw [show inpExt c [] = c from by simp [inpExt]]
            rw [writeLoop_continue hin hcy]
            rw [writeLoop, if_pos rfl]
            rw [← hc]
            rw [writeLoop, if_pos rfl]
            exact wrEq_refl _
          · have hrhsne : ¬ (⟨st' :: tl, c.result, c.isErr, s2⟩ : Cfg).input
                = [] := by
              simpa using hs2
            have hmain : wrEq (writeLoop (inpExt c s2))
                (writeLoop ⟨st' :: tl, c.result, c.isErr, s2⟩) := by
              cases ho : parseState st' s2 with
              | more st2 =>
                have hA : cycleStep (inpExt c s2)
                    = .continue ⟨st2 :: tl, c.result, c.isErr, []⟩ := by
                  simp [cycleStep, inpExt, hstk, hext, ho]
                have hB : cycleStep (⟨st' :: tl, c.result, c.isErr, s2⟩ : Cfg)
                    = .continue ⟨st2 :: tl, c.result, c.isErr, []⟩ := by
                  simp [cycleStep, ho]
                rw [writeLoop_continue hneE hA, writeLoop_continue hrhsne hB]
                exact wrEq_refl _
              | push st2 ch r =>
                have hA : cycleStep (inpExt c s2)
                    = .continue ⟨ch :: st2 :: tl, c.result, c.isErr, r⟩ := by
                  simp [cycleStep, inpExt, hstk, hext, ho]
                have hB : cycleStep (⟨st' :: tl, c.result, c.isErr, s2⟩ : Cfg)
                    = .continue ⟨ch :: st2 :: tl, c.result, c.isErr, r⟩ := by
                  simp [cycleStep, ho]
                rw [writeLoop_continue hneE hA, writeLoop_continue hrhsne hB]
                exact wrEq_refl _
              | done res r =>
                by_cases herr : c.isErr = true
                · have hA : cycleStep (inpExt c s2)
                      = .finished ⟨st :: tl, res, true, r⟩ := by
                    simp [cycleStep, inpExt, hstk, hext, ho, herr]
                  have hB : cycleStep (⟨st' :: tl, c.result, c.isErr, s2⟩ : Cfg)
                      = .finished ⟨st' :: tl, res, true, r⟩ := by
                    simp [cycleStep, ho, herr]
                  rw [writeLoop_finished hneE hA, writeLoop_finished hrhsne hB]
                  simp [wrEq]
                · have herr' : c.isErr = false := by simpa using herr
                  have hA : cycleStep (inpExt c s2) = cascade tl res r := by
                    simp [cycleStep, inpExt, hstk, hext, ho, herr']
                  have hB : cycleStep (⟨st' :: tl, c.result, c.isErr, s2⟩ : Cfg)
                      = cascade tl res r := by
                    simp [cycleStep, ho, herr']
                  cases hcas : cascade tl res r with
                  | «continue» cc =>
                    rw [writeLoop_continue hneE (hA.trans hcas),
                      writeLoop_continue hrhsne (hB.trans hcas)]
                    exact wrEq_refl _
                  | finished cc =>
                    rw [writeLoop_finished hneE (hA.trans hcas),
                      writeLoop_finished hrhsne (hB.trans hcas)]
                    exact wrEq_refl _
                  | stuckRes =>
                    rw [writeLoop_stuck hneE (hA.trans hcas),
                      writeLoop_stuck hrhsne (hB.trans hcas)]
                    exact wrEq_refl _
              | err r =>
                have hA : cycleStep (inpExt c s2)
                    = .finished ⟨st :: tl, c.result, true, r⟩ := by
                  simp [cycleStep, inpExt, hstk, hext, ho]
                have hB : cycleStep (⟨st' :: tl, c.result, c.isErr, s2⟩ : Cfg)
                    = .finished ⟨st' :: tl, c.result, true, r⟩ := by
                  simp [cycleStep, ho]
                rw [writeLoop_finished hneE hA, writeLoop_finished hrhsne hB]
                simp [wrEq]
              | stuck st2 r =>
                have hA : cycleStep (inpExt c s2) = .stuckRes := by
                  simp [cycleStep, inpExt, hstk, hext, ho]
                have hB : cycleStep (⟨st' :: tl, c.result, c.isErr, s2⟩ : Cfg)
                    = .stuckRes := by
                  simp [cycleStep, ho]
                rw [writeLoop_stuck hneE hA, writeLoop_stuck hrhsne hB]
                exact wrEq_refl _
            rw [← hc]
            exact hmain
        | push st' ch r =>
          simp only [hps] at hext
          have hcy : cycleStep c
              = .continue ⟨ch :: st' :: tl, c.result, c.isErr, r⟩ := by
            simp [cycleStep, hstk, hps]
          rw [writeLoop_continue hin hcy] at h
          have hcyE : cycleStep (inpExt c s2)
              = .continue (inpExt ⟨ch :: st' :: tl, c.result, c.isErr, r⟩ s2) := by
            simp [cycleStep, inpExt, hstk, hext]
          rw [writeLoop_continue hneE hcyE]
          exact ih _ c1 s2
            (by have := cycle_decreases c _ hin hcy; omega) h
        | done res r =>
          simp only [hps] at hext
          by_cases herr : c.isErr = true
          · rw [writeLoop_finished hin
              (show cycleStep c = .finished ⟨st :: tl, res, true, r⟩ by
                simp [cycleStep, hstk, hps, herr])] at h
            simp at h
          · have herr' : c.isErr = false := by
              simpa using herr
            have hcy : cycleStep c = cascade tl res r := by
              simp [cycleStep, hstk, hps, herr']
            have hcasE := cascade_extend tl res r s2
            cases hcas : cascade tl res r with
            | «continue» ccas =>
              rw [hcas] at hcasE
              have hcyE : cycleStep (inpExt c s2) = .continue (inpExt ccas s2) := by
                simp [cycleStep, inpExt, hstk, hext, herr', hcasE]
              rw [writeLoop_continue hin (hcy.trans hcas)] at h
              rw [writeLoop_continue hneE hcyE]
              exact ih ccas c1 s2
                (by have := cycle_decreases c ccas hin (hcy.trans hcas); omega) h
            | finished cfin =>
              rw [writeLoop_finished hin (hcy.trans hcas)] at h
              simp at h
            | stuckRes =>
              rw [writeLoop_stuck hin (hcy.trans hcas)] at h
              simp at h
        | err r =>
          rw [writeLoop_finished hin
            (show cycleStep c = .finished ⟨st :: tl, c.result, true, r⟩ by
              simp [cycleStep, hstk, hps])] at h
          simp at h
        | stuck st' r =>
          rw [writeLoop_stuck hin (by simp [cycleStep, hstk, hps])] at h
          simp at h

end Imtjson

namespace Imtjson

theorem writeLoop_false_exit {c c1 : Cfg} (hin : c.input = [])
    (h : writeLoop c = .ok c1 false) (s2 : ByteStr) :
    writeLoop (inpExt c s2) = .ok (inpExt c1 s2) false := by
  rw [writeLoop, if_pos hin] at h
  injection h with hc hb
  subst hc
  have hstk : c.stack = [] := by
    cases hs : c.stack
    · rfl
    · rw [hs] at hb
      simp at hb
  exact writeLoop_nilstack (inpExt c s2) (by simp [inpExt, hstk])

/-- Chunk composition, finished case: a `write` that returned `false`
discarded the rest of its chunk, and the glued run finishes at the same
spot with the extra input carried along unread. -/
theorem writeLoop_false_extend : ∀ (n : Nat) (c c1 : Cfg) (s2 : ByteStr),
    phi c ≤ n → writeLoop c = .ok c1 false →
    writeLoop (inpExt c s2) = .ok (inpExt c1 s2) false := by
  intro n
  induction n with
  | zero =>
    intro c c1 s2 hphi h
    have hin : c.input = [] := by
      unfold phi at hphi
      cases hi : c.input
      · rfl
      · rw [hi] at hphi
        simp at hphi
    exact writeLoop_false_exit hin h s2
  | succ n ih =>
    intro c c1 s2 hphi h
    by_cases hin : c.input = []
    · exact writeLoop_false_exit hin h s2
    · have hneE : ¬ (inpExt c s2).input = [] := by
        simp [inpExt, hin]
      cases hstk : c.stack with
      | nil =>
        rw [writeLoop_finished hin
          (show cycleStep c = .finished c by simp [cycleStep, hstk])] at h
        injection h with hc hb
        subst hc
        exact writeLoop_nilstack (inpExt c s2) (by simp [inpExt, hstk])
      | cons st tl =>
        have hext := parseState_extend st c.input s2
        cases hps : parseState st c.input with
        | more st' =>
          have hcy : cycleStep c
              = .continue ⟨st' :: tl, c.result, c.isErr, []⟩ := by
            simp [cycleStep, hstk, hps]
          rw [writeLoop_continue hin hcy] at h
          rw [writeLoop, if_pos rfl] at h
          injection h with hc hb
          simp at hb
        | push st' ch r =>
          simp only [hps] at hext
          have hcy : cycleStep c
              = .continue ⟨ch :: st' :: tl, c.result, c.isErr, r⟩ := by
            simp [cycleStep, hstk, hps]
          rw [writeLoop_continue hin hcy] at h
          have hcyE : cycleStep (inpExt c s2)
              = .continue (inpExt ⟨ch :: st' :: tl, c.result, c.isErr, r⟩ s2) := by
            simp [cycleStep, inpExt, hstk, hext]
          rw [writeLoop_continue hneE hcyE]
          exact ih _ c1 s2 (by have := cycle_decreases c _ hin hcy; omega) h
        | done res r =>
          simp only [hps] at hext
          by_cases herr : c.isErr = true
          · rw [writeLoop_finished hin
              (show cycleStep c = .finished ⟨st :: tl, res, true, r⟩ by
                simp [cycleStep, hstk, hps, herr])] at h
            injection h with hc hb
            subst hc
            have hcyE : cycleStep (inpExt c s2)
                = .finished ⟨st :: tl, res, true, r ++ s2⟩ := by
              simp [cycleStep, inpExt, hstk, hext, herr]
            rw [writeLoop_finished hneE hcyE]
            rfl
          · have herr' : c.isErr = false := by
              simpa using herr
            have hcy : cycleStep c = cascade tl res r := by
              simp [cycleStep, hstk, hps, herr']
            have hcasE := cascade_extend tl res r s2
            cases hcas : cascade tl res r with
            | «continue» ccas =>
              rw [hcas] at hcasE
              have hcyE : cycleStep (inpExt c s2)
                  = .continue (inpExt ccas s2) := by
                simp [cycleStep, inpExt, hstk, hext, herr', hcasE]
              rw [writeLoop_continue hin (hcy.trans hcas)] at h
              rw [writeLoop_continue hneE hcyE]
              exact ih ccas c1 s2
                (by have := cycle_decreases c ccas hin (hcy.trans hcas); omega) h
            | finished cfin =>
              rw [hcas] at hcasE
              rw [writeLoop_finished hin (hcy.trans hcas)] at h
              injection h with hc hb
              subst hc
              have hcyE : cycleStep (inpExt c s2)
                  = .finished (inpExt cfin s2) := by
                simp [cycleStep, inpExt, hstk, hext, herr', hcasE]
              rw [writeLoop_finished hneE hcyE]
            | stuckRes =>
              rw [writeLoop_stuck hin (hcy.trans hcas)] at h
              simp at h
        | err r =>
          simp only [hps] at hext
          rw [writeLoop_finished hin
            (show cycleStep c = .finished ⟨st :: tl, c.result, true, r⟩ by
              simp [cycleStep, hstk, hps])] at h
          injection h with hc hb
          subst hc
          have hcyE : cycleStep (inpExt c s2)
              = .finished ⟨st :: tl, c.result, true, r ++ s2⟩ := by
            simp [cycleStep, inpExt, hstk, hext]
          rw [writeLoop_finished hneE hcyE]
          rfl
        | stuck st' r =>
          rw [writeLoop_stuck hin (by simp [cycleStep, hstk, hps])] at h
          simp at h

end Imtjson

namespace Imtjson

/-- The error flag is sticky: once `_is_error` is set, every later cycle
keeps it (completions short-circuit without popping, errors re-set it). -/
theorem writeLoop_err_sticky : ∀ (n : Nat) (c c2 : Cfg) (b : Bool), phi c ≤ n →
    c.isErr = true → writeLoop c = .ok c2 b → c2.isErr = true := by
  intro n
  induction n with
  | zero =>
    intro c c2 b hphi herr h
    have hin : c.input = [] := by
      unfold phi at hphi
      cases hi : c.input
      · rfl
      · rw [hi] at hphi
        simp at hphi
    rw [writeLoop, if_pos hin] at h
    injection h with hc hb
    subst hc
    exact herr
  | succ n ih =>
    intro c c2 b hphi herr h
    by_cases hin : c.input = []
    · rw [writeLoop, if_pos hin] at h
      injection h with hc hb
      subst hc
      exact herr
    · cases hstk : c.stack with
      | nil =>
        rw [writeLoop_finished hin
          (show cycleStep c = .finished c by simp [cycleStep, hstk])] at h
        injection h with hc hb
        subst hc
        exact herr
      | cons st tl =>
        cases hps : parseState st c.input with
        | more st' =>
          have hcy : cycleStep c
              = .continue ⟨st' :: tl, c.result, c.isErr, []⟩ := by
            simp [cycleStep, hstk, hps]
          rw [writeLoop_continue hin hcy] at h
          exact ih ⟨st' :: tl, c.result, c.isErr, []⟩ c2 b
            (by have := cycle_decreases c _ hin hcy; omega) herr h
        | push st' ch r =>
          have hcy : cycleStep c
              = .continue ⟨ch :: st' :: tl, c.result, c.isErr, r⟩ := by
            simp [cycleStep, hstk, hps]
          rw [writeLoop_continue hin hcy] at h
          exact ih ⟨ch :: st' :: tl, c.result, c.isErr, r⟩ c2 b
            (by have := cycle_decreases c _ hin hcy; omega) herr h
        | done res r =>
          rw [writeLoop_finished hin
            (show cycleStep c = .finished ⟨st :: tl, res, true, r⟩ by
              simp [cycleStep, hstk, hps, herr])] at h
          injection h with hc hb
          rw [← hc]
        | err r =>
          rw [writeLoop_finished hin
            (show cycleStep c = .finished ⟨st :: tl, c.result, true, r⟩ by
              simp [cycleStep, hstk, hps])] at h
          injection h with hc hb
          rw [← hc]
        | stuck st' r =>
          rw [writeLoop_stuck hin (by simp [cycleStep, hstk, hps])] at h
          simp at h

/-- A `write` that returned `false` either emptied the stack (a value
completed at the top level) or raised the error flag. -/
theorem writeLoop_false_stack : ∀ (n : Nat) (c c1 : Cfg), phi c ≤ n →
    writeLoop c = .ok c1 false → c1.stack = [] ∨ c1.isErr = true := by
  intro n
  induction n with
  | zero =>
    intro c c1 hphi h
    have hin : c.input = [] := by
      unfold phi at hphi
      cases hi : c.input
      · rfl
      · rw [hi] at hphi
        simp at hphi
    rw [writeLoop, if_pos hin] at h
    injection h with hc hb
    subst hc
    refine Or.inl ?_
    cases hs : c.stack
    · rfl
    · rw [hs] at hb
      simp at hb
  | succ n ih =>
    intro c c1 hphi h
    by_cases hin : c.input = []
    · rw [writeLoop, if_pos hin] at h
      injection h with hc hb
      subst hc
      refine Or.inl ?_
      cases hs : c.stack
      · rfl
      · rw [hs] at hb
        simp at hb
    · cases hstk : c.stack with
      | nil =>
        rw [writeLoop_finished hin
          (show cycleStep c = .finished c by simp [cycleStep, hstk])] at h
        injection h with hc hb
        subst hc
        exact Or.inl hstk
      | cons st tl =>
        cases hps : parseState st c.input with
        | more st' =>
          have hcy : cycleStep c
              = .continue ⟨st' :: tl, c.result, c.isErr, []⟩ := by
            simp [cycleStep, hstk, hps]
          rw [writeLoop_continue hin hcy] at h
          rw [writeLoop, if_pos rfl] at h
          injection h with hc hb
          simp at hb
        | push st' ch r =>
          have hcy : cycleStep c
              = .continue ⟨ch :: st' :: tl, c.result, c.isErr, r⟩ := by
            simp [cycleStep, hstk, hps]
          rw [writeLoop_continue hin hcy] at h
          exact ih _ c1 (by have := cycle_decreases c _ hin hcy; omega) h
        | done res r =>
          by_cases herr : c.isErr = true
          · rw [writeLoop_finished hin
              (show cycleStep c = .finished ⟨st :: tl, res, true, r⟩ by
                simp [cycleStep, hstk, hps, herr])] at h
            injection h with hc hb
            rw [← hc]
            exact Or.inr rfl
          · have herr' : c.isErr = false := by
              simpa using herr
            have hcy : cycleStep c = cascade tl res r := by
              simp [cycleStep, hstk, hps, herr']
            cases hcas : cascade tl res r with
            | «continue» ccas =>
              rw [writeLoop_continue hin (hcy.trans hcas)] at h
              exact ih ccas c1
                (by have := cycle_decreases c ccas hin (hcy.trans hcas); omega) h
            | finished cfin =>
              rw [writeLoop_finished hin (hcy.trans hcas)] at h
              injection h with hc hb
              subst hc
              exact cascade_finished_shape hcas
            | stuckRes =>
              rw [writeLoop_stuck hin (hcy.trans hcas)] at h
              simp at h
        | err r =>
          rw [writeLoop_finished hin
            (show cycleStep c = .finished ⟨st :: tl, c.result, true, r⟩ by
              simp [cycleStep, hstk, hps])] at h
          injection h with hc hb
          rw [← hc]
          exact Or.inr rfl
        | stuck st' r =>
          rw [writeLoop_stuck hin (by simp [cycleStep, hstk, hps])] at h
          simp at h

end Imtjson

namespace Imtjson

/-! ## Claim C3 — split equivalence of incremental writes -/

/-- C3, counterexample: splitting is not outcome-preserving.  On the
input `"@+x"` fed whole, `write` returns `false` with the error flag set
(the `'@'` is rejected by the detect state).  Split after the first byte,
the first `write` reports the same error, but the second `write` — on
`"+x"` — never returns: the `'+'` opens a number run, and when `'x'`
arrives the invalid run `"+"` makes `parse_state(StateNumber&)` spin
forever (the C7 divergence).  The whole-input call terminates; the split
calls do not even produce an error flag or a result to compare. -/
theorem c3_split_not_equivalent :
    write initParser [64, 43, 120]
      = .ok ⟨[.detect], .undefined, true, [64, 43, 120]⟩ false ∧
    write initParser ([64, 43, 120].take 1)
      = .ok ⟨[.detect], .undefined, true, [64]⟩ false ∧
    write ⟨[.detect], .undefined, true, [64]⟩ ([64, 43, 120].drop 1)
      = .diverge := by
  refine ⟨?_, ?_, ?_⟩
  · exact writeFuel_sound 10 _ _ (by decide)
  · exact writeFuel_sound 10 _ _ (by decide)
  · exact writeFuel_sound 20 _ _ (by decide)

/-- C3, amended: whenever all three `write` calls return (none hits the
number-state divergence), feeding the two halves yields the same error
flag and the same `get_result()` as feeding the whole input — though not
necessarily the same returned bool or frame stack.  The proof splits on
the first half's return: `true` means the chunk was consumed, and the
glued run is observably the saved state resumed; `false` means the whole
run finishes at the same early spot, after which the second half is
processed by an emptied stack (a no-op for both observables) or under the
sticky error flag. -/
theorem c3_split_observational (s : ByteStr) (i : Nat)
    (cW c1 c2 : Cfg) (bW b1 b2 : Bool)
    (hW : write initParser s = .ok cW bW)
    (h1 : write initParser (s.take i) = .ok c1 b1)
    (h2 : write c1 (s.drop i) = .ok c2 b2) :
    c2.isErr = cW.isErr ∧ getResult c2 = getResult cW := by
  have hsplit : s.take i ++ s.drop i = s := List.take_append_drop i s
  have hWL : writeLoop ⟨[.detect], .undefined, false, s⟩ = .ok cW bW := hW
  have h1L : writeLoop ⟨[.detect], .undefined, false, s.take i⟩ = .ok c1 b1 := h1
  have h2L : writeLoop { c1 with input := s.drop i } = .ok c2 b2 := h2
  have hE : inpExt ⟨[.detect], .undefined, false, s.take i⟩ (s.drop i)
      = ⟨[.detect], .undefined, false, s⟩ := by
    simp [inpExt, hsplit]
  cases b1 with
  | true =>
    have hx := writeLoop_extend (phi ⟨[.detect], .undefined, false, s.take i⟩)
      _ c1 (s.drop i) le_rfl h1L
    rw [hE, hWL, h2L] at hx
    simp only [wrEq] at hx
    obtain ⟨hb, hisErr, hres, hinp⟩ := hx
    refine ⟨hisErr.symm, ?_⟩
    simp [getResult, hisErr, hres]
  | false =>
    have hx := writeLoop_false_extend (phi ⟨[.detect], .undefined, false, s.take i⟩)
      _ c1 (s.drop i) le_rfl h1L
    rw [hE, hWL] at hx
    injection hx with hc hb
    rcases writeLoop_false_stack (phi ⟨[.detect], .undefined, false, s.take i⟩)
        _ c1 le_rfl h1L with hstk | herr
    · have h2' : writeLoop { c1 with input := s.drop i }
          = .ok { c1 with input := s.drop i } false :=
        writeLoop_nilstack _ (by simpa using hstk)
      rw [h2'] at h2L
      injection h2L with hc2 hb2
      rw [← hc2, hc]
      exact ⟨rfl, rfl⟩
    · have herr2 : ({ c1 with input := s.drop i } : Cfg).isErr = true := herr
      have hc2e : c2.isErr = true :=
        writeLoop_err_sticky (phi ({ c1 with input := s.drop i } : Cfg))
          _ c2 b2 le_rfl herr2 h2L
      have hcWe : cW.isErr = true := by
        rw [hc]
        exact herr
      rw [hc2e, hcWe]
      refine ⟨rfl, ?_⟩
      simp [getResult, hc2e, hcWe]

/-- C3 witness: the amended theorem applied to `"true"` split after two
bytes — the first `write` saves a keyword check at position 2, the second
resumes it, and both the whole and the split feeds end with no error and
result `true`. -/
theorem c3_split_observational_witness :
    (⟨[], Value.boolean true, false, []⟩ : Cfg).isErr
        = (⟨[], Value.boolean true, false, []⟩ : Cfg).isErr ∧
      getResult ⟨[], Value.boolean true, false, []⟩
        = getResult ⟨[], Value.boolean true, false, []⟩ :=
  c3_split_observational [116, 114, 117, 101] 2
    ⟨[], Value.boolean true, false, []⟩
    ⟨[.scheck Value.trueBytes (.boolean true) 2, .detect], .undefined, false, []⟩
    ⟨[], Value.boolean true, false, []⟩
    false true false
    (writeFuel_sound 10 _ _ (by decide))
    (writeFuel_sound 10 _ _ (by decide))
    (writeFuel_sound 10 _ _ (by decide))

end Imtjson
